import Mathlib

/-!
# Ogg/Opus 1 kHz encode/decode example (`example/1khz_enc_dec_c/main.cpp`)

A shallow embedding of the example program.  The byte buffers the program fills are
lists of optional bytes (`none` is a byte that was never assigned), C `int` values are
integers wrapped to 32 bits where the program computes with them, and the calls into the
Ogg and Opus libraries are recorded in the order the program makes them; what the
libraries answer is an input of the embedding.  The messages on `stderr` are kept; the
progress output on `stdout` and the synthesis of the sine wave, whose samples only the
encoder sees, are left out.
-/

namespace OpusExample

/-! ## Constants of the program -/

def SAMPLE_RATE : Nat := 48000
def CHANNELS : Nat := 1
def FRAME_SIZE : Nat := 480
def MAX_FRAME_SIZE : Nat := 6 * FRAME_SIZE
def MAX_PACKET_SIZE : Nat := 3 * 1276
def DURATION_SECONDS : Nat := 10
def BITRATE : Nat := 64000

/-! ## Machine integers and byte buffers -/

/-- Conversion of an integer to a C `int` (32 bits, two's complement). -/
def toInt32 (x : Int) : Int := (x + 2147483648) % 4294967296 - 2147483648

/-- Conversion of an integer to a `size_t` (64 bits, unsigned). -/
def toSizeT (x : Int) : Int := x % 18446744073709551616

/-- The `n` low-order bytes of `v`, least significant first: what a store of an
`n`-byte integer leaves in memory on a little-endian host. -/
def leBytes : Nat → Nat → List Nat
  | 0, _ => []
  | n + 1, v => v % 256 :: leBytes n (v / 256)

/-- The value of a little-endian byte string. -/
def leValue : List Nat → Nat
  | [] => 0
  | b :: bs => b + 256 * leValue bs

/-- The bytes of a C string literal (without the terminating NUL). -/
def cstr (s : String) : List Nat := s.toList.map Char.toNat

/-- A byte buffer; `none` is a byte that has not been assigned. -/
abbrev Buffer := List (Option Nat)

/-- A fresh buffer of `n` bytes (`unsigned char header[n]` or `malloc(n)`). -/
def alloc (n : Nat) : Buffer := List.replicate n none

/-- The assignment `buf[i] = b`. -/
def storeByte (buf : Buffer) (i : Nat) (b : Nat) : Buffer := buf.set i (some b)

/-- The call `memcpy(buf + off, src, src.length)`. -/
def memcpy (buf : Buffer) (off : Nat) : List Nat → Buffer
  | [] => buf
  | b :: bs => memcpy (storeByte buf off b) (off + 1) bs

/-- The store `*(int*)(buf + off) = v` on a little-endian host. -/
def storeInt (buf : Buffer) (off : Nat) (v : Int) : Buffer :=
  memcpy buf off (leBytes 4 (v % 4294967296).toNat)

/-- The store `*(short*)(buf + off) = v` on a little-endian host. -/
def storeShort (buf : Buffer) (off : Nat) (v : Int) : Buffer :=
  memcpy buf off (leBytes 2 (v % 65536).toNat)

/-! ## Library objects -/

/-- The fields of an `ogg_packet` the program sets. -/
structure ogg_packet where
  packet : Buffer
  bytes : Int
  b_o_s : Int
  e_o_s : Int
  granulepos : Int
  packetno : Int
  deriving DecidableEq, Repr

/-- An `ogg_page` as the library hands it out: header bytes and body bytes. -/
structure ogg_page where
  header : List Nat
  body : List Nat
  deriving DecidableEq, Repr

/-- A call the program makes into the Ogg and Opus libraries, with what the library
answered where the program looks at the answer. -/
inductive Call where
  | stream_init (serialno : Int)
  | packetin (op : ogg_packet)
  | flush (og : Option ogg_page)
  | pageout (og : Option ogg_page)
  | sync_pageout (serialno : Int)
  | pagein (ret : Int)
  | packetout (op : ogg_packet)
  | opus_decode (op : ogg_packet) (ret : Int)
  | stream_clear
  deriving DecidableEq, Repr

/-- The state of an `ogg_stream_state` is the history of the calls made on it. -/
abbrev ogg_stream_state := List Call

/-! ## `write_wav_header` -/

/-- The 44 bytes `write_wav_header(file, num_samples)` builds and passes to `fwrite`. -/
def write_wav_header (num_samples : Int) : Buffer :=
  let header := alloc 44
  let data_size := toInt32 (toSizeT (toSizeT num_samples * 2))
  let header := memcpy header 0 (cstr "RIFF")
  let header := storeInt header 4 (toInt32 (36 + data_size))
  let header := memcpy header 8 (cstr "WAVE")
  let header := memcpy header 12 (cstr "fmt ")
  let header := storeInt header 16 16
  let header := storeShort header 20 1
  let header := storeShort header 22 CHANNELS
  let header := storeInt header 24 SAMPLE_RATE
  let header := storeInt header 28 (toSizeT (SAMPLE_RATE * CHANNELS * 2))
  let header := storeShort header 32 (toSizeT (CHANNELS * 2))
  let header := storeShort header 34 16
  let header := memcpy header 36 (cstr "data")
  let header := storeInt header 40 data_size
  header

/-! ## `write_opus_header` and `write_opus_comments` -/

/-- The identification packet `write_opus_header` builds. -/
def opus_header_packet : ogg_packet :=
  let header := alloc 19
  let header := memcpy header 0 (cstr "OpusHead")
  let header := storeByte header 8 1
  let header := storeByte header 9 CHANNELS
  let header := storeByte header 10 0
  let header := storeByte header 11 0
  let header := storeByte header 12 ((SAMPLE_RATE >>> 0) &&& 0xFF)
  let header := storeByte header 13 ((SAMPLE_RATE >>> 8) &&& 0xFF)
  let header := storeByte header 14 ((SAMPLE_RATE >>> 16) &&& 0xFF)
  let header := storeByte header 15 ((SAMPLE_RATE >>> 24) &&& 0xFF)
  let header := storeByte header 16 0
  let header := storeByte header 17 0
  let header := storeByte header 18 0
  { packet := header, bytes := 19, b_o_s := 1, e_o_s := 0, granulepos := 0, packetno := 0 }

/-- The function `write_opus_header(os, serialno)`: builds the identification packet and
submits it with `ogg_stream_packetin`, whose return value it does not look at. -/
def write_opus_header (os : ogg_stream_state) (_serialno : Int) : ogg_stream_state :=
  os ++ [Call.packetin opus_header_packet]

/-- The 32-bit pattern of an `int`, as an unsigned value. -/
def bits32 (x : Int) : Nat := (x % 4294967296).toNat

/-- The assignment `buf[i] = b` with an `int` index.  A store at a negative index or past
the end of the buffer is outside the buffer and is not modelled: it leaves the buffer as it
is. -/
def storeAt (buf : Buffer) (i : Int) (b : Nat) : Buffer :=
  if i < 0 then buf else storeByte buf i.toNat b

/-- The comment packet `write_opus_comments` builds for a vendor string.  The length is
held in an `int`, and the sizes, the indices and the packet length computed from it are
`int` sums that wrap to 32 bits; the shifts are arithmetic and the masks act on the 32-bit
pattern; `malloc` and `memcpy` take their size as a `size_t`. -/
def opus_comments_packet (vendor : List Nat) : ogg_packet :=
  let vendor_length : Int := toInt32 vendor.length
  let header := alloc (toSizeT (toInt32 (toInt32 (toInt32 (8 + 4) + vendor_length) + 4))).toNat
  let header := memcpy header 0 (cstr "OpusTags")
  let header := storeByte header 8 (bits32 (vendor_length >>> (0 : Nat)) &&& 0xFF)
  let header := storeByte header 9 (bits32 (vendor_length >>> (8 : Nat)) &&& 0xFF)
  let header := storeByte header 10 (bits32 (vendor_length >>> (16 : Nat)) &&& 0xFF)
  let header := storeByte header 11 (bits32 (vendor_length >>> (24 : Nat)) &&& 0xFF)
  let header := memcpy header 12 (vendor.take (toSizeT vendor_length).toNat)
  let header := storeAt header (toInt32 (12 + vendor_length)) 0
  let header := storeAt header (toInt32 (13 + vendor_length)) 0
  let header := storeAt header (toInt32 (14 + vendor_length)) 0
  let header := storeAt header (toInt32 (15 + vendor_length)) 0
  { packet := header, bytes := toInt32 (16 + vendor_length), b_o_s := 0, e_o_s := 0,
    granulepos := 0, packetno := 1 }

/-- The vendor string of the program. -/
def vendor : List Nat := cstr "libopus 1.3.1"

/-- The function `write_opus_comments(os)`. -/
def write_opus_comments (os : ogg_stream_state) : ogg_stream_state :=
  os ++ [Call.packetin (opus_comments_packet vendor)]

/-- A vendor string of `2^31 - 1` bytes, all "A". -/
def vendor_long : List Nat := List.replicate 2147483647 65

/-- A vendor string of `2^31 - 17` bytes, all "A": the longest for which `16 + L` fits an
`int`. -/
def vendor_max : List Nat := List.replicate 2147483631 65

/-! ## `encode_sine_wave` -/

/-- What the environment answers to `encode_sine_wave`: the error codes of the encoder
set-up, the value of `rand()`, whether `fopen` and the two `malloc` calls succeed, for
each frame what `opus_encode` returns and leaves in the packet buffer and what
`ogg_stream_packetin` returns, and for each drain loop the pages the library hands out
before it returns 0. -/
structure EncEnv where
  encoder_create_error : Int
  set_bitrate_error : Int
  set_complexity_error : Int
  rand : Int
  fopen_ok : Bool
  header_pages : List ogg_page
  malloc_pcm_ok : Bool
  malloc_packet_ok : Bool
  opus_encode : Nat → Int × Buffer
  packetin_ret : Nat → Int
  frame_pages : Nat → List ogg_page
  final_pages : List ogg_page

/-- The stream state, the bytes written to the output file and the error messages. -/
structure EncState where
  os : ogg_stream_state
  outfile : List Nat
  stderr : List String
  deriving DecidableEq, Repr

/-- What `encode_sine_wave` returns and leaves behind. -/
structure EncResult where
  ret : Int
  os : ogg_stream_state
  outfile : Option (List Nat)
  stderr : List String
  deriving DecidableEq, Repr

/-- The loop `while (ogg_stream_flush(&os, &og)) { fwrite header; fwrite body; }`: one call
for each page handed out, then the call that returns 0. -/
def flush_loop : List ogg_page → EncState → EncState
  | [], st => { st with os := st.os ++ [Call.flush none] }
  | og :: rest, st =>
    flush_loop rest { st with os := st.os ++ [Call.flush (some og)],
                              outfile := st.outfile ++ og.header ++ og.body }

/-- The loop `while (ogg_stream_pageout(&os, &og)) { fwrite header; fwrite body; }`. -/
def pageout_loop : List ogg_page → EncState → EncState
  | [], st => { st with os := st.os ++ [Call.pageout none] }
  | og :: rest, st =>
    pageout_loop rest { st with os := st.os ++ [Call.pageout (some og)],
                                outfile := st.outfile ++ og.header ++ og.body }

/-- The packet the frame loop builds for frame `i` from the encoder's answer. -/
def audio_packet (num_frames i : Nat) (packet : Buffer) (nbBytes : Int) : ogg_packet :=
  { packet := packet, bytes := nbBytes, b_o_s := 0,
    e_o_s := if i = num_frames - 1 then 1 else 0,
    granulepos := toInt32 ((i + 1) * FRAME_SIZE),
    packetno := toInt32 (i + 2) }

/-- The loop `for (int i = 0; i < num_frames; i++)` from frame `i` on, with `n` frames
left.  The flag is `false` when the loop is left through `goto cleanup`. -/
def encode_loop (env : EncEnv) (num_frames : Nat) : Nat → Nat → EncState → EncState × Bool
  | 0, _, st => (st, true)
  | n + 1, i, st =>
    let nbBytes := (env.opus_encode i).1
    let packet := (env.opus_encode i).2
    if nbBytes < 0 then
      ({ st with stderr := st.stderr ++ ["Error: Failed to encode frame"] }, false)
    else
      let op := audio_packet num_frames i packet nbBytes
      let st := { st with os := st.os ++ [Call.packetin op] }
      if env.packetin_ret i ≠ 0 then
        ({ st with stderr := st.stderr ++ ["Error: Failed to add packet to Ogg stream"] }, false)
      else
        encode_loop env num_frames n (i + 1) (pageout_loop (env.frame_pages i) st)

/-- The number of frames the program encodes. -/
def num_frames : Nat := (SAMPLE_RATE * DURATION_SECONDS) / FRAME_SIZE

/-- The function `encode_sine_wave(output_file)`. -/
def encode_sine_wave (env : EncEnv) : EncResult :=
  if env.encoder_create_error ≠ 0 then
    { ret := 1, os := [], outfile := none, stderr := ["Error: Failed to create encoder"] }
  else if env.set_bitrate_error ≠ 0 then
    { ret := 1, os := [], outfile := none, stderr := ["Error: Failed to set bitrate"] }
  else if env.set_complexity_error ≠ 0 then
    { ret := 1, os := [], outfile := none, stderr := ["Error: Failed to set complexity"] }
  else
    let serialno := env.rand
    let os : ogg_stream_state := [Call.stream_init serialno]
    if !env.fopen_ok then
      { ret := 1, os := os, outfile := none, stderr := ["Error: Failed to open output file"] }
    else
      let os := write_opus_header os serialno
      let os := write_opus_comments os
      let st := flush_loop env.header_pages { os := os, outfile := [], stderr := [] }
      let st :=
        if !(env.malloc_pcm_ok && env.malloc_packet_ok) then
          { st with stderr := st.stderr ++ ["Error: Memory allocation failed"] }
        else
          match encode_loop env num_frames num_frames 0 st with
          | (st, false) => st
          | (st, true) => flush_loop env.final_pages st
      { ret := 0, os := st.os ++ [Call.stream_clear], outfile := some st.outfile,
        stderr := st.stderr }

/-! ## `decode_ogg_to_wav` -/

/-- A file opened for writing: its bytes and the position of the next write. -/
structure CFile where
  data : List Nat
  pos : Nat
  deriving DecidableEq, Repr

/-- The call `fwrite` of a byte string: the bytes go to the current position, over what
is there, and the position moves past them. -/
def fwrite (f : CFile) (bytes : List Nat) : CFile :=
  { data := f.data.take f.pos ++ bytes ++ f.data.drop (f.pos + bytes.length),
    pos := f.pos + bytes.length }

/-- The call `rewind`. -/
def rewind (f : CFile) : CFile := { f with pos := 0 }

/-- The two bytes of a 16-bit sample on a little-endian host. -/
def sampleBytes (s : Int) : List Nat := leBytes 2 (s % 65536).toNat

/-- The bytes of a run of samples. -/
def samplesBytes (pcm : List Int) : List Nat := (pcm.map sampleBytes).flatten

/-- The bytes of a buffer as `fwrite` sends them out. -/
def bufferBytes (b : Buffer) : List Nat := b.map (fun x => x.getD 0)

/-- One packet handed out by `ogg_stream_packetout`, with what `opus_decode` returns for
it and leaves in the sample buffer. -/
structure PacketEvt where
  op : ogg_packet
  frame_size : Int
  pcm : List Int
  deriving DecidableEq, Repr

/-- One page handed out by `ogg_sync_pageout`: its serial number, what
`ogg_stream_pagein` returns for it and the packets that come out after it. -/
structure PageEvt where
  serialno : Int
  pagein_ret : Int
  packets : List PacketEvt
  deriving DecidableEq, Repr

/-- What the environment answers to `decode_ogg_to_wav`: set-up results and, for each
non-empty `fread`, the pages that come out of the sync layer after it. -/
structure DecEnv where
  decoder_create_error : Int
  fopen_in_ok : Bool
  fopen_out_ok : Bool
  malloc_ok : Bool
  chunks : List (List PageEvt)
  deriving DecidableEq, Repr

/-- The local variables of `decode_ogg_to_wav`, the calls made so far, the output file and
the error messages. -/
structure DecState where
  total_samples : Int
  serialno : Int
  frame_count : Int
  calls : List Call
  outfile : CFile
  stderr : List String
  deriving DecidableEq, Repr

/-- What `decode_ogg_to_wav` returns and leaves behind. -/
structure DecResult where
  ret : Int
  total_samples : Int
  frame_count : Int
  calls : List Call
  outfile : Option (List Nat)
  stderr : List String
  deriving DecidableEq, Repr

/-- The loop `while (ogg_stream_packetout(&os, &op) == 1)`.  The flag is `false` when the
loop is left through `goto cleanup`. -/
def packet_loop : List PacketEvt → DecState → DecState × Bool
  | [], st => (st, true)
  | pk :: rest, st =>
    let st := { st with calls := st.calls ++
                  [Call.packetout pk.op, Call.opus_decode pk.op pk.frame_size] }
    if pk.frame_size < 0 then
      ({ st with stderr := st.stderr ++ ["Error: Failed to decode packet"] }, false)
    else
      packet_loop rest
        { st with outfile := fwrite st.outfile (samplesBytes (pk.pcm.take pk.frame_size.toNat)),
                  total_samples := toInt32 (st.total_samples + pk.frame_size),
                  frame_count := toInt32 (st.frame_count + 1) }

/-- The loop `while (ogg_sync_pageout(&oy, &og) == 1)`. -/
def page_loop : List PageEvt → DecState → DecState × Bool
  | [], st => (st, true)
  | pg :: rest, st =>
    let st := { st with calls := st.calls ++ [Call.sync_pageout pg.serialno] }
    let st :=
      if st.serialno = -1 then
        { st with serialno := pg.serialno, calls := st.calls ++ [Call.stream_init pg.serialno] }
      else st
    let st := { st with calls := st.calls ++ [Call.pagein pg.pagein_ret] }
    if pg.pagein_ret ≠ 0 then
      ({ st with stderr := st.stderr ++ ["Error: Failed to read Ogg page"] }, false)
    else
      match packet_loop pg.packets st with
      | (st, false) => (st, false)
      | (st, true) => page_loop rest st

/-- The loop `while (1)` over the non-empty reads; it ends when `fread` returns 0. -/
def chunk_loop : List (List PageEvt) → DecState → DecState × Bool
  | [], st => (st, true)
  | pages :: rest, st =>
    match page_loop pages st with
    | (st, false) => (st, false)
    | (st, true) => chunk_loop rest st

/-- The state at `printf("Decoding frames...")`. -/
def dec_init : DecState :=
  { total_samples := 0, serialno := -1, frame_count := 0, calls := [],
    outfile := { data := [], pos := 0 }, stderr := [] }

/-- The function `decode_ogg_to_wav(input_file, output_file)`. -/
def decode_ogg_to_wav (env : DecEnv) : DecResult :=
  if env.decoder_create_error ≠ 0 then
    { ret := 1, total_samples := 0, frame_count := 0, calls := [], outfile := none,
      stderr := ["Error: Failed to create decoder"] }
  else if !env.fopen_in_ok then
    { ret := 1, total_samples := 0, frame_count := 0, calls := [], outfile := none,
      stderr := ["Error: Failed to open input file"] }
  else if !env.fopen_out_ok then
    { ret := 1, total_samples := 0, frame_count := 0, calls := [], outfile := none,
      stderr := ["Error: Failed to open output file"] }
  else
    let st :=
      if !env.malloc_ok then
        { dec_init with stderr := ["Error: Memory allocation failed"] }
      else
        match chunk_loop env.chunks dec_init with
        | (st, false) => st
        | (st, true) =>
          { st with outfile :=
              fwrite (rewind st.outfile) (bufferBytes (write_wav_header st.total_samples)) }
    { ret := 0, total_samples := st.total_samples, frame_count := st.frame_count,
      calls := st.calls ++ [Call.stream_clear], outfile := some st.outfile.data,
      stderr := st.stderr }

/-! ## `main` -/

/-- What the environment answers to `main`. -/
structure MainEnv where
  malloc_ok : Bool
  fopen_ok : Bool
  enc : EncEnv
  dec : DecEnv

/-- What `main` returns, its own error messages, and which of the steps 2 and 3 it ran. -/
structure MainResult where
  ret : Int
  stderr : List String
  encoded : Bool
  decoded : Bool
  deriving DecidableEq, Repr

/-- The function `main`. -/
def main (env : MainEnv) : MainResult :=
  if !env.malloc_ok then
    { ret := 1, stderr := ["Error: Memory allocation failed"], encoded := false, decoded := false }
  else if !env.fopen_ok then
    { ret := 1, stderr := ["Error: Failed to open output file"], encoded := false,
      decoded := false }
  else if (encode_sine_wave env.enc).ret ≠ 0 then
    { ret := 1, stderr := ["Error: Encoding failed"], encoded := true, decoded := false }
  else if (decode_ogg_to_wav env.dec).ret ≠ 0 then
    { ret := 1, stderr := ["Error: Decoding failed"], encoded := true, decoded := true }
  else
    { ret := 0, stderr := [], encoded := true, decoded := true }

/-! ## Observations on a run -/

/-- The packets submitted with `ogg_stream_packetin`, in the order of submission. -/
def submitted : List Call → List ogg_packet
  | [] => []
  | Call.packetin op :: rest => op :: submitted rest
  | _ :: rest => submitted rest

/-- The encoder set-up and `fopen` succeed, so that the function reaches the headers. -/
def EncEnv.setup_ok (env : EncEnv) : Prop :=
  env.encoder_create_error = 0 ∧ env.set_bitrate_error = 0 ∧ env.set_complexity_error = 0
    ∧ env.fopen_ok = true

/-- Both buffers are allocated, and for every frame the encoder and `ogg_stream_packetin`
succeed. -/
def EncEnv.frames_ok (env : EncEnv) : Prop :=
  env.malloc_pcm_ok = true ∧ env.malloc_packet_ok = true
    ∧ ∀ i, i < num_frames → 0 ≤ (env.opus_encode i).1 ∧ env.packetin_ret i = 0

/-- In the call sequence `tr`, a flush that is drained to completion (a call of
`ogg_stream_flush` that returns 0) lies after a submission of `p` and before a submission
of `q`. -/
def flushed_between (tr : List Call) (p q : ogg_packet) : Prop :=
  ∃ i k j : Nat, i < k ∧ k < j ∧ tr[i]? = some (Call.packetin p) ∧ tr[k]? = some (Call.flush none)
    ∧ tr[j]? = some (Call.packetin q)

/-- A page of two header bytes and one body byte, standing for what the library hands
out. -/
def page0 : ogg_page := { header := [79, 103], body := [0] }

/-- An environment in which everything succeeds: every frame encodes to three bytes and
the library hands out one page for the headers and one at the end. -/
def env_ok : EncEnv :=
  { encoder_create_error := 0, set_bitrate_error := 0, set_complexity_error := 0,
    rand := 1804289383, fopen_ok := true, header_pages := [page0],
    malloc_pcm_ok := true, malloc_packet_ok := true,
    opus_encode := fun _ => (3, [some 248, some 255, some 254]),
    packetin_ret := fun _ => 0, frame_pages := fun _ => [], final_pages := [page0] }

/-- As `env_ok`, but `opus_encode` returns `OPUS_BAD_ARG` (-1) for every frame. -/
def env_encode_fails : EncEnv :=
  { env_ok with opus_encode := fun _ => (-1, alloc MAX_PACKET_SIZE) }

/-- The packets `encode_sine_wave` submits, in order. -/
def encode_packets (env : EncEnv) : List ogg_packet := submitted (encode_sine_wave env).os

/-- The packets handed out by `ogg_stream_packetout`, in order. -/
def yielded : List Call → List ogg_packet
  | [] => []
  | Call.packetout op :: rest => op :: yielded rest
  | _ :: rest => yielded rest

/-- The packets passed to `opus_decode` with what it returned, in order. -/
def decoded : List Call → List (ogg_packet × Int)
  | [] => []
  | Call.opus_decode op ret :: rest => (op, ret) :: decoded rest
  | _ :: rest => decoded rest

/-- The serial numbers of the pages handed out by `ogg_sync_pageout`, in order. -/
def delivered : List Call → List Int
  | [] => []
  | Call.sync_pageout s :: rest => s :: delivered rest
  | _ :: rest => delivered rest

/-- The serial numbers passed to `ogg_stream_init`, in order. -/
def inits : List Call → List Int
  | [] => []
  | Call.stream_init s :: rest => s :: inits rest
  | _ :: rest => inits rest

/-- The serial numbers of a page sequence up to and including the first that is not -1. -/
def init_serials : List Int → List Int
  | [] => []
  | s :: rest => if s = -1 then s :: init_serials rest else [s]

/-- The decoder set-up, both `fopen` calls and `malloc` succeed, so that the function
reaches the read loop. -/
def DecEnv.setup_ok (env : DecEnv) : Prop :=
  env.decoder_create_error = 0 ∧ env.fopen_in_ok = true ∧ env.fopen_out_ok = true
    ∧ env.malloc_ok = true

/-- The packets of a page sequence, in order. -/
def page_packets (pages : List PageEvt) : List PacketEvt :=
  (pages.map PageEvt.packets).flatten

/-- No page is rejected by `ogg_stream_pagein` and no packet by `opus_decode`. -/
def no_error (pages : List PageEvt) : Prop :=
  (∀ pg ∈ pages, pg.pagein_ret = 0) ∧ ∀ pk ∈ page_packets pages, 0 ≤ pk.frame_size

/-- The sample bytes `decode_ogg_to_wav` writes for a packet. -/
def packet_bytes (pk : PacketEvt) : List Nat :=
  samplesBytes (pk.pcm.take pk.frame_size.toNat)

/-- The sample bytes of a packet sequence, in order. -/
def packets_bytes (pks : List PacketEvt) : List Nat := (pks.map packet_bytes).flatten

/-- The sum of the frame sizes of a packet sequence. -/
def frame_sizes_sum (pks : List PacketEvt) : Int := (pks.map PacketEvt.frame_size).sum

/-- An Opus packet of three bytes. -/
def packet3 : ogg_packet :=
  { packet := [some 248, some 255, some 254], bytes := 3, b_o_s := 0, e_o_s := 0,
    granulepos := 120, packetno := 2 }

/-- A packet for which `opus_decode` returns the 120 samples 0, 1, ..., 119. -/
def pk120 : PacketEvt :=
  { op := packet3, frame_size := 120, pcm := (List.range 120).map Int.ofNat }

/-- A packet for which `opus_decode` returns `OPUS_INVALID_PACKET` (-4). -/
def pk_bad : PacketEvt := { op := packet3, frame_size := -4, pcm := [] }

/-- A packet for which `opus_decode` returns 2880 samples, all 0. -/
def pk2880 : PacketEvt :=
  { op := packet3, frame_size := 2880, pcm := List.replicate 2880 0 }

/-- An input of one read that yields one page with one packet of 120 samples. -/
def dec_env_one : DecEnv :=
  { decoder_create_error := 0, fopen_in_ok := true, fopen_out_ok := true, malloc_ok := true,
    chunks := [[{ serialno := 7, pagein_ret := 0, packets := [pk120] }]] }

/-- An input whose first packet is rejected by `opus_decode`. -/
def dec_env_decode_fails : DecEnv :=
  { dec_env_one with chunks := [[{ serialno := 7, pagein_ret := 0, packets := [pk_bad] }]] }

/-- An input whose first page is rejected by `ogg_stream_pagein`. -/
def dec_env_pagein_fails : DecEnv :=
  { dec_env_one with chunks := [[{ serialno := 7, pagein_ret := -1, packets := [] }]] }

/-- An input of three pages with serial numbers -1, 5 and 5, one packet each. -/
def dec_env_sentinel : DecEnv :=
  { dec_env_one with chunks := [[{ serialno := -1, pagein_ret := 0, packets := [pk120] },
      { serialno := 5, pagein_ret := 0, packets := [pk120] },
      { serialno := 5, pagein_ret := 0, packets := [pk120] }]] }

/-- An input of one page stream of 745655 packets of 2880 samples each (about twelve and
a half hours of audio at 48 kHz), 255 packets to a page but for the last page. -/
def dec_env_long : DecEnv :=
  { dec_env_one with chunks :=
      [List.replicate 2924 { serialno := 7, pagein_ret := 0, packets := List.replicate 255 pk2880 }
        ++ [{ serialno := 7, pagein_ret := 0, packets := List.replicate 35 pk2880 }]] }

/-- The state of `decode_ogg_to_wav` after the call of `ogg_stream_pagein` for a page:
the page was handed out, the stream was initialised if the sentinel was still -1, and
the page was submitted. -/
def page_enter (pg : PageEvt) (st : DecState) : DecState :=
  { st with
    serialno := if st.serialno = -1 then pg.serialno else st.serialno,
    calls := st.calls ++ [Call.sync_pageout pg.serialno]
      ++ (if st.serialno = -1 then [Call.stream_init pg.serialno] else [])
      ++ [Call.pagein pg.pagein_ret] }

/-- The environment of `main` in which the encoder rejects every frame. -/
def main_env_encode_fails : MainEnv :=
  { malloc_ok := true, fopen_ok := true, enc := env_encode_fails, dec := dec_env_one }

/-- The environment of `main` in which the decoder rejects the first packet. -/
def main_env_decode_fails : MainEnv :=
  { malloc_ok := true, fopen_ok := true, enc := env_ok, dec := dec_env_decode_fails }

end OpusExample

/-! # The container multiplexer and demultiplexer of the specification

The program calls the Ogg library for these; the library is not part of the sources, so
the operations are modelled from sections 3, 4.1 to 4.5 and 6 of the specification. -/

namespace OggSpec

open OpusExample

/-- Modelled from the spec: a packet (section 3), what the library's `ogg_packet` stands
for: an opaque byte sequence with a granule position, the begin-of-stream and end-of-stream flags and a sequence number. -/
structure Packet where
  data : List Nat
  granulepos : Int
  b_o_s : Bool
  e_o_s : Bool
  packetno : Nat
  deriving DecidableEq, Repr

/-- Modelled from the spec: a page (section 3) without its capture pattern, version and
checksum, which the wire format adds: the three header flags, the granule position, the
stream serial number, the page sequence number, the segment table and the data bytes. -/
structure Page where
  continued : Bool
  b_o_s : Bool
  e_o_s : Bool
  granulepos : Int
  serialno : Nat
  pageno : Nat
  segments : List Nat
  body : List Nat
  deriving DecidableEq, Repr

/-! ## CRC engine (section 4.1) -/

/-- Modelled from the spec: one bit step of the checksum register, most significant bit
first, with the polynomial of the container, `0x04c11db7`. -/
def crcShift (r : Nat) : Nat :=
  if r &&& 0x80000000 ≠ 0 then ((r <<< 1) ^^^ 0x04c11db7) % 4294967296
  else (r <<< 1) % 4294967296

/-- Modelled from the spec: the checksum register after one more byte. -/
def crcByte (r b : Nat) : Nat :=
  crcShift (crcShift (crcShift (crcShift (crcShift (crcShift (crcShift (crcShift
    (r ^^^ (b <<< 24)))))))))

/-- Modelled from the spec: the 32-bit checksum of a byte buffer (section 4.1), a pure
function with no inversion before or after.  The operations below take the checksum
function as a parameter; this is the one of the container. -/
def crc32 (bytes : List Nat) : Nat := bytes.foldl crcByte 0

/-! ## Packet segmenter (section 4.2) -/

/-- Modelled from the spec: one entry of the segmenter's output with its bytes; `last` is
absent on a 255-byte entry after which the packet continues and holds the packet's granule
position on the entry that terminates the packet. -/
structure Seg where
  bytes : List Nat
  last : Option Int
  deriving DecidableEq, Repr

/-- Modelled from the spec: the segmenter on the unconsumed rest of a packet (section 4.2):
while 255 bytes or more remain the packet contributes a 255-byte entry and continues; a
rest of 0 to 254 bytes contributes exactly that length and terminates.  The first argument
bounds the number of 255-byte entries. -/
def lacing : Nat → List Nat → Int → List Seg
  | 0, d, g => [{ bytes := d, last := some g }]
  | f + 1, d, g =>
    if 255 ≤ d.length then { bytes := d.take 255, last := none } :: lacing f (d.drop 255) g
    else [{ bytes := d, last := some g }]

/-- Modelled from the spec: the segmenter on a packet (section 4.2). -/
def segmenter (p : Packet) : List Seg := lacing (p.data.length / 255) p.data p.granulepos

/-- Modelled from the spec: the number of pending entries that go into the next page
(section 4.2): accumulation stops once 255 entries are reached, or once the page-size
target is reached and at least one packet boundary has been taken.  The arguments after
the pending entries are the entries taken, their bytes, and whether a boundary was taken. -/
def pageCut (target : Nat) : List Seg → Nat → Nat → Bool → Nat
  | [], n, _, _ => n
  | s :: rest, n, size, boundary =>
    if n = 255 ∨ (target ≤ size ∧ boundary = true) then n
    else pageCut target rest (n + 1) (size + s.bytes.length) (boundary || s.last.isSome)

/-! ## Page builder (section 4.3) and wire format (section 6) -/

/-- Modelled from the spec: the capture pattern, a fixed 4-byte marker; the one of the
container is "OggS". -/
def capture : List Nat := [79, 103, 103, 83]

/-- Modelled from the spec: the flags byte, the continued-packet, begin-of-stream and
end-of-stream flags in the three low bits. -/
def flagsByte (p : Page) : Nat :=
  (if p.continued then 1 else 0) + (if p.b_o_s then 2 else 0) + (if p.e_o_s then 4 else 0)

/-- Modelled from the spec: the page header with a given checksum (section 6): 4-byte
capture pattern, 1-byte version, 1-byte flags, 8-byte granule position, 4-byte serial
number, 4-byte page sequence number, 4-byte checksum, 1-byte segment count and the segment
table, all multi-byte integers little-endian. -/
def pageHeader (p : Page) (checksum : Nat) : List Nat :=
  capture ++ [0] ++ [flagsByte p]
    ++ leBytes 8 (p.granulepos % 18446744073709551616).toNat
    ++ leBytes 4 p.serialno ++ leBytes 4 p.pageno ++ leBytes 4 checksum
    ++ [p.segments.length % 256] ++ p.segments

/-- Modelled from the spec: the page builder (section 4.3): the complete page, header then
data, with the checksum computed over the entire page with the checksum field zeroed. -/
def buildPage (crc : List Nat → Nat) (p : Page) : List Nat :=
  pageHeader p (crc (pageHeader p 0 ++ p.body)) ++ p.body

/-! ## Mux state machine (section 4.4) -/

/-- Modelled from the spec: the state of the encoder side of a stream (sections 3 and
4.4): serial number, page sequence counter, pending entries, whether the next page begins
inside a packet, the granule position stamped on the last page, the granule position of
the last packet submitted, and whether end-of-stream was submitted. -/
structure Mux where
  serialno : Nat
  pageno : Nat
  pending : List Seg
  continued : Bool
  granulepos : Int
  submitted : Option Int
  eos : Bool
  deriving DecidableEq, Repr

/-- Modelled from the spec: a new stream with its serial number. -/
def Mux.init (serialno : Nat) : Mux :=
  { serialno := serialno, pageno := 0, pending := [], continued := false, granulepos := 0,
    submitted := none, eos := false }

/-- Modelled from the spec: the error of `submit` (section 7). -/
inductive MuxError where
  | SequenceError
  deriving DecidableEq, Repr

/-- Modelled from the spec: `submit(packet)` (section 4.4), the operation behind the
library's `ogg_stream_packetin`, which is not in the sources: appends the packet to the
pending data; fails if called after end-of-stream was submitted or if the granule position
regresses. -/
def Mux.submit (m : Mux) (p : Packet) : Except MuxError Mux :=
  if m.eos = true then Except.error MuxError.SequenceError
  else if (match m.submitted with
      | some g => decide (p.granulepos < g)
      | none => false) = true then Except.error MuxError.SequenceError
  else Except.ok { m with pending := m.pending ++ segmenter p,
                          submitted := some p.granulepos, eos := p.e_o_s }

/-- Modelled from the spec: the granule positions of the packets that complete among some
entries, in order (section 4.3). -/
def terminals (segs : List Seg) : List Int := segs.filterMap Seg.last

/-- Modelled from the spec: the granule position of the packet boundary most recently
completed among some entries, if any (section 4.3). -/
def lastBoundary (segs : List Seg) : Option Int := (terminals segs).getLast?

/-- Modelled from the spec: whether some entries end inside a packet, so that the packet
continues on the next page (section 3). -/
def endsInside : List Seg → Bool
  | [] => false
  | [s] => s.last.isNone
  | _ :: rest => endsInside rest

/-- Modelled from the spec: the page made of given entries (section 4.3): the granule
position is that of the packet boundary most recently completed within the page, or the
value stamped on the previous page if no packet completes in it; begin-of-stream is set on
the first page of the stream and end-of-stream on the page that empties the pending data
after end-of-stream was submitted. -/
def Mux.page (m : Mux) (segs rest : List Seg) : Page :=
  { continued := m.continued,
    b_o_s := decide (m.pageno = 0),
    e_o_s := m.eos && rest.isEmpty,
    granulepos := (lastBoundary segs).getD m.granulepos,
    serialno := m.serialno,
    pageno := m.pageno,
    segments := segs.map (fun s => s.bytes.length),
    body := (segs.map Seg.bytes).flatten }

/-- Modelled from the spec: emission of one page from the pending entries (sections 4.2
to 4.4); the page sequence counter advances. -/
def Mux.emit (target : Nat) (m : Mux) : Option (Page × Mux) :=
  if m.pending = [] then none
  else
    let n := pageCut target m.pending 0 0 false
    let segs := m.pending.take n
    let rest := m.pending.drop n
    some (m.page segs rest,
      { m with pageno := m.pageno + 1, pending := rest, continued := endsInside segs,
               granulepos := (lastBoundary segs).getD m.granulepos })

/-- Modelled from the spec: the number of pending bytes (section 4.4). -/
def Mux.pendingBytes (m : Mux) : Nat := (m.pending.map (fun s => s.bytes.length)).sum

/-- Modelled from the spec: `flush()` (section 4.4), the operation behind the loop over
the library's `ogg_stream_flush`, which is not in the sources: emits all pending bytes as
one or more pages even below the threshold.  The first argument bounds the number of
pages. -/
def Mux.flushLoop (target : Nat) : Nat → Mux → List Page × Mux
  | 0, m => ([], m)
  | f + 1, m =>
    match m.emit target with
    | none => ([], m)
    | some (pg, m1) => (pg :: (Mux.flushLoop target f m1).1, (Mux.flushLoop target f m1).2)

/-- Modelled from the spec: `flush()` (section 4.4). -/
def Mux.flush (target : Nat) (m : Mux) : List Page × Mux :=
  Mux.flushLoop target m.pending.length m

/-- Modelled from the spec: `drainPages()` without a flush (section 4.4), the operation
behind the loop over the library's `ogg_stream_pageout`, which is not in the sources:
produces pages while the pending bytes reach the threshold.  The first argument bounds
the number of pages. -/
def Mux.drainLoop (target : Nat) : Nat → Mux → List Page × Mux
  | 0, m => ([], m)
  | f + 1, m =>
    if m.pendingBytes < target then ([], m)
    else
      match m.emit target with
      | none => ([], m)
      | some (pg, m1) => (pg :: (Mux.drainLoop target f m1).1, (Mux.drainLoop target f m1).2)

/-- Modelled from the spec: `drainPages()` (section 4.4). -/
def Mux.drainPages (target : Nat) (m : Mux) : List Page × Mux :=
  Mux.drainLoop target m.pending.length m

/-- Modelled from the spec: what the caller does after submitting a packet (section 4.4):
nothing, drain the ready pages, or flush. -/
inductive Drain where
  | none
  | pages
  | flush
  deriving DecidableEq, Repr

/-- Modelled from the spec: the encode-side sequence for one packet (section 4.4): submit
it, then drain or flush as asked. -/
def muxStep (target : Nat) (m : Mux) (p : Packet) (d : Drain) :
    Except MuxError (List Page × Mux) :=
  match m.submit p with
  | Except.error e => Except.error e
  | Except.ok m1 =>
    match d with
    | Drain.none => Except.ok ([], m1)
    | Drain.pages => Except.ok (m1.drainPages target)
    | Drain.flush => Except.ok (m1.flush target)

/-- Modelled from the spec: the encode-side sequence for a packet sequence (section 4.4),
each packet with what the caller does after it; the pages come out in order. -/
def muxSteps (target : Nat) : Mux → List (Packet × Drain) → Except MuxError (List Page × Mux)
  | m, [] => Except.ok ([], m)
  | m, (p, d) :: rest =>
    match muxStep target m p d with
    | Except.error e => Except.error e
    | Except.ok (pgs, m1) =>
      match muxSteps target m1 rest with
      | Except.error e => Except.error e
      | Except.ok (pgs2, m2) => Except.ok (pgs ++ pgs2, m2)

/-- Modelled from the spec: the pages of a whole stream (section 4.4): the packets are
submitted in order and a final flush sends out what is still pending. -/
def muxRun (target serialno : Nat) (script : List (Packet × Drain)) :
    Except MuxError (List Page) :=
  match muxSteps target (Mux.init serialno) script with
  | Except.error e => Except.error e
  | Except.ok (pgs, m) => Except.ok (pgs ++ (m.flush target).1)

/-- Modelled from the spec: the bytes written to the transport for a page sequence
(section 4.3): for each page its header bytes then its body bytes. -/
def written (crc : List Nat → Nat) (pages : List Page) : List Nat :=
  (pages.map (buildPage crc)).flatten

/-! ## Sync and demux state machine (section 4.5) -/

/-- Modelled from the spec: the signed granule position held in the 8-byte field of the
page header (section 6). -/
def toInt64 (v : Nat) : Int :=
  if v < 9223372036854775808 then (v : Int) else (v : Int) - 18446744073709551616

/-- Modelled from the spec: what is found at the scan cursor (section 4.5): not enough
bytes yet, no page, or a page and the bytes after it. -/
inductive Found where
  | needMore
  | noPage
  | page (pg : Page) (rest : List Nat)
  deriving DecidableEq, Repr

/-- Modelled from the spec: the attempt to take a page at the cursor (section 4.5): the
length is known once the capture pattern and the fixed header are parsed, the segment
table length comes from the header and the body length from the sum of the segment table;
a complete page whose checksum, computed with the checksum field zeroed, does not match
is no page. -/
def pageAt (crc : List Nat → Nat) (buf : List Nat) : Found :=
  if buf.length < 27 then Found.needMore
  else if buf.take 4 ≠ capture then Found.noPage
  else
    let nsegs := (buf.drop 26).headD 0
    if buf.length < 27 + nsegs then Found.needMore
    else
      let segments := (buf.drop 27).take nsegs
      let bodyLen := segments.sum
      if buf.length < 27 + nsegs + bodyLen then Found.needMore
      else
        let zeroed := buf.take 22 ++ [0, 0, 0, 0] ++ (buf.drop 26).take (1 + nsegs + bodyLen)
        if crc zeroed % 4294967296 ≠ leValue ((buf.drop 22).take 4) then Found.noPage
        else
          let flags := (buf.drop 5).headD 0
          Found.page
            { continued := decide (flags % 2 = 1),
              b_o_s := decide (flags / 2 % 2 = 1),
              e_o_s := decide (flags / 4 % 2 = 1),
              granulepos := toInt64 (leValue ((buf.drop 6).take 8)),
              serialno := leValue ((buf.drop 14).take 4),
              pageno := leValue ((buf.drop 18).take 4),
              segments := segments,
              body := (buf.drop (27 + nsegs)).take bodyLen }
            (buf.drop (27 + nsegs + bodyLen))

/-- Modelled from the spec: `pageOut()` (section 4.5), the operation behind the library's
`ogg_sync_pageout`, which is not in the sources: scans from the cursor; where there is
no page it discards one byte and resumes scanning; it yields the page found and the bytes
after it, or nothing and the bytes it keeps when more data is needed. -/
def pageOut (crc : List Nat → Nat) : List Nat → Option Page × List Nat
  | [] => (none, [])
  | b :: bs =>
    match pageAt crc (b :: bs) with
    | Found.needMore => (none, b :: bs)
    | Found.noPage => pageOut crc bs
    | Found.page pg rest => (some pg, rest)

/-- Modelled from the spec: the loop over `pageOut()` (section 4.5): the pages that come
out of the buffer until more data is needed, and the bytes kept.
The first argument bounds the number of pages. -/
def pagesOut (crc : List Nat → Nat) : Nat → List Nat → List Page × List Nat
  | 0, buf => ([], buf)
  | f + 1, buf =>
    match pageOut crc buf with
    | (none, rest) => ([], rest)
    | (some pg, rest) => (pg :: (pagesOut crc f rest).1, (pagesOut crc f rest).2)

/-- Modelled from the spec: a packet as the demultiplexer yields it: its bytes and the
granule position of the page on which it completed. -/
structure OutPacket where
  data : List Nat
  granulepos : Int
  deriving DecidableEq, Repr

/-- Modelled from the spec: the walk over a page's segment table (section 4.5): the bytes
of each segment are added to the reassembly buffer, and a segment shorter than 255
completes a packet, stamped with the granule position of the page. -/
def walk (granulepos : Int) : List Nat → List Nat → List Nat → List OutPacket × List Nat
  | [], _, held => ([], held)
  | n :: table, body, held =>
    if n < 255 then
      ({ data := held ++ body.take n, granulepos := granulepos }
          :: (walk granulepos table (body.drop n) []).1,
        (walk granulepos table (body.drop n) []).2)
    else walk granulepos table (body.drop n) (held ++ body.take n)

/-- Modelled from the spec: the state of the decoder side of a stream (sections 3 and
4.5): the first-observed serial number, the reassembly buffer, the granule position of the
page its last bytes came from, and whether the stream has ended. -/
structure Demux where
  serialno : Option Nat
  held : List Nat
  heldGranule : Int
  ended : Bool
  deriving DecidableEq, Repr

/-- Modelled from the spec: the decoder side before the first page. -/
def Demux.init : Demux := { serialno := none, held := [], heldGranule := 0, ended := false }

/-- Modelled from the spec: `packetOut()` for one page (section 4.5), the operation
behind the library's `ogg_stream_pagein` and the loop over `ogg_stream_packetout`, which
are not in the sources: pages after the end of the stream are ignored; a page with another
serial number than the first-observed one ends the stream; held bytes are completed as a
packet when the page is not flagged as a continuation; the segment table is walked; a page
flagged end-of-stream ends the stream. -/
def Demux.packetOut (d : Demux) (pg : Page) : Demux × List OutPacket :=
  if d.ended = true then (d, [])
  else if (match d.serialno with
      | some s => decide (s ≠ pg.serialno)
      | none => false) = true then ({ d with ended := true }, [])
  else
    let early : List OutPacket :=
      if pg.continued = false ∧ d.held ≠ [] then
        [{ data := d.held, granulepos := d.heldGranule }]
      else []
    let held := if pg.continued = true then d.held else []
    ({ serialno := some pg.serialno,
       held := (walk pg.granulepos pg.segments pg.body held).2,
       heldGranule := pg.granulepos,
       ended := pg.e_o_s },
      early ++ (walk pg.granulepos pg.segments pg.body held).1)

/-- Modelled from the spec: the packets of a page sequence, in order (section 4.5). -/
def packetsOut : Demux → List Page → Demux × List OutPacket
  | d, [] => (d, [])
  | d, pg :: rest =>
    ((packetsOut (d.packetOut pg).1 rest).1,
      (d.packetOut pg).2 ++ (packetsOut (d.packetOut pg).1 rest).2)

/-- Modelled from the spec: the error of `feed` (section 7). -/
inductive SyncError where
  | SyncBufferOverflow
  deriving DecidableEq, Repr

/-- Modelled from the spec: `feed(bytes)` (section 4.5), the operation behind the
library's `ogg_sync_buffer` and `ogg_sync_wrote`, which are not in the sources: appends
the bytes to the buffer; fails past the configured ceiling. -/
def feed (ceiling : Nat) (buf bytes : List Nat) : Except SyncError (List Nat) :=
  if ceiling < buf.length + bytes.length then Except.error SyncError.SyncBufferOverflow
  else Except.ok (buf ++ bytes)

/-- Modelled from the spec: the decode-side sequence on a byte stream that arrives in
chunks (section 4.5): each chunk is fed, the pages that are complete are taken out and
their packets are yielded. -/
def demuxChunks (crc : List Nat → Nat) (ceiling : Nat) :
    List Nat → Demux → List (List Nat) → Except SyncError (List OutPacket)
  | _, _, [] => Except.ok []
  | buf, d, chunk :: rest =>
    match feed ceiling buf chunk with
    | Except.error e => Except.error e
    | Except.ok buf1 =>
      match demuxChunks crc ceiling (pagesOut crc buf1.length buf1).2
          (packetsOut d (pagesOut crc buf1.length buf1).1).1 rest with
      | Except.error e => Except.error e
      | Except.ok out => Except.ok ((packetsOut d (pagesOut crc buf1.length buf1).1).2 ++ out)

/-- Modelled from the spec: the decode-side sequence from the start of a stream
(section 4.5). -/
def demuxRun (crc : List Nat → Nat) (ceiling : Nat) (chunks : List (List Nat)) :
    Except SyncError (List OutPacket) :=
  demuxChunks crc ceiling [] Demux.init chunks

/-! ## Notions used to state the round trip -/

/-- An entry of the segmenter is well formed: at most 255 bytes, and it terminates its
packet exactly when it is shorter than 255. -/
def Seg.wf (s : Seg) : Prop :=
  s.bytes.length ≤ 255 ∧ (s.last.isSome = true ↔ s.bytes.length < 255)

/-- The packets that complete among some entries, given the bytes already held, and the
bytes held afterwards. -/
def collect : List Seg → List Nat → List (List Nat) × List Nat
  | [], held => ([], held)
  | s :: rest, held =>
    if s.last.isSome = true then
      ((held ++ s.bytes) :: (collect rest []).1, (collect rest []).2)
    else collect rest (held ++ s.bytes)

/-- A page as it is read back from the wire: the granule position through 64 bits, the
serial number and the page sequence number through 32 bits. -/
def wire (p : Page) : Page :=
  { p with granulepos := toInt64 (p.granulepos % 18446744073709551616).toNat,
           serialno := p.serialno % 4294967296,
           pageno := p.pageno % 4294967296 }

/-- A page fits the wire format: at most 255 segments of at most 255 bytes, and the data
length is the sum of the segment table. -/
def Page.fits (p : Page) : Prop :=
  p.segments.length ≤ 255 ∧ (∀ n ∈ p.segments, n ≤ 255) ∧ p.body.length = p.segments.sum

/-- A granule position fits the signed 64-bit field of the page header. -/
def InRange64 (g : Int) : Prop := -9223372036854775808 ≤ g ∧ g < 9223372036854775808

/-- The number of packets that complete on a page: the entries of its segment table that
are shorter than 255 (section 4.5). -/
def completions (pg : Page) : Nat := (pg.segments.filter (fun n => decide (n < 255))).length

/-- The stamps of a page sequence: page after page, the granule position of the page, once
for every packet that completes on it. -/
def pageStamps (pgs : List Page) : List Int :=
  (pgs.map (fun pg => List.replicate (completions pg) pg.granulepos)).flatten

/-- The index, among the packets of the stream, of the last packet that completes on the
page of index `k`, when a packet completes on that page: one less than the number of
packets that complete on the pages up to and including it. -/
def lastOnPage (pgs : List Page) (k : Nat) : Nat :=
  ((pgs.take (k + 1)).map completions).sum - 1

/-- Every page on which a packet completes carries the granule position that the list
`gs` holds for the last packet that completes on it. -/
def PageLast (pgs : List Page) (gs : List Int) : Prop :=
  ∀ (k : Nat) (pg : Page), pgs[k]? = some pg → 0 < completions pg →
    gs[lastOnPage pgs k]? = some pg.granulepos

/-- The entries of a packet sequence, in order. -/
def allSegs (ps : List Packet) : List Seg := (ps.map segmenter).flatten

/-- The encoder side `m` and the decoder side `d` agree after the pages sent out so far
have been read: the pending entries are well formed, the decoder holds bytes exactly when
the next page begins inside a packet, the decoder has seen the end of the stream only if
nothing is pending after end-of-stream was submitted, the serial numbers agree, and the
granule positions fit the page header. -/
def Agree (m : Mux) (d : Demux) : Prop :=
  (∀ s ∈ m.pending, s.wf)
  ∧ (m.continued = true → d.held ≠ [])
  ∧ (m.continued = false → d.held = [])
  ∧ (d.ended = true → m.pending = [] ∧ m.eos = true)
  ∧ (d.serialno = none ∨ d.serialno = some (m.serialno % 4294967296))
  ∧ InRange64 m.granulepos
  ∧ (∀ g ∈ terminals m.pending, InRange64 g)

/-- The pages `pgs` take the entries `taken` from the front of the entries `src` and leave
the encoder side in `m1` with the others pending; read by the decoder side `d` they yield
the packets that complete among `taken` and the two sides agree again; every one of these
packets completes on one of the pages and is stamped with the granule position of that
page, which is the granule position of the last packet that completes on it. -/
def Sent (src : List Seg) (d : Demux) (pgs : List Page) (m1 : Mux) (taken : List Seg) : Prop :=
  src = taken ++ m1.pending
  ∧ (∀ pg ∈ pgs, pg.fits)
  ∧ Agree m1 (packetsOut d (pgs.map wire)).1
  ∧ (packetsOut d (pgs.map wire)).2.map OutPacket.data = (collect taken d.held).1
  ∧ (packetsOut d (pgs.map wire)).1.held = (collect taken d.held).2
  ∧ (pgs.map completions).sum = (terminals taken).length
  ∧ (packetsOut d (pgs.map wire)).2.map OutPacket.granulepos = pageStamps pgs
  ∧ PageLast pgs (terminals taken)

/-- The encoder side accepts a packet sequence after a packet with granule position `prev`
and end-of-stream flag `eos`: no granule position regresses and no packet follows an
end-of-stream packet (section 4.4, `submit`). -/
def acceptable : Option Int → Bool → List Packet → Bool
  | _, _, [] => true
  | prev, eos, p :: rest =>
    !eos
      && (match prev with
          | some g => decide (g ≤ p.granulepos)
          | none => true)
      && acceptable (some p.granulepos) p.e_o_s rest

/-- The first of two packets of three bytes with granule positions 480 and 960. -/
def packetA : Packet :=
  { data := [1, 2, 3], granulepos := 480, b_o_s := false, e_o_s := false, packetno := 0 }

/-- The second of the two packets; it ends the stream. -/
def packetB : Packet :=
  { data := [4, 5, 6], granulepos := 960, b_o_s := false, e_o_s := true, packetno := 1 }

/-- The two packets submitted one after the other and flushed together. -/
def scriptAB : List (Packet × Drain) := [(packetA, Drain.none), (packetB, Drain.flush)]

/-- The one page that carries both packets. -/
def pageAB : Page :=
  { continued := false, b_o_s := true, e_o_s := true, granulepos := 960, serialno := 7,
    pageno := 0, segments := [3, 3], body := [1, 2, 3, 4, 5, 6] }

/-- The pages of a whole stream, none when the encoder side rejects a packet. -/
def muxPages (target serialno : Nat) (script : List (Packet × Drain)) : List Page :=
  match muxRun target serialno script with
  | Except.ok pages => pages
  | Except.error _ => []

/-- The packets the decoder side yields for a chunked byte stream, none when the sync
buffer overflows. -/
def demuxOut (crc : List Nat → Nat) (ceiling : Nat) (chunks : List (List Nat)) :
    List OutPacket :=
  match demuxRun crc ceiling chunks with
  | Except.ok out => out
  | Except.error _ => []

/-- A packet of three bytes with granule position 960 that does not end the stream. -/
def packetC : Packet :=
  { data := [7, 8, 9], granulepos := 960, b_o_s := false, e_o_s := false, packetno := 1 }

/-- A packet of three bytes with granule position 1440 that ends the stream. -/
def packetD : Packet :=
  { data := [10, 11, 12], granulepos := 1440, b_o_s := false, e_o_s := true, packetno := 2 }

/-- Three packets: the first flushed on its own, the other two flushed together. -/
def scriptACD : List (Packet × Drain) :=
  [(packetA, Drain.flush), (packetC, Drain.none), (packetD, Drain.flush)]

/-- The page that carries the first of the three packets. -/
def pageA : Page :=
  { continued := false, b_o_s := true, e_o_s := false, granulepos := 480, serialno := 7,
    pageno := 0, segments := [3], body := [1, 2, 3] }

/-- The page that carries the other two of the three packets. -/
def pageCD : Page :=
  { continued := false, b_o_s := false, e_o_s := true, granulepos := 1440, serialno := 7,
    pageno := 1, segments := [3, 3], body := [7, 8, 9, 10, 11, 12] }

/-- The bytes written for the three packets, cut after the tenth byte. -/
def chunksACD : List (List Nat) :=
  [(written crc32 (muxPages 4096 7 scriptACD)).take 10,
    (written crc32 (muxPages 4096 7 scriptACD)).drop 10]

/-- Two packets whose granule positions regress, 960 then 480, each flushed. -/
def scriptRegress : List (Packet × Drain) := [(packetC, Drain.flush), (packetA, Drain.flush)]

/-- A packet submitted after the packet that ends the stream. -/
def scriptAfterEnd : List (Packet × Drain) := [(packetB, Drain.flush), (packetD, Drain.flush)]

/-- A packet whose granule position, `2^63`, does not fit the signed 64-bit field of the
page header. -/
def packetHuge : Packet :=
  { data := [1, 2, 3], granulepos := 9223372036854775808, b_o_s := false, e_o_s := true,
    packetno := 0 }

/-- The packet with granule position `2^63`, flushed on its own. -/
def scriptHuge : List (Packet × Drain) := [(packetHuge, Drain.flush)]

/-- The one page that carries the packet with granule position `2^63`. -/
def pageHuge : Page :=
  { continued := false, b_o_s := true, e_o_s := true, granulepos := 9223372036854775808,
    serialno := 7, pageno := 0, segments := [3], body := [1, 2, 3] }

end OggSpec

/-! # Theorems -/

namespace OpusExample

/-! ## Little-endian byte strings and buffer fills -/

theorem leBytes_length (n v : Nat) : (leBytes n v).length = n := by
  induction n generalizing v with
  | zero => rfl
  | succ n ih => simp [leBytes, ih]

theorem leValue_leBytes (n v : Nat) (h : v < 256 ^ n) : leValue (leBytes n v) = v := by
  induction n generalizing v with
  | zero => simp at h; simp [leBytes, leValue, h]
  | succ n ih =>
    have h2 : v / 256 < 256 ^ n := by
      rw [Nat.div_lt_iff_lt_mul (by norm_num)]
      rw [pow_succ] at h
      exact h
    simp only [leBytes, leValue, ih _ h2]
    omega

theorem leBytes_lt (n v b : Nat) (h : b ∈ leBytes n v) : b < 256 := by
  induction n generalizing v with
  | zero => simp [leBytes] at h
  | succ n ih =>
    simp only [leBytes, List.mem_cons] at h
    rcases h with h | h
    · omega
    · exact ih _ h

theorem storeByte_fill (A : List Nat) (k i b : Nat) (hi : i = A.length) :
    storeByte (A.map some ++ List.replicate (k + 1) none) i b
      = (A ++ [b]).map some ++ List.replicate k none := by
  subst hi
  simp [storeByte, List.replicate_succ]

theorem memcpy_fill (bs A : List Nat) (k i : Nat) (hi : i = A.length) :
    memcpy (A.map some ++ List.replicate (bs.length + k) none) i bs
      = (A ++ bs).map some ++ List.replicate k none := by
  induction bs generalizing A i with
  | nil => simp [memcpy]
  | cons b bs ih =>
    have e : (b :: bs).length + k = (bs.length + k) + 1 := by simp; omega
    rw [e, memcpy, storeByte_fill A _ i b hi, ih (A ++ [b]) (i + 1) (by simp [hi])]
    simp

/-! ## The header packets -/

/-- C1: the identification packet built by `write_opus_header` has exactly 19 bytes:
the magic "OpusHead", version 1, the channel count, pre-skip 0, the sample rate in
little-endian order (its four bytes decode to `SAMPLE_RATE`), output gain 0 and mapping
family 0; it is submitted with `bytes = 19`, `b_o_s = 1`, `e_o_s = 0`, `granulepos = 0`
and `packetno = 0`. -/
theorem C1_identification_packet (os : ogg_stream_state) (serialno : Int) :
    write_opus_header os serialno = os ++ [Call.packetin opus_header_packet]
    ∧ opus_header_packet.packet.length = 19
    ∧ opus_header_packet.packet
        = (cstr "OpusHead" ++ [1] ++ [CHANNELS] ++ [0, 0] ++ [128, 187, 0, 0] ++ [0, 0] ++ [0]).map
            some
    ∧ leValue [128, 187, 0, 0] = SAMPLE_RATE
    ∧ CHANNELS = 1 ∧ SAMPLE_RATE = 48000
    ∧ opus_header_packet.bytes = 19
    ∧ opus_header_packet.b_o_s = 1
    ∧ opus_header_packet.e_o_s = 0
    ∧ opus_header_packet.granulepos = 0
    ∧ opus_header_packet.packetno = 0 := by
  refine ⟨rfl, by decide, by decide, by decide, rfl, rfl, rfl, rfl, rfl, rfl, rfl⟩

theorem shift_mask (n k : Nat) : (n >>> k) &&& 0xFF = n / 2 ^ k % 256 := by
  rw [Nat.shiftRight_eq_div_pow]
  exact Nat.and_pow_two_sub_one_eq_mod _ 8

theorem leBytes_four (n : Nat) :
    leBytes 4 n = [(n >>> 0) &&& 0xFF, (n >>> 8) &&& 0xFF, (n >>> 16) &&& 0xFF,
      (n >>> 24) &&& 0xFF] := by
  simp only [shift_mask, leBytes]
  simp only [Nat.div_div_eq_div_mul]
  norm_num

theorem toInt32_of_lt (x : Nat) (h : x < 2147483648) : toInt32 x = x := by
  unfold toInt32
  omega

theorem bits32_shift (n k : Nat) (h : n < 2147483648) :
    bits32 ((n : Int) >>> k) = n >>> k := by
  have h1 : ((n : Int) >>> k) = ((n >>> k : Nat) : Int) := by
    rw [Int.shiftRight_eq_div_pow, Nat.shiftRight_eq_div_pow]
    push_cast
    rfl
  have h2 : n >>> k ≤ n := by
    rw [Nat.shiftRight_eq_div_pow]
    exact Nat.div_le_self _ _
  rw [h1]
  unfold bits32
  generalize n >>> k = m at h2
  omega

/-- C2, as stated, fails: for a vendor string of `2^31 - 1` bytes, a length below `2^31`,
the sum `16 + vendor_length` does not fit an `int`, and the packet is submitted with
`bytes = -2147483633`, not `16 + L`. -/
theorem C2_counterexample :
    vendor_long.length < 2 ^ 31
    ∧ (opus_comments_packet vendor_long).bytes = -2147483633
    ∧ (opus_comments_packet vendor_long).bytes ≠ 16 + (vendor_long.length : Int) := by
  have hl : vendor_long.length = 2147483647 := List.length_replicate _ _
  have hb : (opus_comments_packet vendor_long).bytes = -2147483633 := by
    show toInt32 (16 + toInt32 (vendor_long.length : Int)) = -2147483633
    rw [hl]
    decide
  refine ⟨by rw [hl]; norm_num, hb, ?_⟩
  rw [hb, hl]
  decide

/-- C2, amended: for a vendor string of length `L` with `16 + L` below `2^31` the comment
packet built by `write_opus_comments` has exactly `16 + L` bytes: the magic "OpusTags",
`L` as a little-endian 32-bit integer, the vendor string, and a comment count of 0 with
nothing after it; it is submitted with `bytes = 16 + L`, `b_o_s = 0`, `e_o_s = 0`,
`granulepos = 0` and `packetno = 1`. -/
theorem C2_comment_packet (v : List Nat) (h : 16 + v.length < 2 ^ 31) :
    (opus_comments_packet v).packet
        = (cstr "OpusTags" ++ leBytes 4 v.length ++ v ++ [0, 0, 0, 0]).map some
    ∧ leValue (leBytes 4 v.length) = v.length
    ∧ (opus_comments_packet v).packet.length = 16 + v.length
    ∧ (opus_comments_packet v).bytes = 16 + v.length
    ∧ (opus_comments_packet v).b_o_s = 0
    ∧ (opus_comments_packet v).e_o_s = 0
    ∧ (opus_comments_packet v).granulepos = 0
    ∧ (opus_comments_packet v).packetno = 1
    ∧ (∀ os, write_opus_comments os = os ++ [Call.packetin (opus_comments_packet vendor)]) := by
  have hlt : v.length < 2147483648 := by norm_num at h; omega
  have hL : toInt32 v.length = v.length := toInt32_of_lt _ hlt
  have hM : (cstr "OpusTags").length = 8 := by decide
  have hsz : (toSizeT (toInt32 (toInt32 (toInt32 (8 + 4) + (v.length : Int)) + 4))).toNat
      = 8 + 4 + v.length + 4 := by
    norm_num at h
    unfold toSizeT toInt32
    omega
  have htk : (toSizeT (v.length : Int)).toNat = v.length := by
    unfold toSizeT
    omega
  have hix : ∀ (j : Nat) (buf : Buffer), j < 16 →
      storeAt buf (toInt32 ((j : Int) + (v.length : Int))) 0 = storeByte buf (j + v.length) 0 := by
    intro j buf hj
    have e : toInt32 ((j : Int) + (v.length : Int)) = ((j + v.length : Nat) : Int) := by
      norm_num at h
      unfold toInt32
      push_cast
      omega
    rw [e]
    unfold storeAt
    rw [if_neg (by omega), Int.toNat_ofNat]
  have hby : toInt32 (16 + (v.length : Int)) = 16 + (v.length : Int) := by
    norm_num at h
    unfold toInt32
    omega
  have hpk : (opus_comments_packet v).packet
      = (cstr "OpusTags" ++ leBytes 4 v.length ++ v ++ [0, 0, 0, 0]).map some := by
    simp only [opus_comments_packet, hL, hsz, htk, bits32_shift _ _ hlt, List.take_length]
    rw [show ((12 : Int) + (v.length : Int)) = (((12 : Nat) : Int) + (v.length : Int)) from rfl,
      show ((13 : Int) + (v.length : Int)) = (((13 : Nat) : Int) + (v.length : Int)) from rfl,
      show ((14 : Int) + (v.length : Int)) = (((14 : Nat) : Int) + (v.length : Int)) from rfl,
      show ((15 : Int) + (v.length : Int)) = (((15 : Nat) : Int) + (v.length : Int)) from rfl,
      hix 12 _ (by norm_num), hix 13 _ (by norm_num), hix 14 _ (by norm_num),
      hix 15 _ (by norm_num)]
    generalize cstr "OpusTags" = M at hM ⊢
    have e0 : alloc (8 + 4 + v.length + 4)
        = ([] : List Nat).map some ++ List.replicate (M.length + (v.length + 7 + 1)) none := by
      have e : 8 + 4 + v.length + 4 = M.length + (v.length + 7 + 1) := by omega
      rw [e]
      rfl
    rw [e0, memcpy_fill M [] _ 0 rfl]
    rw [storeByte_fill _ _ 8 _ (by simp [hM])]
    rw [show v.length + 7 = (v.length + 6) + 1 from rfl,
      storeByte_fill _ _ 9 _ (by simp [hM])]
    rw [show v.length + 6 = (v.length + 5) + 1 from rfl,
      storeByte_fill _ _ 10 _ (by simp [hM])]
    rw [show v.length + 5 = (v.length + 4) + 1 from rfl,
      storeByte_fill _ _ 11 _ (by simp [hM])]
    rw [memcpy_fill v _ 4 12 (by simp [hM])]
    rw [show (4 : Nat) = 3 + 1 from rfl, storeByte_fill _ _ (12 + v.length) _
      (by simp [hM]; omega)]
    rw [show (3 : Nat) = 2 + 1 from rfl, storeByte_fill _ _ (13 + v.length) _
      (by simp [hM]; omega)]
    rw [show (2 : Nat) = 1 + 1 from rfl, storeByte_fill _ _ (14 + v.length) _
      (by simp [hM]; omega)]
    rw [show (1 : Nat) = 0 + 1 from rfl, storeByte_fill _ _ (15 + v.length) _
      (by simp [hM]; omega)]
    simp [leBytes_four]
  refine ⟨hpk, ?_, ?_, ?_, rfl, rfl, rfl, rfl, fun _ => rfl⟩
  · exact leValue_leBytes 4 _ (by norm_num at h ⊢; omega)
  · rw [hpk]
    simp [leBytes_length, hM]
    omega
  · show toInt32 (16 + toInt32 (v.length : Int)) = 16 + (v.length : Int)
    rw [hL, hby]

/-- C2, amended, for the vendor string of the program, which has 13 bytes, so that the
packet has 29 bytes, and for a vendor string of `2^31 - 17` bytes, the longest the amended
statement covers, whose packet is submitted with `bytes = 2^31 - 1`. -/
theorem C2_comment_packet_witness :
    16 + vendor.length < 2 ^ 31
    ∧ vendor.length = 13
    ∧ (opus_comments_packet vendor).packet
        = (cstr "OpusTags" ++ leBytes 4 vendor.length ++ vendor ++ [0, 0, 0, 0]).map some
    ∧ (opus_comments_packet vendor).bytes = 29
    ∧ 16 + vendor_max.length < 2 ^ 31
    ∧ (opus_comments_packet vendor_max).bytes = 2147483647 :=
  have hl : vendor_max.length = 2147483631 := List.length_replicate _ _
  have hm : 16 + vendor_max.length < 2 ^ 31 := by
    rw [hl]
    norm_num
  ⟨by decide, by decide, (C2_comment_packet vendor (by decide)).1,
    (C2_comment_packet vendor (by decide)).2.2.2.1.trans (by decide),
    hm, (C2_comment_packet vendor_max hm).2.2.2.1.trans (by rw [hl]; rfl)⟩

/-! ## The WAV header -/

/-- The layout of the 44-byte WAV descriptor for `n` samples, field by field. -/
theorem write_wav_header_eq (n : Nat) (h : 36 + 2 * n < 2 ^ 31) :
    write_wav_header n
      = (cstr "RIFF" ++ leBytes 4 (36 + 2 * n) ++ cstr "WAVE"
          ++ cstr "fmt " ++ leBytes 4 16 ++ leBytes 2 1 ++ leBytes 2 CHANNELS
          ++ leBytes 4 SAMPLE_RATE ++ leBytes 4 (SAMPLE_RATE * CHANNELS * 2)
          ++ leBytes 2 (CHANNELS * 2) ++ leBytes 2 16
          ++ cstr "data" ++ leBytes 4 (2 * n)).map some := by
  have hd : toInt32 (toSizeT (toSizeT (n : Int) * 2)) = ((2 * n : Nat) : Int) := by
    unfold toInt32 toSizeT
    push_cast
    omega
  have h36 : toInt32 (36 + ((2 * n : Nat) : Int)) = ((36 + 2 * n : Nat) : Int) := by
    unfold toInt32
    push_cast
    omega
  have m1 : (((36 + 2 * n : Nat) : Int) % 4294967296).toNat = 36 + 2 * n := by omega
  have m2 : (((2 * n : Nat) : Int) % 4294967296).toNat = 2 * n := by omega
  have hR : cstr "RIFF" = [82, 73, 70, 70] := by decide
  have hW : cstr "WAVE" = [87, 65, 86, 69] := by decide
  have hF : cstr "fmt " = [102, 109, 116, 32] := by decide
  have hD : cstr "data" = [100, 97, 116, 97] := by decide
  simp only [write_wav_header, hd, h36, storeInt, storeShort, m1, m2, hR, hW, hF, hD]
  simp [alloc, memcpy, storeByte, leBytes, List.replicate, toSizeT, SAMPLE_RATE, CHANNELS]

/-- C5: for a sample count `n` with `36 + 2n` representable as a signed 32-bit integer,
`write_wav_header` emits exactly 44 bytes, every one of them assigned: "RIFF", the 32-bit
value `36 + 2n`, "WAVE", "fmt ", the 32-bit value 16, format tag 1, the channel count, the
sample rate, the byte rate, the block align, 16 bits per sample, "data" and the 32-bit
data size `2n`, every multi-byte field little-endian. -/
theorem C5_wav_header (n : Nat) (h : 36 + 2 * n < 2 ^ 31) :
    (write_wav_header n).length = 44
    ∧ (∀ b ∈ write_wav_header n, b ≠ none)
    ∧ write_wav_header n
      = (cstr "RIFF" ++ leBytes 4 (36 + 2 * n) ++ cstr "WAVE"
          ++ cstr "fmt " ++ leBytes 4 16 ++ leBytes 2 1 ++ leBytes 2 CHANNELS
          ++ leBytes 4 SAMPLE_RATE ++ leBytes 4 (SAMPLE_RATE * CHANNELS * 2)
          ++ leBytes 2 (CHANNELS * 2) ++ leBytes 2 16
          ++ cstr "data" ++ leBytes 4 (2 * n)).map some
    ∧ leValue (leBytes 4 (36 + 2 * n)) = 36 + 2 * n
    ∧ leValue (leBytes 4 (2 * n)) = 2 * n
    ∧ leValue (leBytes 4 16) = 16
    ∧ leValue (leBytes 2 1) = 1
    ∧ leValue (leBytes 2 CHANNELS) = CHANNELS
    ∧ leValue (leBytes 4 SAMPLE_RATE) = SAMPLE_RATE
    ∧ leValue (leBytes 4 (SAMPLE_RATE * CHANNELS * 2)) = SAMPLE_RATE * CHANNELS * 2
    ∧ leValue (leBytes 2 (CHANNELS * 2)) = CHANNELS * 2
    ∧ leValue (leBytes 2 16) = 16 := by
  have e := write_wav_header_eq n h
  refine ⟨?_, ?_, e, ?_, ?_, by decide, by decide, by decide, by decide, by decide,
    by decide, by decide⟩
  · rw [e]
    simp [leBytes_length, cstr]
  · rw [e]
    intro b hb
    rw [List.mem_map] at hb
    obtain ⟨a, _, rfl⟩ := hb
    simp
  · exact leValue_leBytes 4 _ (by norm_num at h ⊢; omega)
  · exact leValue_leBytes 4 _ (by norm_num at h ⊢; omega)

/-- C5 at the sample count of the program, 480000. -/
theorem C5_wav_header_witness :
    36 + 2 * 480000 < 2 ^ 31 ∧ (write_wav_header (480000 : Nat)).length = 44 :=
  ⟨by norm_num, (C5_wav_header 480000 (by norm_num)).1⟩

/-! ## The call sequence of `encode_sine_wave` -/

theorem submitted_append (a b : List Call) : submitted (a ++ b) = submitted a ++ submitted b := by
  induction a with
  | nil => rfl
  | cons c a ih => cases c <;> simp [submitted, ih]

theorem flush_loop_os (pages : List ogg_page) (st : EncState) :
    (flush_loop pages st).os
      = st.os ++ pages.map (fun og => Call.flush (some og)) ++ [Call.flush none] := by
  induction pages generalizing st with
  | nil => simp [flush_loop]
  | cons og pages ih => simp [flush_loop, ih]

theorem flush_loop_stderr (pages : List ogg_page) (st : EncState) :
    (flush_loop pages st).stderr = st.stderr := by
  induction pages generalizing st with
  | nil => simp [flush_loop]
  | cons og pages ih => simp [flush_loop, ih]

theorem pageout_loop_os (pages : List ogg_page) (st : EncState) :
    (pageout_loop pages st).os
      = st.os ++ pages.map (fun og => Call.pageout (some og)) ++ [Call.pageout none] := by
  induction pages generalizing st with
  | nil => simp [pageout_loop]
  | cons og pages ih => simp [pageout_loop, ih]

theorem submitted_flushes (pages : List ogg_page) :
    submitted (pages.map (fun og => Call.flush (some og))) = [] := by
  induction pages with
  | nil => rfl
  | cons og pages ih => simpa [submitted] using ih

theorem submitted_pageouts (pages : List ogg_page) :
    submitted (pages.map (fun og => Call.pageout (some og))) = [] := by
  induction pages with
  | nil => rfl
  | cons og pages ih => simpa [submitted] using ih

/-- The packet of frame `j` as the loop builds it from the environment's answer. -/
theorem encode_loop_os (env : EncEnv) (nf n i : Nat) (st : EncState) :
    ∃ ext m, m ≤ n
      ∧ (encode_loop env nf n i st).1.os = st.os ++ ext
      ∧ submitted ext = (List.range' i m).map
          (fun j => audio_packet nf j (env.opus_encode j).2 (env.opus_encode j).1)
      ∧ ((∀ j, i ≤ j → j < i + n → 0 ≤ (env.opus_encode j).1 ∧ env.packetin_ret j = 0) →
          m = n ∧ (encode_loop env nf n i st).2 = true) := by
  induction n generalizing i st with
  | zero => exact ⟨[], 0, le_refl _, by simp [encode_loop], rfl, fun _ => ⟨rfl, rfl⟩⟩
  | succ n ih =>
    by_cases h1 : (env.opus_encode i).1 < 0
    · refine ⟨[], 0, Nat.zero_le _, by simp [encode_loop, h1], rfl, fun hok => ?_⟩
      have := (hok i (le_refl _) (by omega)).1
      omega
    · by_cases h2 : env.packetin_ret i ≠ 0
      · refine ⟨[Call.packetin (audio_packet nf i (env.opus_encode i).2 (env.opus_encode i).1)],
          1, by omega, by simp [encode_loop, h1, h2], by simp [submitted, List.range'], fun hok => ?_⟩
        exact absurd (hok i (le_refl _) (by omega)).2 h2
      · obtain ⟨ext, m, hm, hos, hsub, hok⟩ := ih (i + 1)
          (pageout_loop (env.frame_pages i)
            { st with os := st.os ++ [Call.packetin
                (audio_packet nf i (env.opus_encode i).2 (env.opus_encode i).1)] })
        refine ⟨[Call.packetin (audio_packet nf i (env.opus_encode i).2 (env.opus_encode i).1)]
            ++ (env.frame_pages i).map (fun og => Call.pageout (some og)) ++ [Call.pageout none]
            ++ ext, m + 1, by omega, ?_, ?_, fun hall => ?_⟩
        · simp only [encode_loop, h1, h2, if_false, hos, pageout_loop_os]
          simp
        · simp only [submitted_append, submitted_pageouts, hsub]
          simp [submitted, List.range'_succ]
        · have := hok (fun j hj1 hj2 => hall j (by omega) (by omega))
          refine ⟨by omega, ?_⟩
          simp only [encode_loop, h1, h2, if_false]
          exact this.2

/-- The state after the header flush loop in a run that reaches the headers. -/
theorem encode_sine_wave_reached (env : EncEnv) (h : env.setup_ok) :
    encode_sine_wave env =
      { ret := 0,
        os := (if !(env.malloc_pcm_ok && env.malloc_packet_ok) then
            { flush_loop env.header_pages
                { os := [Call.stream_init env.rand, Call.packetin opus_header_packet,
                    Call.packetin (opus_comments_packet vendor)], outfile := [], stderr := [] } with
              stderr := (flush_loop env.header_pages
                { os := [Call.stream_init env.rand, Call.packetin opus_header_packet,
                    Call.packetin (opus_comments_packet vendor)], outfile := [],
                  stderr := [] }).stderr ++ ["Error: Memory allocation failed"] }
          else
            match encode_loop env num_frames num_frames 0 (flush_loop env.header_pages
                { os := [Call.stream_init env.rand, Call.packetin opus_header_packet,
                    Call.packetin (opus_comments_packet vendor)], outfile := [], stderr := [] }) with
            | (st, false) => st
            | (st, true) => flush_loop env.final_pages st).os ++ [Call.stream_clear],
        outfile := some (if !(env.malloc_pcm_ok && env.malloc_packet_ok) then
            { flush_loop env.header_pages
                { os := [Call.stream_init env.rand, Call.packetin opus_header_packet,
                    Call.packetin (opus_comments_packet vendor)], outfile := [], stderr := [] } with
              stderr := (flush_loop env.header_pages
                { os := [Call.stream_init env.rand, Call.packetin opus_header_packet,
                    Call.packetin (opus_comments_packet vendor)], outfile := [],
                  stderr := [] }).stderr ++ ["Error: Memory allocation failed"] }
          else
            match encode_loop env num_frames num_frames 0 (flush_loop env.header_pages
                { os := [Call.stream_init env.rand, Call.packetin opus_header_packet,
                    Call.packetin (opus_comments_packet vendor)], outfile := [], stderr := [] }) with
            | (st, false) => st
            | (st, true) => flush_loop env.final_pages st).outfile,
        stderr := (if !(env.malloc_pcm_ok && env.malloc_packet_ok) then
            { flush_loop env.header_pages
                { os := [Call.stream_init env.rand, Call.packetin opus_header_packet,
                    Call.packetin (opus_comments_packet vendor)], outfile := [], stderr := [] } with
              stderr := (flush_loop env.header_pages
                { os := [Call.stream_init env.rand, Call.packetin opus_header_packet,
                    Call.packetin (opus_comments_packet vendor)], outfile := [],
                  stderr := [] }).stderr ++ ["Error: Memory allocation failed"] }
          else
            match encode_loop env num_frames num_frames 0 (flush_loop env.header_pages
                { os := [Call.stream_init env.rand, Call.packetin opus_header_packet,
                    Call.packetin (opus_comments_packet vendor)], outfile := [], stderr := [] }) with
            | (st, false) => st
            | (st, true) => flush_loop env.final_pages st).stderr } := by
  obtain ⟨h1, h2, h3, h4⟩ := h
  unfold encode_sine_wave
  rw [if_neg (by simp [h1]), if_neg (by simp [h2]), if_neg (by simp [h3]), if_neg (by simp [h4])]
  rfl

/-- The calls of a run that reaches the headers: the stream is initialised, the two header
packets are submitted, one flush loop runs, and what follows submits the packets of the
frames `0 .. m-1` in order and nothing else. -/
theorem encode_sine_wave_os (env : EncEnv) (h : env.setup_ok) :
    ∃ ext m, m ≤ num_frames
      ∧ (encode_sine_wave env).os
          = [Call.stream_init env.rand, Call.packetin opus_header_packet,
              Call.packetin (opus_comments_packet vendor)]
            ++ env.header_pages.map (fun og => Call.flush (some og)) ++ [Call.flush none] ++ ext
      ∧ submitted ext = (List.range' 0 m).map
          (fun j => audio_packet num_frames j (env.opus_encode j).2 (env.opus_encode j).1)
      ∧ (env.frames_ok → m = num_frames) := by
  rw [encode_sine_wave_reached env h]
  obtain ⟨ext, m, hle, hos, hsub, hok⟩ := encode_loop_os env num_frames num_frames 0
    (flush_loop env.header_pages
      { os := [Call.stream_init env.rand, Call.packetin opus_header_packet,
          Call.packetin (opus_comments_packet vendor)], outfile := [], stderr := [] })
  by_cases hm : (env.malloc_pcm_ok && env.malloc_packet_ok) = true
  · simp only [hm, Bool.not_true, Bool.false_eq_true, if_false]
    split
    · rename_i st heq
      refine ⟨ext ++ [Call.stream_clear], m, hle, ?_, ?_, fun hf => ?_⟩
      · rw [heq] at hos
        simp only at hos
        simp [hos, flush_loop_os]
      · simp [submitted_append, hsub, submitted]
      · exact (hok (fun j _ hj => hf.2.2 j (by omega))).1
    · rename_i st heq
      refine ⟨ext ++ env.final_pages.map (fun og => Call.flush (some og)) ++ [Call.flush none]
          ++ [Call.stream_clear], m, hle, ?_, ?_, fun hf => ?_⟩
      · rw [heq] at hos
        simp only at hos
        simp [hos, flush_loop_os]
      · simp [submitted_append, hsub, submitted, submitted_flushes]
      · exact (hok (fun j _ hj => hf.2.2 j (by omega))).1
  · refine ⟨[Call.stream_clear], 0, Nat.zero_le _, ?_, by simp [submitted], fun hf => ?_⟩
    · simp [hm, flush_loop_os]
    · exact absurd (by simp [hf.1, hf.2.1]) hm

theorem mem_submitted (tr : List Call) (p : ogg_packet) :
    Call.packetin p ∈ tr ↔ p ∈ submitted tr := by
  induction tr with
  | nil => simp [submitted]
  | cons c tr ih => cases c <;> simp [submitted, ih]

/-- The packets of a run that reaches the headers: the two header packets, then the
packets of the frames `0 .. m-1`. -/
theorem encode_packets_eq (env : EncEnv) (h : env.setup_ok) :
    ∃ m, m ≤ num_frames
      ∧ encode_packets env = opus_header_packet :: opus_comments_packet vendor ::
          (List.range' 0 m).map
            (fun j => audio_packet num_frames j (env.opus_encode j).2 (env.opus_encode j).1)
      ∧ (env.frames_ok → m = num_frames) := by
  obtain ⟨ext, m, hle, hos, hsub, hok⟩ := encode_sine_wave_os env h
  refine ⟨m, hle, ?_, hok⟩
  simp [encode_packets, hos, submitted_append, submitted, submitted_flushes, hsub]

theorem encode_packets_get (env : EncEnv) (h : env.setup_ok) :
    ∃ m, m ≤ num_frames ∧ (env.frames_ok → m = num_frames)
      ∧ (encode_packets env).length = m + 2
      ∧ ∀ (k : Nat) (p : ogg_packet), (encode_packets env)[k]? = some p ↔
          ((k = 0 ∧ p = opus_header_packet) ∨ (k = 1 ∧ p = opus_comments_packet vendor)
            ∨ (∃ i, i < m ∧ k = i + 2
                ∧ p = audio_packet num_frames i (env.opus_encode i).2 (env.opus_encode i).1)) := by
  obtain ⟨m, hle, heq, hok⟩ := encode_packets_eq env h
  refine ⟨m, hle, hok, by simp [heq], fun k p => ?_⟩
  rw [heq]
  match k with
  | 0 => simp [eq_comm]
  | 1 => simp [eq_comm]
  | k + 2 =>
    simp only [List.getElem?_cons_succ, List.getElem?_map]
    constructor
    · intro hp
      by_cases hk : k < m
      · rw [List.getElem?_range' 0 1 hk] at hp
        simp at hp
        exact Or.inr (Or.inr ⟨k, hk, rfl, hp.symm⟩)
      · rw [List.getElem?_eq_none (by simpa using hk)] at hp
        simp at hp
    · rintro (⟨h0, _⟩ | ⟨h1, _⟩ | ⟨i, hi, hki, rfl⟩)
      · omega
      · omega
      · have : k = i := by omega
        subst this
        rw [List.getElem?_range' 0 1 hi]
        simp

theorem num_frames_eq : num_frames = 1000 := by decide

theorem audio_packet_fields (i : Nat) (packet : Buffer) (nbBytes : Int) (hi : i < num_frames) :
    (audio_packet num_frames i packet nbBytes).granulepos = (((i + 1) * FRAME_SIZE : Nat) : Int)
    ∧ (audio_packet num_frames i packet nbBytes).packetno = ((i + 2 : Nat) : Int)
    ∧ (audio_packet num_frames i packet nbBytes).b_o_s = 0
    ∧ ((audio_packet num_frames i packet nbBytes).e_o_s = 1 ↔ i = num_frames - 1)
    ∧ ((audio_packet num_frames i packet nbBytes).e_o_s = 0
        ∨ (audio_packet num_frames i packet nbBytes).e_o_s = 1)
    ∧ (audio_packet num_frames i packet nbBytes).bytes = nbBytes
    ∧ (audio_packet num_frames i packet nbBytes).packet = packet := by
  rw [num_frames_eq] at hi
  refine ⟨?_, ?_, rfl, ?_, ?_, rfl, rfl⟩
  · simp only [audio_packet, toInt32, FRAME_SIZE]
    push_cast
    omega
  · simp only [audio_packet, toInt32]
    push_cast
    omega
  · simp only [audio_packet]
    split <;> simp_all
  · simp only [audio_packet]
    split <;> simp

theorem env_ok_setup : env_ok.setup_ok := ⟨rfl, rfl, rfl, rfl⟩

theorem env_ok_frames : env_ok.frames_ok :=
  ⟨rfl, rfl, fun _ _ => ⟨by show (0 : Int) ≤ 3; decide, rfl⟩⟩

/-- In a run that reaches the headers the identification packet is submitted at call 1
only and the comment packet at call 2 only (call 0 initialises the stream). -/
theorem header_positions (env : EncEnv) (h : env.setup_ok) :
    (encode_sine_wave env).os[1]? = some (Call.packetin opus_header_packet)
    ∧ (encode_sine_wave env).os[2]? = some (Call.packetin (opus_comments_packet vendor))
    ∧ (∀ i : Nat, (encode_sine_wave env).os[i]? = some (Call.packetin opus_header_packet) → i = 1)
    ∧ (∀ j : Nat, (encode_sine_wave env).os[j]? = some (Call.packetin (opus_comments_packet vendor))
          → j = 2) := by
  obtain ⟨ext, m, hle, hos, hsub, -⟩ := encode_sine_wave_os env h
  have haudio : ∀ p, Call.packetin p ∈ env.header_pages.map (fun og => Call.flush (some og))
      ++ [Call.flush none] ++ ext → p.b_o_s = 0 ∧ 2 ≤ p.packetno := by
    intro p hp
    rw [mem_submitted, submitted_append, submitted_append, submitted_flushes, hsub] at hp
    simp only [submitted, List.nil_append, List.mem_map, List.mem_range'_1] at hp
    obtain ⟨j, hj, rfl⟩ := hp
    have hf := audio_packet_fields j (env.opus_encode j).2 (env.opus_encode j).1 (by omega)
    refine ⟨hf.2.2.1, ?_⟩
    rw [hf.2.1]
    push_cast
    omega
  have hrest : ∀ (i : Nat) (p : ogg_packet),
      (encode_sine_wave env).os[i + 3]? = some (Call.packetin p) → p.b_o_s = 0 ∧ 2 ≤ p.packetno := by
    intro i p hp
    apply haudio
    rw [hos] at hp
    simp only [List.append_assoc, List.cons_append, List.nil_append,
      List.getElem?_cons_succ] at hp
    have := List.getElem?_mem hp
    simpa using this
  refine ⟨by simp [hos], by simp [hos], fun i hi => ?_, fun j hj => ?_⟩
  · match i with
    | 0 => simp [hos] at hi
    | 1 => rfl
    | 2 =>
      simp only [hos, List.append_assoc, List.cons_append, List.nil_append,
        List.getElem?_cons_succ, List.getElem?_cons_zero, Option.some.injEq,
        Call.packetin.injEq] at hi
      have := congrArg ogg_packet.packetno hi
      simp [opus_comments_packet, opus_header_packet] at this
    | i + 3 =>
      have := (hrest i _ hi).1
      simp [opus_header_packet] at this
  · match j with
    | 0 => simp [hos] at hj
    | 1 =>
      simp only [hos, List.append_assoc, List.cons_append, List.nil_append,
        List.getElem?_cons_succ, List.getElem?_cons_zero, Option.some.injEq,
        Call.packetin.injEq] at hj
      have := congrArg ogg_packet.packetno hj
      simp [opus_comments_packet, opus_header_packet] at this
    | 2 => rfl
    | j + 3 =>
      have := (hrest j _ hj).2
      simp [opus_comments_packet] at this

/-- C3, as stated, fails: in the run of `encode_sine_wave` in which everything succeeds no
completed flush lies between the submission of the identification packet and the
submission of the comment packet. -/
theorem C3_counterexample :
    ¬ flushed_between (encode_sine_wave env_ok).os opus_header_packet
        (opus_comments_packet vendor) := by
  rintro ⟨i, k, j, hik, hkj, hi, -, hj⟩
  obtain ⟨-, -, h1, h2⟩ := header_positions env_ok env_ok_setup
  have := h1 i hi
  have := h2 j hj
  omega

/-- C3, amended: in a run of `encode_sine_wave` that reaches the headers, the
identification packet and the comment packet are submitted one directly after the other
(calls 1 and 2, after the stream initialisation), with no flush between them; one flush
loop, drained to completion, follows the comment packet, and every packet submitted after
it is an audio packet (`b_o_s = 0`, packet number at least 2). -/
theorem C3_headers_then_one_flush (env : EncEnv) (h : env.setup_ok) :
    ¬ flushed_between (encode_sine_wave env).os opus_header_packet (opus_comments_packet vendor)
    ∧ ∃ ext, (encode_sine_wave env).os
        = [Call.stream_init env.rand, Call.packetin opus_header_packet,
            Call.packetin (opus_comments_packet vendor)]
          ++ env.header_pages.map (fun og => Call.flush (some og)) ++ [Call.flush none] ++ ext
      ∧ ∀ p, Call.packetin p ∈ ext → p.b_o_s = 0 ∧ 2 ≤ p.packetno := by
  constructor
  · rintro ⟨i, k, j, hik, hkj, hi, -, hj⟩
    obtain ⟨-, -, h1, h2⟩ := header_positions env h
    have := h1 i hi
    have := h2 j hj
    omega
  · obtain ⟨ext, m, hle, hos, hsub, -⟩ := encode_sine_wave_os env h
    refine ⟨ext, hos, fun p hp => ?_⟩
    rw [mem_submitted, hsub] at hp
    simp only [List.mem_map, List.mem_range'_1] at hp
    obtain ⟨j, hj, rfl⟩ := hp
    have hf := audio_packet_fields j (env.opus_encode j).2 (env.opus_encode j).1 (by omega)
    refine ⟨hf.2.2.1, ?_⟩
    rw [hf.2.1]
    push_cast
    omega

/-- C3, amended, in the run in which everything succeeds. -/
theorem C3_headers_then_one_flush_witness :
    env_ok.setup_ok
    ∧ ∃ ext, (encode_sine_wave env_ok).os
        = [Call.stream_init env_ok.rand, Call.packetin opus_header_packet,
            Call.packetin (opus_comments_packet vendor)]
          ++ env_ok.header_pages.map (fun og => Call.flush (some og)) ++ [Call.flush none] ++ ext
      ∧ ∀ p, Call.packetin p ∈ ext → p.b_o_s = 0 ∧ 2 ≤ p.packetno :=
  ⟨env_ok_setup, (C3_headers_then_one_flush env_ok env_ok_setup).2⟩

/-! ## The audio packets -/

/-- C4: the audio packet submitted for frame `i` (the packet after the two headers at
position `i + 2`) has `i < num_frames = 1000`, granule position `(i+1) * FRAME_SIZE`,
packet number `i + 2`, `b_o_s = 0`, and `e_o_s = 1` exactly when `i = num_frames - 1`;
over the whole stream the packet numbers are 0, 1, 2, ... without gaps, the granule
positions never decrease, the end-of-stream flag is on the packet of the last frame only,
and when every frame is encoded and submitted there is a packet for every frame and the
last one carries granule position 480000. -/
theorem C4_audio_packets (env : EncEnv) (h : env.setup_ok) :
    num_frames = 1000
    ∧ (∀ (i : Nat) (p : ogg_packet), (encode_packets env)[i + 2]? = some p →
        i < num_frames
        ∧ p.granulepos = (((i + 1) * FRAME_SIZE : Nat) : Int)
        ∧ p.packetno = ((i + 2 : Nat) : Int)
        ∧ p.b_o_s = 0
        ∧ (p.e_o_s = 1 ↔ i = num_frames - 1)
        ∧ (p.e_o_s = 0 ∨ p.e_o_s = 1)
        ∧ p.bytes = (env.opus_encode i).1
        ∧ p.packet = (env.opus_encode i).2)
    ∧ (encode_packets env)[0]? = some opus_header_packet
    ∧ (encode_packets env)[1]? = some (opus_comments_packet vendor)
    ∧ (∀ (k : Nat) (p : ogg_packet), (encode_packets env)[k]? = some p → p.packetno = (k : Int))
    ∧ (∀ (a b : Nat) (p q : ogg_packet), a ≤ b → (encode_packets env)[a]? = some p →
        (encode_packets env)[b]? = some q → p.granulepos ≤ q.granulepos)
    ∧ (∀ (k : Nat) (p : ogg_packet), (encode_packets env)[k]? = some p →
        (p.e_o_s = 1 ↔ k = num_frames + 1))
    ∧ (env.frames_ok →
        (encode_packets env).length = num_frames + 2
        ∧ (∀ i, i < num_frames → ∃ p, (encode_packets env)[i + 2]? = some p)
        ∧ ∃ p, (encode_packets env)[num_frames + 1]? = some p ∧ p.e_o_s = 1
            ∧ p.granulepos = 480000) := by
  obtain ⟨m, hle, hok, hlen, hget⟩ := encode_packets_get env h
  have hid : opus_header_packet.granulepos = 0 ∧ opus_header_packet.packetno = 0
      ∧ opus_header_packet.e_o_s = 0 := ⟨rfl, rfl, rfl⟩
  have hcm : (opus_comments_packet vendor).granulepos = 0
      ∧ (opus_comments_packet vendor).packetno = 1
      ∧ (opus_comments_packet vendor).e_o_s = 0 := ⟨rfl, rfl, rfl⟩
  have hfield := fun (i : Nat) (hi : i < m) =>
    audio_packet_fields i (env.opus_encode i).2 (env.opus_encode i).1 (by omega)
  have hnf := num_frames_eq
  refine ⟨hnf, ?_, ?_, ?_, ?_, ?_, ?_, ?_⟩
  · intro i p hp
    rcases (hget _ _).1 hp with ⟨h0, -⟩ | ⟨h1, -⟩ | ⟨j, hj, hk, rfl⟩
    · omega
    · omega
    · have : i = j := by omega
      subst this
      exact ⟨by omega, hfield i hj⟩
  · exact (hget 0 _).2 (Or.inl ⟨rfl, rfl⟩)
  · exact (hget 1 _).2 (Or.inr (Or.inl ⟨rfl, rfl⟩))
  · intro k p hp
    rcases (hget _ _).1 hp with ⟨rfl, rfl⟩ | ⟨rfl, rfl⟩ | ⟨j, hj, rfl, rfl⟩
    · exact hid.2.1
    · exact hcm.2.1
    · exact (hfield j hj).2.1
  · intro a b p q hab hp hq
    rcases (hget _ _).1 hp with ⟨rfl, rfl⟩ | ⟨rfl, rfl⟩ | ⟨i, hi, rfl, rfl⟩ <;>
    rcases (hget _ _).1 hq with ⟨rfl, rfl⟩ | ⟨rfl, rfl⟩ | ⟨j, hj, rfl, rfl⟩
    all_goals first
      | omega
      | (simp only [hid.1, hcm.1, le_refl]; done)
      | (rw [(hfield j hj).1]; simp only [hid.1, hcm.1]; positivity)
      | (rw [(hfield i hi).1, (hfield j hj).1]; simp only [FRAME_SIZE]; push_cast; omega)
  · intro k p hp
    rcases (hget _ _).1 hp with ⟨rfl, rfl⟩ | ⟨rfl, rfl⟩ | ⟨j, hj, rfl, rfl⟩
    · simp [hid.2.2, hnf]
    · simp [hcm.2.2, hnf]
    · rw [(hfield j hj).2.2.2.1]
      omega
  · intro hf
    have hm := hok hf
    subst hm
    refine ⟨hlen, fun i hi => ⟨_, (hget _ _).2 (Or.inr (Or.inr ⟨i, hi, rfl, rfl⟩))⟩, ?_⟩
    refine ⟨_, (hget _ _).2 (Or.inr (Or.inr ⟨num_frames - 1, by omega, by omega, rfl⟩)), ?_, ?_⟩
    · exact (hfield _ (by omega)).2.2.2.1.2 rfl
    · rw [(hfield _ (by omega)).1, hnf]
      decide

/-- C4 in the run in which everything succeeds: all 1000 frames are submitted and the
last packet carries granule position 480000. -/
theorem C4_audio_packets_witness :
    env_ok.setup_ok ∧ env_ok.frames_ok
    ∧ (encode_packets env_ok).length = num_frames + 2
    ∧ ∃ p, (encode_packets env_ok)[num_frames + 1]? = some p ∧ p.e_o_s = 1
        ∧ p.granulepos = 480000 :=
  ⟨env_ok_setup, env_ok_frames,
    ((C4_audio_packets env_ok env_ok_setup).2.2.2.2.2.2.2 env_ok_frames).1,
    ((C4_audio_packets env_ok env_ok_setup).2.2.2.2.2.2.2 env_ok_frames).2.2⟩

/-! ## The loops of `decode_ogg_to_wav` -/

theorem toInt32_idem (a : Int) : toInt32 (toInt32 a) = toInt32 a := by
  unfold toInt32
  omega

theorem toInt32_add (a b : Int) : toInt32 (toInt32 a + b) = toInt32 (a + b) := by
  unfold toInt32
  omega

theorem toInt32_of_range (a : Int) (h1 : -2147483648 ≤ a) (h2 : a < 2147483648) :
    toInt32 a = a := by
  unfold toInt32
  omega

theorem fwrite_at_end (d bytes : List Nat) :
    fwrite { data := d, pos := d.length } bytes
      = { data := d ++ bytes, pos := (d ++ bytes).length } := by
  simp [fwrite]

/-- The calls the packet loop makes for a packet sequence that decodes without error. -/
theorem packet_loop_ok (pks : List PacketEvt) (st : DecState)
    (hpos : st.outfile.pos = st.outfile.data.length)
    (hok : ∀ pk ∈ pks, 0 ≤ pk.frame_size) :
    packet_loop pks st =
      ({ st with
          calls := st.calls ++ (pks.map
            (fun pk => [Call.packetout pk.op, Call.opus_decode pk.op pk.frame_size])).flatten,
          outfile := { data := st.outfile.data ++ packets_bytes pks,
                       pos := (st.outfile.data ++ packets_bytes pks).length },
          total_samples :=
            if pks = [] then st.total_samples
            else toInt32 (st.total_samples + frame_sizes_sum pks),
          frame_count :=
            if pks = [] then st.frame_count else toInt32 (st.frame_count + pks.length) },
        true) := by
  induction pks generalizing st with
  | nil =>
    cases st with
    | mk t sn fc c o e =>
      cases o with
      | mk d ps =>
        simp only at hpos
        subst hpos
        simp [packet_loop, packets_bytes]
  | cons pk rest ih =>
    have h0 : ¬ pk.frame_size < 0 := by
      have := hok pk (List.mem_cons_self _ _)
      omega
    have hrest : ∀ q ∈ rest, 0 ≤ q.frame_size := fun q hq => hok q (List.mem_cons_of_mem _ hq)
    cases st with
    | mk t sn fc c o e =>
      cases o with
      | mk d ps =>
        simp only at hpos
        subst hpos
        simp only [packet_loop, h0, if_false]
        rw [fwrite_at_end, ih _ rfl hrest]
        simp only [packets_bytes, frame_sizes_sum, List.map_cons, List.flatten_cons,
          List.sum_cons, List.length_cons, packet_bytes, List.append_assoc, reduceCtorEq,
          if_false, Prod.mk.injEq, and_true]
        by_cases hr : rest = []
        · subst hr
          simp
        · simp only [hr, if_false, toInt32_add]
          congr 2
          · rw [add_assoc]
          · push_cast
            ring_nf

theorem page_loop_cons (pg : PageEvt) (rest : List PageEvt) (st : DecState) :
    page_loop (pg :: rest) st =
      if pg.pagein_ret ≠ 0 then
        ({ page_enter pg st with
            stderr := st.stderr ++ ["Error: Failed to read Ogg page"] }, false)
      else
        match packet_loop pg.packets (page_enter pg st) with
        | (st, false) => (st, false)
        | (st, true) => page_loop rest st := by
  by_cases hs : st.serialno = -1 <;> by_cases hr : pg.pagein_ret = 0 <;>
    simp [page_loop, page_enter, hs, hr]

theorem page_loop_append (a b : List PageEvt) (st : DecState) :
    page_loop (a ++ b) st =
      match page_loop a st with
      | (st, false) => (st, false)
      | (st, true) => page_loop b st := by
  induction a generalizing st with
  | nil => simp [page_loop]
  | cons pg a ih =>
    rw [List.cons_append, page_loop_cons, page_loop_cons]
    by_cases hr : pg.pagein_ret = 0
    · simp only [hr, ne_eq, not_true_eq_false, if_false]
      rcases hp : packet_loop pg.packets (page_enter pg st) with ⟨st1, b1⟩
      cases b1
      · rfl
      · exact ih st1
    · simp [hr]

/-- The read loop handles the pages of all reads as one sequence. -/
theorem chunk_loop_eq (chunks : List (List PageEvt)) (st : DecState) :
    chunk_loop chunks st = page_loop chunks.flatten st := by
  induction chunks generalizing st with
  | nil => simp [chunk_loop, page_loop]
  | cons pages chunks ih =>
    rw [List.flatten_cons, page_loop_append, chunk_loop]
    rcases hp : page_loop pages st with ⟨st1, b1⟩
    cases b1
    · rfl
    · exact ih st1

theorem yielded_append (a b : List Call) : yielded (a ++ b) = yielded a ++ yielded b := by
  induction a with
  | nil => rfl
  | cons c a ih => cases c <;> simp [yielded, ih]

theorem decoded_append (a b : List Call) : decoded (a ++ b) = decoded a ++ decoded b := by
  induction a with
  | nil => rfl
  | cons c a ih => cases c <;> simp [decoded, ih]

theorem delivered_append (a b : List Call) :
    delivered (a ++ b) = delivered a ++ delivered b := by
  induction a with
  | nil => rfl
  | cons c a ih => cases c <;> simp [delivered, ih]

theorem inits_append (a b : List Call) : inits (a ++ b) = inits a ++ inits b := by
  induction a with
  | nil => rfl
  | cons c a ih => cases c <;> simp [inits, ih]

theorem yielded_packet_calls (pks : List PacketEvt) :
    yielded (pks.map
      (fun pk => [Call.packetout pk.op, Call.opus_decode pk.op pk.frame_size])).flatten
      = pks.map PacketEvt.op := by
  induction pks with
  | nil => rfl
  | cons pk pks ih => simp [yielded, ih]

theorem decoded_packet_calls (pks : List PacketEvt) :
    decoded (pks.map
      (fun pk => [Call.packetout pk.op, Call.opus_decode pk.op pk.frame_size])).flatten
      = pks.map (fun pk => (pk.op, pk.frame_size)) := by
  induction pks with
  | nil => rfl
  | cons pk pks ih => simp [decoded, ih]

theorem delivered_packet_calls (pks : List PacketEvt) :
    delivered (pks.map
      (fun pk => [Call.packetout pk.op, Call.opus_decode pk.op pk.frame_size])).flatten = [] := by
  induction pks with
  | nil => rfl
  | cons pk pks ih => simp [delivered, ih]

theorem inits_packet_calls (pks : List PacketEvt) :
    inits (pks.map
      (fun pk => [Call.packetout pk.op, Call.opus_decode pk.op pk.frame_size])).flatten = [] := by
  induction pks with
  | nil => rfl
  | cons pk pks ih => simp [inits, ih]

theorem page_enter_yielded (pg : PageEvt) (st : DecState) :
    yielded (page_enter pg st).calls = yielded st.calls := by
  by_cases hs : st.serialno = -1 <;> simp [page_enter, hs, yielded_append, yielded]

theorem page_enter_decoded (pg : PageEvt) (st : DecState) :
    decoded (page_enter pg st).calls = decoded st.calls := by
  by_cases hs : st.serialno = -1 <;> simp [page_enter, hs, decoded_append, decoded]

theorem packet_loop_fields (pks : List PacketEvt) (st : DecState)
    (hpos : st.outfile.pos = st.outfile.data.length)
    (ht : toInt32 st.total_samples = st.total_samples)
    (hf : toInt32 st.frame_count = st.frame_count)
    (hok : ∀ pk ∈ pks, 0 ≤ pk.frame_size) :
    (packet_loop pks st).2 = true
    ∧ (packet_loop pks st).1.outfile
        = { data := st.outfile.data ++ packets_bytes pks,
            pos := (st.outfile.data ++ packets_bytes pks).length }
    ∧ (packet_loop pks st).1.total_samples = toInt32 (st.total_samples + frame_sizes_sum pks)
    ∧ (packet_loop pks st).1.frame_count = toInt32 (st.frame_count + pks.length)
    ∧ (packet_loop pks st).1.stderr = st.stderr
    ∧ (packet_loop pks st).1.serialno = st.serialno
    ∧ (packet_loop pks st).1.calls = st.calls ++ (pks.map
        (fun pk => [Call.packetout pk.op, Call.opus_decode pk.op pk.frame_size])).flatten := by
  rw [packet_loop_ok pks st hpos hok]
  refine ⟨rfl, rfl, ?_, ?_, rfl, rfl, rfl⟩
  · by_cases he : pks = []
    · simp [he, frame_sizes_sum, ht]
    · simp [he]
  · by_cases he : pks = []
    · simp [he, hf]
    · simp [he]

/-- The state after the page loop over pages that are all accepted and decode without
error. -/
theorem page_loop_ok (pages : List PageEvt) (st : DecState)
    (hpos : st.outfile.pos = st.outfile.data.length)
    (ht : toInt32 st.total_samples = st.total_samples)
    (hf : toInt32 st.frame_count = st.frame_count)
    (hok : no_error pages) :
    (page_loop pages st).2 = true
    ∧ (page_loop pages st).1.outfile
        = { data := st.outfile.data ++ packets_bytes (page_packets pages),
            pos := (st.outfile.data ++ packets_bytes (page_packets pages)).length }
    ∧ (page_loop pages st).1.total_samples
        = toInt32 (st.total_samples + frame_sizes_sum (page_packets pages))
    ∧ (page_loop pages st).1.frame_count
        = toInt32 (st.frame_count + (page_packets pages).length)
    ∧ (page_loop pages st).1.stderr = st.stderr
    ∧ yielded (page_loop pages st).1.calls
        = yielded st.calls ++ (page_packets pages).map PacketEvt.op
    ∧ decoded (page_loop pages st).1.calls
        = decoded st.calls ++ (page_packets pages).map (fun pk => (pk.op, pk.frame_size)) := by
  induction pages generalizing st with
  | nil =>
    simp [page_loop, page_packets, packets_bytes, frame_sizes_sum, ht, hf]
    exact hpos.symm ▸ rfl
  | cons pg rest ih =>
    obtain ⟨hpi, hpk⟩ := hok
    have hr : pg.pagein_ret = 0 := hpi pg (List.mem_cons_self _ _)
    have hk1 : ∀ pk ∈ pg.packets, 0 ≤ pk.frame_size := fun pk h =>
      hpk pk (by simp [page_packets, h])
    have hk2 : no_error rest :=
      ⟨fun q hq => hpi q (List.mem_cons_of_mem _ hq), fun pk h => hpk pk (by
        simp only [page_packets, List.map_cons, List.flatten_cons, List.mem_append]
        exact Or.inr h)⟩
    rw [page_loop_cons]
    simp only [hr, ne_eq, not_true_eq_false, if_false]
    obtain ⟨p1, p2, p3, p4, p5, -, p7⟩ := packet_loop_fields pg.packets (page_enter pg st)
      (by simpa [page_enter] using hpos) (by simpa [page_enter] using ht)
      (by simpa [page_enter] using hf) hk1
    rcases hq : packet_loop pg.packets (page_enter pg st) with ⟨st1, b1⟩
    rw [hq] at p1 p2 p3 p4 p5 p7
    simp only at p1 p2 p3 p4 p5 p7
    subst p1
    simp only
    obtain ⟨k1, k2, k3, k4, k5, k6, k7⟩ := ih st1 (by rw [p2]) (by rw [p3, toInt32_idem])
      (by rw [p4, toInt32_idem]) hk2
    refine ⟨k1, ?_, ?_, ?_, ?_, ?_, ?_⟩
    · rw [k2, p2]
      simp [page_enter, page_packets, packets_bytes]
    · rw [k3, p3, toInt32_add]
      simp [page_enter, page_packets, frame_sizes_sum, add_assoc]
    · rw [k4, p4, toInt32_add]
      simp [page_enter, page_packets, add_assoc]
    · rw [k5, p5]
      simp [page_enter]
    · rw [k6, p7]
      simp [yielded_append, yielded_packet_calls, page_enter_yielded, page_packets]
    · rw [k7, p7]
      simp [decoded_append, decoded_packet_calls, page_enter_decoded, page_packets]

/-- What the packet loop adds to the calls, whether or not it is left by an error: no
page is handed out, the stream is not initialised, and every packet handed out is passed
to the decoder. -/
theorem packet_loop_ext (pks : List PacketEvt) (st : DecState) :
    (packet_loop pks st).1.serialno = st.serialno
    ∧ ∃ ext, (packet_loop pks st).1.calls = st.calls ++ ext
        ∧ (decoded ext).map Prod.fst = yielded ext
        ∧ delivered ext = [] ∧ inits ext = [] := by
  induction pks generalizing st with
  | nil => exact ⟨rfl, [], by simp [packet_loop], rfl, rfl, rfl⟩
  | cons pk rest ih =>
    by_cases h0 : pk.frame_size < 0
    · refine ⟨by simp [packet_loop, h0],
        [Call.packetout pk.op, Call.opus_decode pk.op pk.frame_size],
        by simp [packet_loop, h0], rfl, rfl, rfl⟩
    · simp only [packet_loop, h0, if_false]
      obtain ⟨hs, ext, hc, hd, hdl, hi⟩ := ih
        { st with
          calls := st.calls ++ [Call.packetout pk.op, Call.opus_decode pk.op pk.frame_size],
          outfile := fwrite st.outfile (samplesBytes (pk.pcm.take pk.frame_size.toNat)),
          total_samples := toInt32 (st.total_samples + pk.frame_size),
          frame_count := toInt32 (st.frame_count + 1) }
      refine ⟨hs, [Call.packetout pk.op, Call.opus_decode pk.op pk.frame_size] ++ ext,
        by simp [hc], ?_, ?_, ?_⟩
      · simp [decoded, yielded, hd]
      · simp [delivered, hdl]
      · simp [inits, hi]

theorem init_serials_all (l : List Int) (s : Int) (h : ∀ x ∈ l, x = -1) :
    init_serials (l ++ [s]) = init_serials l ++ [s] := by
  induction l with
  | nil => by_cases hs : s = -1 <;> simp [init_serials, hs]
  | cons a l ih =>
    have ha : a = -1 := h a (List.mem_cons_self _ _)
    simp [init_serials, ha, ih (fun x hx => h x (List.mem_cons_of_mem _ hx))]

theorem init_serials_done (l r : List Int) (h : ¬ ∀ x ∈ l, x = -1) :
    init_serials (l ++ r) = init_serials l := by
  induction l with
  | nil => simp at h
  | cons a l ih =>
    by_cases ha : a = -1
    · have : ¬ ∀ x ∈ l, x = -1 := fun hl => h (by
        intro x hx
        rcases List.mem_cons.1 hx with rfl | hx
        · exact ha
        · exact hl x hx)
      simp [init_serials, ha, ih this]
    · simp [init_serials, ha]

/-- What the page loop adds to the calls, whether or not it is left by an error. -/
theorem page_loop_ext (pages : List PageEvt) (st : DecState)
    (hinv : inits st.calls = init_serials (delivered st.calls))
    (hsen : st.serialno = -1 ↔ ∀ s ∈ delivered st.calls, s = -1) :
    ∃ ext, (page_loop pages st).1.calls = st.calls ++ ext
      ∧ (decoded ext).map Prod.fst = yielded ext
      ∧ (st.serialno ≠ -1 → inits ext = [])
      ∧ inits (st.calls ++ ext) = init_serials (delivered (st.calls ++ ext)) := by
  induction pages generalizing st with
  | nil => exact ⟨[], by simp [page_loop], rfl, fun _ => rfl, by simpa using hinv⟩
  | cons pg rest ih =>
    have e1 : (page_enter pg st).calls = st.calls ++ ([Call.sync_pageout pg.serialno]
        ++ (if st.serialno = -1 then [Call.stream_init pg.serialno] else [])
        ++ [Call.pagein pg.pagein_ret]) := by simp [page_enter]
    have e2 : delivered ([Call.sync_pageout pg.serialno]
        ++ (if st.serialno = -1 then [Call.stream_init pg.serialno] else [])
        ++ [Call.pagein pg.pagein_ret]) = [pg.serialno] := by
      by_cases hs : st.serialno = -1 <;> simp [hs, delivered]
    have e3 : inits ([Call.sync_pageout pg.serialno]
        ++ (if st.serialno = -1 then [Call.stream_init pg.serialno] else [])
        ++ [Call.pagein pg.pagein_ret]) = if st.serialno = -1 then [pg.serialno] else [] := by
      by_cases hs : st.serialno = -1 <;> simp [hs, inits]
    have e4 : (decoded ([Call.sync_pageout pg.serialno]
        ++ (if st.serialno = -1 then [Call.stream_init pg.serialno] else [])
        ++ [Call.pagein pg.pagein_ret])).map Prod.fst = [] := by
      by_cases hs : st.serialno = -1 <;> simp [hs, decoded]
    have e5 : yielded ([Call.sync_pageout pg.serialno]
        ++ (if st.serialno = -1 then [Call.stream_init pg.serialno] else [])
        ++ [Call.pagein pg.pagein_ret]) = [] := by
      by_cases hs : st.serialno = -1 <;> simp [hs, yielded]
    generalize hent : ([Call.sync_pageout pg.serialno]
        ++ (if st.serialno = -1 then [Call.stream_init pg.serialno] else [])
        ++ [Call.pagein pg.pagein_ret]) = ent at e1 e2 e3 e4 e5
    have hinv1 : inits (st.calls ++ ent) = init_serials (delivered (st.calls ++ ent)) := by
      rw [inits_append, delivered_append, e2, e3, hinv]
      by_cases hs : st.serialno = -1
      · simp only [hs, if_true]
        exact (init_serials_all _ _ (hsen.1 hs)).symm
      · simp only [hs, if_false, List.append_nil]
        exact (init_serials_done _ _ (fun hall => hs (hsen.2 hall))).symm
    have hsen1 : (page_enter pg st).serialno = -1 ↔ ∀ s ∈ delivered (st.calls ++ ent), s = -1 := by
      rw [delivered_append, e2]
      by_cases hs : st.serialno = -1
      · have := hsen.1 hs
        simp only [page_enter, hs, if_true, List.mem_append, List.mem_singleton]
        constructor
        · rintro h s (h1 | rfl)
          · exact this s h1
          · exact h
        · intro h
          exact h _ (Or.inr rfl)
      · simp only [page_enter, hs, if_false, List.mem_append, List.mem_singleton, false_iff]
        intro h
        exact hs (hsen.2 (fun s h1 => h s (Or.inl h1)))
    rw [page_loop_cons]
    by_cases hr : pg.pagein_ret = 0
    · simp only [hr, ne_eq, not_true_eq_false, if_false]
      obtain ⟨q1, pext, q2, q3, q4, q5⟩ := packet_loop_ext pg.packets (page_enter pg st)
      rcases hq : packet_loop pg.packets (page_enter pg st) with ⟨st1, b1⟩
      rw [hq] at q1 q2
      simp only at q1 q2
      rw [e1] at q2
      have hinv2 : inits (st.calls ++ ent ++ pext)
          = init_serials (delivered (st.calls ++ ent ++ pext)) := by
        rw [inits_append, delivered_append, q4, q5, List.append_nil, List.append_nil, hinv1]
      have hsen2 : st1.serialno = -1 ↔ ∀ s ∈ delivered (st.calls ++ ent ++ pext), s = -1 := by
        rw [q1, delivered_append, q4, List.append_nil]
        exact hsen1
      cases b1
      · refine ⟨ent ++ pext, by simp [q2], ?_, ?_, ?_⟩
        · simp only [decoded_append, yielded_append, List.map_append, e4, e5, q3,
            List.nil_append]
        · intro hs
          simp [inits_append, e3, hs, q5]
        · rw [← List.append_assoc]
          exact hinv2
      · simp only
        obtain ⟨ext, r1, r2, r3, r4⟩ := ih st1 (by rw [q2]; exact hinv2) (by rw [q2]; exact hsen2)
        refine ⟨ent ++ pext ++ ext, by simp [r1, q2], ?_, ?_, ?_⟩
        · simp only [decoded_append, yielded_append, List.map_append, e4, e5, q3, r2,
            List.nil_append]
        · intro hs
          have : st1.serialno ≠ -1 := by
            rw [q1]
            simp [page_enter, hs]
          simp [inits_append, e3, hs, q5, r3 this]
        · rw [q2] at r4
          simpa [List.append_assoc] using r4
    · simp only [hr, ne_eq, not_false_eq_true, if_true]
      refine ⟨ent, by simp [e1], by rw [e4, e5], ?_, hinv1⟩
      intro hs
      simp [e3, hs]

/-- The result of a run of `decode_ogg_to_wav` that reaches the read loop, in terms of the
page loop over the pages of all reads. -/
theorem decode_ogg_to_wav_reached (env : DecEnv) (h : env.setup_ok) :
    (decode_ogg_to_wav env).ret = 0
    ∧ (decode_ogg_to_wav env).calls
        = (page_loop env.chunks.flatten dec_init).1.calls ++ [Call.stream_clear]
    ∧ (decode_ogg_to_wav env).total_samples
        = (page_loop env.chunks.flatten dec_init).1.total_samples
    ∧ (decode_ogg_to_wav env).frame_count
        = (page_loop env.chunks.flatten dec_init).1.frame_count
    ∧ (decode_ogg_to_wav env).stderr = (page_loop env.chunks.flatten dec_init).1.stderr
    ∧ (decode_ogg_to_wav env).outfile
        = some (if (page_loop env.chunks.flatten dec_init).2 then
            (fwrite (rewind (page_loop env.chunks.flatten dec_init).1.outfile)
              (bufferBytes (write_wav_header
                (page_loop env.chunks.flatten dec_init).1.total_samples))).data
          else (page_loop env.chunks.flatten dec_init).1.outfile.data) := by
  obtain ⟨h1, h2, h3, h4⟩ := h
  unfold decode_ogg_to_wav
  rw [if_neg (by simp [h1]), if_neg (by simp [h2]), if_neg (by simp [h3])]
  simp only [h4, Bool.not_true, Bool.false_eq_true, if_false, chunk_loop_eq]
  rcases page_loop env.chunks.flatten dec_init with ⟨st1, b1⟩
  cases b1 <;> simp

/-- The result of a run of `decode_ogg_to_wav` in which no page and no packet is
rejected. -/
theorem decode_ogg_to_wav_ok (env : DecEnv) (h : env.setup_ok)
    (hok : no_error env.chunks.flatten) :
    (decode_ogg_to_wav env).total_samples
        = toInt32 (frame_sizes_sum (page_packets env.chunks.flatten))
    ∧ (decode_ogg_to_wav env).frame_count
        = toInt32 ((page_packets env.chunks.flatten).length)
    ∧ (decode_ogg_to_wav env).stderr = []
    ∧ (chunk_loop env.chunks dec_init).2 = true
    ∧ (chunk_loop env.chunks dec_init).1.outfile.data
        = packets_bytes (page_packets env.chunks.flatten)
    ∧ (decode_ogg_to_wav env).outfile
        = some (bufferBytes (write_wav_header (decode_ogg_to_wav env).total_samples)
            ++ (packets_bytes (page_packets env.chunks.flatten)).drop
                (bufferBytes (write_wav_header (decode_ogg_to_wav env).total_samples)).length)
    ∧ yielded (decode_ogg_to_wav env).calls
        = (page_packets env.chunks.flatten).map PacketEvt.op
    ∧ decoded (decode_ogg_to_wav env).calls
        = (page_packets env.chunks.flatten).map (fun pk => (pk.op, pk.frame_size)) := by
  obtain ⟨r1, r2, r3, r4, r5, r6⟩ := decode_ogg_to_wav_reached env h
  obtain ⟨k1, k2, k3, k4, k5, k6, k7⟩ := page_loop_ok env.chunks.flatten dec_init rfl rfl rfl hok
  refine ⟨?_, ?_, ?_, ?_, ?_, ?_, ?_, ?_⟩
  · rw [r3, k3]
    simp [dec_init]
  · rw [r4, k4]
    simp [dec_init]
  · rw [r5, k5]
    rfl
  · rw [chunk_loop_eq, k1]
  · rw [chunk_loop_eq, k2]
    simp [dec_init]
  · rw [r6, k1, r3, k2]
    simp [fwrite, rewind, dec_init]
  · rw [r2, yielded_append, k6]
    simp [yielded, dec_init]
  · rw [r2, decoded_append, k7]
    simp [decoded, dec_init]

/-! ## The output file of `decode_ogg_to_wav` -/

theorem dec_env_one_setup : dec_env_one.setup_ok := ⟨rfl, rfl, rfl, rfl⟩

theorem dec_env_one_no_error : no_error dec_env_one.chunks.flatten := by
  refine ⟨fun pg hpg => ?_, fun pk hpk => ?_⟩
  · simp [dec_env_one] at hpg
    subst hpg
    rfl
  · simp [dec_env_one, page_packets] at hpk
    subst hpk
    decide

/-- C6 fails on the code: for an input of one page with one packet that decodes to 120
samples, `decode_ogg_to_wav` returns 0 without an error message and leaves a file of 240
bytes, not 44 + 240: the samples were written from offset 0 and the descriptor was then
written over the first 44 bytes, so the first 22 samples are lost. -/
theorem C6_descriptor_overwrites_samples :
    (decode_ogg_to_wav dec_env_one).ret = 0
    ∧ (decode_ogg_to_wav dec_env_one).stderr = []
    ∧ (decode_ogg_to_wav dec_env_one).total_samples = 120
    ∧ (chunk_loop dec_env_one.chunks dec_init).1.outfile.data = samplesBytes pk120.pcm
    ∧ (samplesBytes pk120.pcm).length = 240
    ∧ (decode_ogg_to_wav dec_env_one).outfile
        = some (bufferBytes (write_wav_header 120) ++ (samplesBytes pk120.pcm).drop 44)
    ∧ (bufferBytes (write_wav_header 120) ++ (samplesBytes pk120.pcm).drop 44).length = 240
    ∧ (decode_ogg_to_wav dec_env_one).outfile
        ≠ some (bufferBytes (write_wav_header 120) ++ samplesBytes pk120.pcm) := by
  obtain ⟨k1, -, k3, -, k5, k6, -, -⟩ :=
    decode_ogg_to_wav_ok dec_env_one dec_env_one_setup dec_env_one_no_error
  have hp : page_packets dec_env_one.chunks.flatten = [pk120] := by
    simp [dec_env_one, page_packets]
  have hb : packets_bytes [pk120] = samplesBytes pk120.pcm := by
    have : pk120.pcm.take pk120.frame_size.toNat = pk120.pcm :=
      List.take_of_length_le (by
        show ((List.range 120).map Int.ofNat).length ≤ 120
        rw [List.length_map, List.length_range])
    simp [packets_bytes, packet_bytes, this]
  have ht : (decode_ogg_to_wav dec_env_one).total_samples = 120 := by
    rw [k1, hp]
    decide
  have hl : (bufferBytes (write_wav_header 120)).length = 44 := by decide
  have hs : (samplesBytes pk120.pcm).length = 240 := by
    simp [samplesBytes, sampleBytes, leBytes, pk120, Function.comp_def]
  rw [hp, hb] at k5 k6
  rw [ht, hl] at k6
  refine ⟨(decode_ogg_to_wav_reached _ dec_env_one_setup).1, k3, ht, k5, hs, k6, ?_, ?_⟩
  · simp [hl, hs]
  · rw [k6]
    intro h
    have := congrArg (fun o => (o.map List.length)) h
    simp [hl, hs] at this

/-! ## Codec failures -/

/-- C7 fails on the code: when `opus_encode` returns a negative value for the first frame,
`encode_sine_wave` prints its error message and returns 0; when `opus_decode` returns a
negative value for the first packet, or `ogg_stream_pagein` rejects the first page,
`decode_ogg_to_wav` prints its error message and returns 0; `main` then reports nothing
and goes on to the next step. -/
theorem C7_failure_returns_zero :
    (env_encode_fails.opus_encode 0).1 < 0
    ∧ (encode_sine_wave env_encode_fails).ret = 0
    ∧ (encode_sine_wave env_encode_fails).stderr = ["Error: Failed to encode frame"]
    ∧ (decode_ogg_to_wav dec_env_decode_fails).ret = 0
    ∧ (decode_ogg_to_wav dec_env_decode_fails).stderr = ["Error: Failed to decode packet"]
    ∧ (decode_ogg_to_wav dec_env_pagein_fails).ret = 0
    ∧ (decode_ogg_to_wav dec_env_pagein_fails).stderr = ["Error: Failed to read Ogg page"]
    ∧ main main_env_encode_fails = { ret := 0, stderr := [], encoded := true, decoded := true }
    ∧ main main_env_decode_fails
        = { ret := 0, stderr := [], encoded := true, decoded := true } := by
  have e1 : (encode_sine_wave env_encode_fails).ret = 0 :=
    by rw [encode_sine_wave_reached env_encode_fails ⟨rfl, rfl, rfl, rfl⟩]
  have e2 : (encode_sine_wave env_ok).ret = 0 :=
    by rw [encode_sine_wave_reached env_ok env_ok_setup]
  have d1 : (decode_ogg_to_wav dec_env_one).ret = 0 :=
    (decode_ogg_to_wav_reached _ dec_env_one_setup).1
  have d2 : (decode_ogg_to_wav dec_env_decode_fails).ret = 0 :=
    (decode_ogg_to_wav_reached _ ⟨rfl, rfl, rfl, rfl⟩).1
  refine ⟨by decide, e1, by decide, d2, by decide, by decide, by decide, ?_, ?_⟩
  · simp [main, main_env_encode_fails, e1, d1]
  · simp [main, main_env_decode_fails, e2, d2]

/-! ## The decode loop -/

theorem frame_sizes_sum_append (a b : List PacketEvt) :
    frame_sizes_sum (a ++ b) = frame_sizes_sum a + frame_sizes_sum b := by
  simp [frame_sizes_sum]

theorem frame_sizes_sum_replicate (n : Nat) (pk : PacketEvt) :
    frame_sizes_sum (List.replicate n pk) = n * pk.frame_size := by
  induction n with
  | zero => simp [frame_sizes_sum]
  | succ n ih =>
    rw [List.replicate_succ, show pk :: List.replicate n pk = [pk] ++ List.replicate n pk from rfl,
      frame_sizes_sum_append, ih]
    simp [frame_sizes_sum]
    ring

theorem page_packets_append (a b : List PageEvt) :
    page_packets (a ++ b) = page_packets a ++ page_packets b := by
  simp [page_packets]

theorem frame_sizes_sum_pages_replicate (n : Nat) (pg : PageEvt) :
    frame_sizes_sum (page_packets (List.replicate n pg)) = n * frame_sizes_sum pg.packets := by
  induction n with
  | zero => simp [frame_sizes_sum, page_packets]
  | succ n ih =>
    rw [List.replicate_succ, show pg :: List.replicate n pg = [pg] ++ List.replicate n pg from rfl,
      page_packets_append, frame_sizes_sum_append, ih]
    simp [page_packets]
    ring

theorem dec_env_long_sum :
    frame_sizes_sum (page_packets dec_env_long.chunks.flatten) = 2147486400 := by
  simp only [dec_env_long, List.flatten_cons, List.flatten_nil, List.append_nil,
    page_packets_append, frame_sizes_sum_append, frame_sizes_sum_pages_replicate]
  simp only [page_packets, List.map_cons, List.map_nil, List.flatten_cons, List.flatten_nil,
    List.append_nil, frame_sizes_sum_replicate, pk2880]
  norm_num

theorem page_packets_length_replicate (n : Nat) (pg : PageEvt) :
    (page_packets (List.replicate n pg)).length = n * pg.packets.length := by
  induction n with
  | zero => simp [page_packets]
  | succ n ih =>
    rw [List.replicate_succ, show pg :: List.replicate n pg = [pg] ++ List.replicate n pg from rfl,
      page_packets_append, List.length_append, ih]
    simp [page_packets]
    ring

theorem dec_env_long_length :
    (page_packets dec_env_long.chunks.flatten).length = 745655 := by
  simp only [dec_env_long, List.flatten_cons, List.flatten_nil, List.append_nil,
    page_packets_append, List.length_append, page_packets_length_replicate]
  simp only [page_packets, List.map_cons, List.map_nil, List.flatten_cons, List.flatten_nil,
    List.append_nil, List.length_replicate]

theorem dec_env_long_no_error : no_error dec_env_long.chunks.flatten := by
  refine ⟨fun pg hpg => ?_, fun pk hpk => ?_⟩
  · simp only [dec_env_long, List.flatten_cons, List.flatten_nil, List.append_nil,
      List.mem_append, List.mem_replicate, List.mem_singleton] at hpg
    rcases hpg with ⟨-, rfl⟩ | rfl <;> rfl
  · simp only [dec_env_long, List.flatten_cons, List.flatten_nil, List.append_nil,
      page_packets, List.mem_flatten, List.mem_map, List.mem_append, List.mem_replicate,
      List.mem_singleton] at hpk
    obtain ⟨l, ⟨pg, hpg, rfl⟩, hl⟩ := hpk
    rcases hpg with ⟨-, rfl⟩ | rfl
    · simp only [List.mem_replicate] at hl
      rw [hl.2]
      decide
    · simp only [List.mem_replicate] at hl
      rw [hl.2]
      decide

/-- C9, as stated, fails: on an input of 745655 packets, none rejected, each decoding to
2880 samples, the frame sizes sum to 2147486400, which an `int` does not hold:
`total_samples` ends at -2147480896. -/
theorem C9_counterexample :
    dec_env_long.setup_ok
    ∧ no_error dec_env_long.chunks.flatten
    ∧ (page_packets dec_env_long.chunks.flatten).length = 745655
    ∧ frame_sizes_sum (page_packets dec_env_long.chunks.flatten) = 2147486400
    ∧ (decode_ogg_to_wav dec_env_long).total_samples = -2147480896
    ∧ (decode_ogg_to_wav dec_env_long).total_samples
        ≠ frame_sizes_sum (page_packets dec_env_long.chunks.flatten) := by
  have hs : dec_env_long.setup_ok := ⟨rfl, rfl, rfl, rfl⟩
  have ht := (decode_ogg_to_wav_ok dec_env_long hs dec_env_long_no_error).1
  rw [dec_env_long_sum] at ht
  have hv : toInt32 2147486400 = -2147480896 := by decide
  rw [hv] at ht
  refine ⟨hs, dec_env_long_no_error, dec_env_long_length, dec_env_long_sum, ht, ?_⟩
  · rw [ht, dec_env_long_sum]
    decide

/-- C9, amended: in a run of `decode_ogg_to_wav` that reaches the read loop, every packet
handed out by the demultiplexer is passed to `opus_decode` exactly once and in order; when
no page and no packet is rejected these are all packets of the input, the first two
included, the bytes written by the loop are the samples of the decode calls in that order,
and `total_samples` and `frame_count` are the sum of the frame sizes and the number of
packets wrapped to 32 bits, hence equal to them when they are below `2^31`. -/
theorem C9_every_packet_decoded (env : DecEnv) (h : env.setup_ok) :
    (decoded (decode_ogg_to_wav env).calls).map Prod.fst = yielded (decode_ogg_to_wav env).calls
    ∧ (no_error env.chunks.flatten →
        yielded (decode_ogg_to_wav env).calls
          = (page_packets env.chunks.flatten).map PacketEvt.op
        ∧ decoded (decode_ogg_to_wav env).calls
          = (page_packets env.chunks.flatten).map (fun pk => (pk.op, pk.frame_size))
        ∧ (chunk_loop env.chunks dec_init).2 = true
        ∧ (chunk_loop env.chunks dec_init).1.outfile.data
          = ((page_packets env.chunks.flatten).map
              (fun pk => samplesBytes (pk.pcm.take pk.frame_size.toNat))).flatten
        ∧ (decode_ogg_to_wav env).total_samples
          = toInt32 (frame_sizes_sum (page_packets env.chunks.flatten))
        ∧ (decode_ogg_to_wav env).frame_count
          = toInt32 ((page_packets env.chunks.flatten).length)
        ∧ (frame_sizes_sum (page_packets env.chunks.flatten) < 2147483648 →
            (decode_ogg_to_wav env).total_samples
              = frame_sizes_sum (page_packets env.chunks.flatten))
        ∧ ((page_packets env.chunks.flatten).length < 2147483648 →
            (decode_ogg_to_wav env).frame_count = (page_packets env.chunks.flatten).length)) := by
  constructor
  · obtain ⟨-, r2, -⟩ := decode_ogg_to_wav_reached env h
    obtain ⟨ext, e1, e2, -, -⟩ := page_loop_ext env.chunks.flatten dec_init rfl
      (by simp [dec_init, delivered])
    rw [r2, e1]
    simp [decoded_append, yielded_append, decoded, yielded, dec_init, e2]
  · intro hok
    obtain ⟨k1, k2, -, k4, k5, -, k7, k8⟩ := decode_ogg_to_wav_ok env h hok
    have hnn : 0 ≤ frame_sizes_sum (page_packets env.chunks.flatten) := by
      unfold frame_sizes_sum
      apply List.sum_nonneg
      intro x hx
      rw [List.mem_map] at hx
      obtain ⟨pk, hpk, rfl⟩ := hx
      exact hok.2 pk hpk
    refine ⟨k7, k8, k4, k5, k1, k2, fun hlt => ?_, fun hlt => ?_⟩
    · rw [k1]
      exact toInt32_of_range _ (by omega) hlt
    · rw [k2]
      exact toInt32_of_range _ (by omega) (by exact_mod_cast hlt)

/-- C9, amended, on the input of one page with one packet of 120 samples. -/
theorem C9_every_packet_decoded_witness :
    dec_env_one.setup_ok ∧ no_error dec_env_one.chunks.flatten
    ∧ frame_sizes_sum (page_packets dec_env_one.chunks.flatten) < 2147483648
    ∧ (decode_ogg_to_wav dec_env_one).total_samples
        = frame_sizes_sum (page_packets dec_env_one.chunks.flatten) :=
  ⟨dec_env_one_setup, dec_env_one_no_error, by decide,
    ((C9_every_packet_decoded dec_env_one dec_env_one_setup).2
      dec_env_one_no_error).2.2.2.2.2.2.1 (by decide)⟩

/-! ## Initialisation of the stream state -/

theorem page_loop_grows (pages : List PageEvt) (st : DecState) :
    ∃ ext, (page_loop pages st).1.calls = st.calls ++ ext := by
  induction pages generalizing st with
  | nil => exact ⟨[], by simp [page_loop]⟩
  | cons pg rest ih =>
    rw [page_loop_cons]
    have e1 : ∃ ent, (page_enter pg st).calls = st.calls ++ ent :=
      ⟨[Call.sync_pageout pg.serialno]
        ++ ((if st.serialno = -1 then [Call.stream_init pg.serialno] else [])
          ++ [Call.pagein pg.pagein_ret]), by simp only [page_enter, List.append_assoc]⟩
    obtain ⟨ent, e1⟩ := e1
    by_cases hr : pg.pagein_ret = 0
    · simp only [hr, ne_eq, not_true_eq_false, if_false]
      obtain ⟨-, pext, q2, -⟩ := packet_loop_ext pg.packets (page_enter pg st)
      rcases hq : packet_loop pg.packets (page_enter pg st) with ⟨st1, b1⟩
      rw [hq] at q2
      simp only at q2
      cases b1
      · exact ⟨ent ++ pext, by simp [q2, e1]⟩
      · obtain ⟨ext, e3⟩ := ih st1
        exact ⟨ent ++ pext ++ ext, by simp [e3, q2, e1]⟩
    · simp only [hr, ne_eq, not_false_eq_true, if_true]
      exact ⟨ent, e1⟩

/-- The calls of a run handed at least one page begin with that page being handed out, the
initialisation of the stream, and the submission of the page. -/
theorem decode_calls_start (env : DecEnv) (h : env.setup_ok) (pg : PageEvt)
    (rest : List PageEvt) (hfl : env.chunks.flatten = pg :: rest) :
    ∃ ext, (decode_ogg_to_wav env).calls
      = [Call.sync_pageout pg.serialno, Call.stream_init pg.serialno,
          Call.pagein pg.pagein_ret] ++ ext := by
  obtain ⟨-, r2, -⟩ := decode_ogg_to_wav_reached env h
  rw [r2, hfl, page_loop_cons]
  have hent : (page_enter pg dec_init).calls
      = [Call.sync_pageout pg.serialno, Call.stream_init pg.serialno,
          Call.pagein pg.pagein_ret] := by simp [page_enter, dec_init]
  by_cases hr : pg.pagein_ret = 0
  · simp only [hr, ne_eq, not_true_eq_false, if_false]
    obtain ⟨-, pext, q2, -⟩ := packet_loop_ext pg.packets (page_enter pg dec_init)
    rcases hq : packet_loop pg.packets (page_enter pg dec_init) with ⟨st1, b1⟩
    rw [hq] at q2
    simp only at q2
    rw [hent, hr] at q2
    cases b1
    · exact ⟨pext ++ [Call.stream_clear], by simp [q2]⟩
    · obtain ⟨ext, e3⟩ := page_loop_grows rest st1
      exact ⟨pext ++ ext ++ [Call.stream_clear], by simp [e3, q2]⟩
  · simp only [hr, ne_eq, not_false_eq_true, if_true, hent]
    exact ⟨[Call.stream_clear], by simp⟩

/-- In a run that reaches the read loop the stream is initialised on the pages handed out
up to and including the first whose serial number is not -1. -/
theorem decode_inits (env : DecEnv) (h : env.setup_ok) :
    inits (decode_ogg_to_wav env).calls
      = init_serials (delivered (decode_ogg_to_wav env).calls) := by
  obtain ⟨-, r2, -⟩ := decode_ogg_to_wav_reached env h
  obtain ⟨ext, e1, -, -, e4⟩ := page_loop_ext env.chunks.flatten dec_init rfl
    (by simp [dec_init, delivered])
  rw [r2, e1, inits_append, delivered_append, e4]
  simp [inits, delivered]

/-- C10, as stated, fails: on an input of three accepted pages with serial numbers -1, 5
and 5 the first page leaves the sentinel at -1 and the stream is initialised again on the
second page, but not on the third. -/
theorem C10_counterexample :
    dec_env_sentinel.setup_ok
    ∧ delivered (decode_ogg_to_wav dec_env_sentinel).calls = [-1, 5, 5]
    ∧ inits (decode_ogg_to_wav dec_env_sentinel).calls = [-1, 5]
    ∧ inits (decode_ogg_to_wav dec_env_sentinel).calls
        ≠ delivered (decode_ogg_to_wav dec_env_sentinel).calls := by
  refine ⟨⟨rfl, rfl, rfl, rfl⟩, by decide, by decide, by decide⟩

/-- C10, amended: in a run of `decode_ogg_to_wav` that reaches the read loop the stream
state is initialised on the pages handed out up to and including the first whose serial
number is not -1, each time with the serial number of the page, and on no later page; so
when the first page handed out has a serial number other than -1 the calls begin with
that page being handed out, the one initialisation, with its serial number, and its
submission, and no initialisation follows whatever the later pages carry, whereas after a
first page with serial number -1 the same holds anew for the pages that follow it.  The
serial number `encode_sine_wave` initialises its stream with is the value of `rand()`,
which is not -1 when it is non-negative. -/
theorem C10_stream_init (env : DecEnv) (h : env.setup_ok) :
    inits (decode_ogg_to_wav env).calls
        = init_serials (delivered (decode_ogg_to_wav env).calls)
    ∧ (∀ pg rest, env.chunks.flatten = pg :: rest → pg.serialno ≠ -1 →
        inits (decode_ogg_to_wav env).calls = [pg.serialno]
        ∧ ∃ ext, (decode_ogg_to_wav env).calls
            = [Call.sync_pageout pg.serialno, Call.stream_init pg.serialno,
                Call.pagein pg.pagein_ret] ++ ext
          ∧ inits ext = [])
    ∧ (∀ pg rest, env.chunks.flatten = pg :: rest → pg.serialno = -1 →
        ∃ ext, (decode_ogg_to_wav env).calls
            = [Call.sync_pageout (-1), Call.stream_init (-1), Call.pagein pg.pagein_ret] ++ ext
          ∧ inits ext = init_serials (delivered ext))
    ∧ (∀ eenv : EncEnv, eenv.setup_ok → 0 ≤ eenv.rand →
        (encode_sine_wave eenv).os[0]? = some (Call.stream_init eenv.rand)
        ∧ eenv.rand ≠ -1) := by
  have hi := decode_inits env h
  refine ⟨hi, ?_, ?_, ?_⟩
  · intro pg rest hfl hs
    obtain ⟨ext, he⟩ := decode_calls_start env h pg rest hfl
    rw [he] at hi
    simp only [List.cons_append, List.nil_append, inits, delivered, init_serials, hs,
      if_false] at hi
    have hx : inits ext = [] := by simpa using hi
    refine ⟨?_, ext, he, hx⟩
    rw [he]
    simp [inits, hx]
  · intro pg rest hfl hs
    obtain ⟨ext, he⟩ := decode_calls_start env h pg rest hfl
    rw [he, hs] at hi
    simp only [List.cons_append, List.nil_append, inits, delivered, init_serials,
      if_true] at hi
    rw [hs] at he
    exact ⟨ext, he, by simpa using hi⟩
  · intro eenv hsetup hrand
    obtain ⟨ext, m, -, hos, -, -⟩ := encode_sine_wave_os eenv hsetup
    refine ⟨by simp [hos], by omega⟩

/-- C10, amended, on the input of one page with serial number 7. -/
theorem C10_stream_init_witness :
    dec_env_one.setup_ok
    ∧ inits (decode_ogg_to_wav dec_env_one).calls = [7] :=
  ⟨dec_env_one_setup,
    ((C10_stream_init dec_env_one dec_env_one_setup).2.1
      { serialno := 7, pagein_ret := 0, packets := [pk120] } [] rfl (by decide)).1⟩

end OpusExample

namespace OggSpec

open OpusExample

/-! ## The segmenter -/

theorem lacing_spec (f : Nat) (d : List Nat) (g : Int) (h : d.length < 255 * (f + 1)) :
    ((lacing f d g).map Seg.bytes).flatten = d
    ∧ (∀ s ∈ lacing f d g, s.wf)
    ∧ terminals (lacing f d g) = [g]
    ∧ ∀ held, collect (lacing f d g) held = ([held ++ d], []) := by
  induction f generalizing d with
  | zero =>
    refine ⟨by simp [lacing], ?_, by simp [lacing, terminals], fun held => by simp [lacing, collect]⟩
    intro s hs
    simp only [lacing, List.mem_singleton] at hs
    subst hs
    simp only [Seg.wf, Option.isSome_some, true_iff]
    omega
  | succ f ih =>
    by_cases hd : 255 ≤ d.length
    · have hl : (d.drop 255).length < 255 * (f + 1) := by
        rw [List.length_drop]
        omega
      obtain ⟨i1, i2, i3, i4⟩ := ih (d.drop 255) hl
      refine ⟨?_, ?_, ?_, ?_⟩
      · simp [lacing, hd, i1]
      · intro s hs
        simp only [lacing, hd, if_true, List.mem_cons] at hs
        rcases hs with rfl | hs
        · simp only [Seg.wf, List.length_take, Option.isSome_none, Bool.false_eq_true,
            false_iff]
          omega
        · exact i2 s hs
      · simp only [lacing, hd, if_true, terminals, List.filterMap_cons]
        exact i3
      · intro held
        simp only [lacing, hd, if_true, collect, Option.isSome_none, Bool.false_eq_true,
          if_false, i4]
        simp
    · refine ⟨by simp [lacing, hd], ?_, by simp [lacing, hd, terminals],
        fun held => by simp [lacing, hd, collect]⟩
      intro s hs
      simp only [lacing, hd, if_false, List.mem_singleton] at hs
      subst hs
      simp only [Seg.wf, Option.isSome_some, true_iff]
      omega

theorem segmenter_spec (p : Packet) :
    ((segmenter p).map Seg.bytes).flatten = p.data
    ∧ (∀ s ∈ segmenter p, s.wf)
    ∧ terminals (segmenter p) = [p.granulepos]
    ∧ ∀ held, collect (segmenter p) held = ([held ++ p.data], []) :=
  lacing_spec _ _ _ (by
    have := Nat.div_add_mod p.data.length 255
    have := Nat.mod_lt p.data.length (show 0 < 255 by norm_num)
    omega)

theorem collect_append (a b : List Seg) (held : List Nat) :
    collect (a ++ b) held
      = ((collect a held).1 ++ (collect b (collect a held).2).1,
          (collect b (collect a held).2).2) := by
  induction a generalizing held with
  | nil => simp [collect]
  | cons s a ih =>
    by_cases hs : s.last.isSome = true
    · simp [collect, hs, ih]
    · simp [collect, hs, ih]

theorem terminals_append (a b : List Seg) : terminals (a ++ b) = terminals a ++ terminals b := by
  simp [terminals]

theorem allSegs_cons (p : Packet) (ps : List Packet) :
    allSegs (p :: ps) = segmenter p ++ allSegs ps := by
  simp [allSegs]

theorem collect_allSegs (ps : List Packet) :
    collect (allSegs ps) [] = (ps.map Packet.data, []) := by
  induction ps with
  | nil => simp [allSegs, collect]
  | cons p ps ih =>
    rw [allSegs_cons, collect_append, (segmenter_spec p).2.2.2, ih]
    simp

theorem terminals_allSegs (ps : List Packet) :
    terminals (allSegs ps) = ps.map Packet.granulepos := by
  induction ps with
  | nil => simp [allSegs, terminals]
  | cons p ps ih =>
    rw [allSegs_cons, terminals_append, (segmenter_spec p).2.2.1, ih]
    simp

theorem allSegs_wf (ps : List Packet) : ∀ s ∈ allSegs ps, s.wf := by
  induction ps with
  | nil => simp [allSegs]
  | cons p ps ih =>
    intro s hs
    rw [allSegs_cons, List.mem_append] at hs
    rcases hs with hs | hs
    · exact (segmenter_spec p).2.1 s hs
    · exact ih s hs

/-! ## The walk over a segment table -/

/-- The walk over the table and data of some well-formed entries yields the packets that
complete among them, each stamped with the granule position of the page. -/
theorem walk_segs (g : Int) (segs : List Seg) (held : List Nat) (hwf : ∀ s ∈ segs, s.wf) :
    (walk g (segs.map (fun s => s.bytes.length)) (segs.map Seg.bytes).flatten held).1.map
        OutPacket.data = (collect segs held).1
    ∧ (walk g (segs.map (fun s => s.bytes.length)) (segs.map Seg.bytes).flatten held).1.map
        OutPacket.granulepos = List.replicate (terminals segs).length g
    ∧ (walk g (segs.map (fun s => s.bytes.length)) (segs.map Seg.bytes).flatten held).2
        = (collect segs held).2 := by
  induction segs generalizing held with
  | nil => simp [walk, collect, terminals]
  | cons s segs ih =>
    have hs := hwf s (List.mem_cons_self _ _)
    have hrest : ∀ t ∈ segs, t.wf := fun t ht => hwf t (List.mem_cons_of_mem _ ht)
    simp only [List.map_cons, List.flatten_cons, walk, List.take_left', List.drop_left']
    by_cases hl : s.bytes.length < 255
    · have hsome : s.last.isSome = true := hs.2.2 hl
      obtain ⟨g0, hg0⟩ := Option.isSome_iff_exists.1 hsome
      obtain ⟨i1, i2, i3⟩ := ih [] hrest
      rw [if_pos hl]
      simp only [List.map_cons, i1, i2, i3, collect, hsome, if_true, true_and]
      simp [terminals, hg0, List.replicate_succ]
    · have hnone : ¬ s.last.isSome = true := fun h => hl (hs.2.1 h)
      have hn : s.last = none := by simpa using hnone
      obtain ⟨i1, i2, i3⟩ := ih (held ++ s.bytes) hrest
      rw [if_neg hl]
      simp only [i1, i2, i3, collect, hnone, if_false, true_and]
      simp [terminals, hn]

/-! ## The encoder side, page by page -/

theorem pageCut_le (target : Nat) (pending : List Seg) (n size : Nat) (b : Bool) (hn : n ≤ 255) :
    n ≤ pageCut target pending n size b
    ∧ pageCut target pending n size b ≤ 255
    ∧ pageCut target pending n size b ≤ n + pending.length := by
  induction pending generalizing n size b with
  | nil => simp [pageCut, hn]
  | cons s rest ih =>
    by_cases hc : n = 255 ∨ (target ≤ size ∧ b = true)
    · simp [pageCut, hc, hn]
    · have hn1 : n + 1 ≤ 255 := by
        have : n ≠ 255 := fun h => hc (Or.inl h)
        omega
      obtain ⟨i1, i2, i3⟩ := ih (n + 1) (size + s.bytes.length) (b || s.last.isSome) hn1
      simp only [pageCut, hc, if_false, List.length_cons]
      exact ⟨by omega, i2, by omega⟩

theorem pageCut_pos (target : Nat) (s : Seg) (rest : List Seg) :
    1 ≤ pageCut target (s :: rest) 0 0 false := by
  have := (pageCut_le target rest 1 (0 + s.bytes.length) (false || s.last.isSome) (by norm_num)).1
  simpa [pageCut] using this

theorem collect_held (segs : List Seg) (held : List Nat) (hwf : ∀ s ∈ segs, s.wf)
    (hne : segs ≠ []) :
    (endsInside segs = true → (collect segs held).2 ≠ [])
    ∧ (endsInside segs = false → (collect segs held).2 = []) := by
  induction segs generalizing held with
  | nil => exact absurd rfl hne
  | cons s rest ih =>
    have hs := hwf s (List.mem_cons_self _ _)
    cases rest with
    | nil =>
      by_cases hl : s.last.isSome = true
      · simp only [endsInside, collect, hl, if_true]
        obtain ⟨g0, hg0⟩ := Option.isSome_iff_exists.1 hl
        simp [hg0]
      · have hlen : s.bytes.length = 255 := by
          have := hs.1
          have : ¬ s.bytes.length < 255 := fun h => hl (hs.2.2 h)
          omega
        have hb : s.bytes ≠ [] := by
          intro h
          rw [h] at hlen
          simp at hlen
        have hn : s.last = none := by simpa using hl
        simp [endsInside, collect, hn, hb]
    | cons t r =>
      have hrest : ∀ x ∈ t :: r, x.wf := fun x hx => hwf x (List.mem_cons_of_mem _ hx)
      by_cases hl : s.last.isSome = true
      · simp only [endsInside, collect, hl, if_true]
        exact ih [] hrest (by simp)
      · simp only [endsInside, collect, hl, if_false]
        exact ih (held ++ s.bytes) hrest (by simp)

theorem toInt64_inRange (g : Int) (h : InRange64 g) :
    toInt64 (g % 18446744073709551616).toNat = g := by
  obtain ⟨h1, h2⟩ := h
  unfold toInt64
  split <;> omega

/-! ## Packets and pages -/

theorem completions_page (m : Mux) (segs rest : List Seg) (hwf : ∀ s ∈ segs, s.wf) :
    completions (m.page segs rest) = (terminals segs).length := by
  unfold completions terminals Mux.page
  simp only
  induction segs with
  | nil => rfl
  | cons s segs ih =>
    have hs := hwf s (List.mem_cons_self _ _)
    have ih1 := ih (fun x hx => hwf x (List.mem_cons_of_mem _ hx))
    cases hl : s.last with
    | none =>
      have hn : ¬ s.bytes.length < 255 := by
        intro h
        have := hs.2.2 h
        simp [hl] at this
      simp only [List.map_cons, List.filterMap_cons, hl]
      rw [List.filter_cons_of_neg (by simpa using hn)]
      exact ih1
    | some g =>
      have hn : s.bytes.length < 255 := hs.2.1 (by simp [hl])
      simp only [List.map_cons, List.filterMap_cons, hl]
      rw [List.filter_cons_of_pos (by simpa using hn)]
      simp only [List.length_cons, ih1]

theorem pageStamps_append (a b : List Page) :
    pageStamps (a ++ b) = pageStamps a ++ pageStamps b := by
  simp [pageStamps]

theorem pageStamps_length (pgs : List Page) :
    (pageStamps pgs).length = (pgs.map completions).sum := by
  induction pgs with
  | nil => rfl
  | cons pg pgs ih =>
    rw [show pg :: pgs = [pg] ++ pgs from rfl, pageStamps_append, List.length_append, ih]
    simp [pageStamps]

theorem lastOnPage_left (a b : List Page) (k : Nat) (hk : k < a.length) :
    lastOnPage (a ++ b) k = lastOnPage a k := by
  unfold lastOnPage
  rw [List.take_append_of_le_length (by omega)]

theorem lastOnPage_at (b : List Page) (j : Nat) (pg : Page) (hj : b[j]? = some pg) :
    ((b.take (j + 1)).map completions).sum = ((b.take j).map completions).sum + completions pg := by
  rw [List.take_succ, hj]
  simp

theorem lastOnPage_right (a b : List Page) (j : Nat) (pg : Page) (hj : b[j]? = some pg)
    (hc : 0 < completions pg) :
    lastOnPage (a ++ b) (a.length + j) = (a.map completions).sum + lastOnPage b j := by
  unfold lastOnPage
  have e : (a ++ b).take (a.length + j + 1) = a ++ b.take (j + 1) := by
    rw [Nat.add_assoc, List.take_append]
  rw [e, List.map_append, List.sum_append, lastOnPage_at b j pg hj]
  omega

theorem pageLast_nil (gs : List Int) : PageLast [] gs := by
  intro k pg hk
  simp at hk

theorem pageLast_append (a b : List Page) (g1 g2 : List Int) (h1 : PageLast a g1)
    (h2 : PageLast b g2) (hs : (a.map completions).sum = g1.length) :
    PageLast (a ++ b) (g1 ++ g2) := by
  intro k pg hk hc
  by_cases hlt : k < a.length
  · rw [List.getElem?_append_left hlt] at hk
    rw [lastOnPage_left a b k hlt]
    have h := h1 k pg hk hc
    have hi : lastOnPage a k < g1.length := by
      by_contra hcon
      rw [List.getElem?_eq_none (by omega)] at h
      cases h
    rw [List.getElem?_append_left hi]
    exact h
  · obtain ⟨j, rfl⟩ : ∃ j, k = a.length + j := ⟨k - a.length, by omega⟩
    rw [List.getElem?_append_right (by omega)] at hk
    simp only [Nat.add_sub_cancel_left] at hk
    rw [lastOnPage_right a b j pg hk hc, hs, List.getElem?_append_right (by omega)]
    simp only [Nat.add_sub_cancel_left]
    exact h2 j pg hk hc

theorem pageLast_single (pg : Page) (gs : List Int) (hc : completions pg = gs.length)
    (hg : ∀ g, gs.getLast? = some g → pg.granulepos = g) : PageLast [pg] gs := by
  intro k p hk hpos
  cases k with
  | zero =>
    simp only [List.getElem?_cons_zero, Option.some.injEq] at hk
    subst hk
    have e : lastOnPage [pg] 0 = gs.length - 1 := by
      unfold lastOnPage
      simp [hc]
    rw [e, ← List.getLast?_eq_getElem?]
    cases hl : gs.getLast? with
    | none =>
      rw [List.getLast?_eq_none_iff] at hl
      subst hl
      simp at hc
      omega
    | some g => rw [hg g hl]
  | succ k => simp at hk

theorem pageLast_stamps (pgs : List Page) : PageLast pgs (pageStamps pgs) := by
  induction pgs with
  | nil => exact pageLast_nil _
  | cons pg pgs ih =>
    rw [show pg :: pgs = [pg] ++ pgs from rfl, pageStamps_append]
    apply pageLast_append _ _ _ _ _ ih
    · rw [pageStamps_length]
    · apply pageLast_single
      · simp [pageStamps]
      · intro g hg
        have := List.mem_of_getLast?_eq_some hg
        simp only [pageStamps, List.map_cons, List.map_nil, List.flatten_cons, List.flatten_nil,
          List.append_nil] at this
        exact (List.eq_of_mem_replicate this).symm

theorem exists_completion (pgs : List Page) (h : 0 < (pgs.map completions).sum) :
    ∃ (k : Nat) (pg : Page), pgs[k]? = some pg ∧ 0 < completions pg := by
  induction pgs with
  | nil => simp at h
  | cons pg pgs ih =>
    by_cases hc : 0 < completions pg
    · exact ⟨0, pg, by simp, hc⟩
    · simp only [List.map_cons, List.sum_cons] at h
      obtain ⟨k, q, hk, hq⟩ := ih (by omega)
      exact ⟨k + 1, q, by simpa using hk, hq⟩

/-- When exactly one packet completes on some pages, the page on which it completes gives
it its own granule position. -/
theorem pageStamps_one (pgs : List Page) (g : Int) (hs : (pgs.map completions).sum = 1)
    (hl : PageLast pgs [g]) : pageStamps pgs = [g] := by
  obtain ⟨k, pg, hk, hc⟩ := exists_completion pgs (by omega)
  have h1 := hl k pg hk hc
  have h2 := pageLast_stamps pgs k pg hk hc
  have hlen := pageStamps_length pgs
  rw [hs] at hlen
  obtain ⟨t, ht⟩ := List.length_eq_one.1 hlen
  rw [ht] at h2 ⊢
  have hi : lastOnPage pgs k = 0 := by
    by_contra hne
    rw [List.getElem?_eq_none (by simp; omega)] at h1
    cases h1
  rw [hi] at h1 h2
  simp only [List.getElem?_cons_zero, Option.some.injEq] at h1 h2
  rw [h1, h2]

theorem emit_eq (target : Nat) (m : Mux) (pg : Page) (m1 : Mux)
    (he : m.emit target = some (pg, m1)) :
    ∃ n, 1 ≤ n ∧ n ≤ 255 ∧ m.pending ≠ []
      ∧ pg = m.page (m.pending.take n) (m.pending.drop n)
      ∧ m1 = { m with pageno := m.pageno + 1, pending := m.pending.drop n,
                      continued := endsInside (m.pending.take n),
                      granulepos := (lastBoundary (m.pending.take n)).getD m.granulepos } := by
  unfold Mux.emit at he
  by_cases hp : m.pending = []
  · simp [hp] at he
  · simp only [hp, if_false, Option.some.injEq, Prod.mk.injEq] at he
    refine ⟨pageCut target m.pending 0 0 false, ?_, ?_, hp, he.1.symm, he.2.symm⟩
    · cases hq : m.pending with
      | nil => exact absurd hq hp
      | cons s rest => exact pageCut_pos target s rest
    · exact (pageCut_le target m.pending 0 0 false (by norm_num)).2.1

theorem sum_lengths (segs : List Seg) :
    ((segs.map Seg.bytes).flatten).length = (segs.map (fun s => s.bytes.length)).sum := by
  induction segs with
  | nil => rfl
  | cons s segs ih => simp [ih]

theorem packetsOut_single (d : Demux) (pg : Page) :
    packetsOut d [pg] = d.packetOut pg := by
  simp [packetsOut]

/-- One page sent out by the encoder side and read by the decoder side. -/
theorem emit_sent (target : Nat) (m : Mux) (d : Demux) (pg : Page) (m1 : Mux)
    (hA : Agree m d) (he : m.emit target = some (pg, m1)) :
    ∃ taken, taken ≠ [] ∧ Sent m.pending d [pg] m1 taken := by
  obtain ⟨n, hn1, hn2, hp, rfl, rfl⟩ := emit_eq target m pg m1 he
  obtain ⟨a1, a2, a3, a4, a5, a6, a7⟩ := hA
  have htk : m.pending.take n ≠ [] := by
    cases hq : m.pending with
    | nil => exact absurd hq hp
    | cons s rest =>
      obtain ⟨k, rfl⟩ : ∃ k, n = k + 1 := ⟨n - 1, by omega⟩
      simp
  have hwf : ∀ s ∈ m.pending.take n, s.wf := fun s hs => a1 s (List.mem_of_mem_take hs)
  have hnotended : d.ended = false := by
    cases hd : d.ended with
    | false => rfl
    | true => exact absurd (a4 hd).1 hp
  have hsplit : m.pending = m.pending.take n ++ m.pending.drop n := (List.take_append_drop n _).symm
  have hterm : ∀ g ∈ terminals (m.pending.take n), InRange64 g := by
    intro g hg
    apply a7
    rw [hsplit, terminals_append]
    exact List.mem_append_left _ hg
  have hgr : InRange64 ((lastBoundary (m.pending.take n)).getD m.granulepos) := by
    unfold lastBoundary
    cases hl : (terminals (m.pending.take n)).getLast? with
    | none => simpa using a6
    | some g =>
      simp only [Option.getD_some]
      exact hterm g (List.mem_of_getLast?_eq_some hl)
  have hser : (match d.serialno with
      | some s => decide (s ≠ (wire (m.page (m.pending.take n) (m.pending.drop n))).serialno)
      | none => false) = false := by
    rcases a5 with h | h <;> simp [h, wire, Mux.page]
  have hheld : (if (wire (m.page (m.pending.take n) (m.pending.drop n))).continued = true
      then d.held else []) = d.held := by
    cases hc : m.continued with
    | true => simp [wire, Mux.page, hc]
    | false => simp [wire, Mux.page, hc, a3 hc]
  have hearly : (if (wire (m.page (m.pending.take n) (m.pending.drop n))).continued = false
        ∧ d.held ≠ [] then [({ data := d.held, granulepos := d.heldGranule } : OutPacket)]
      else []) = [] := by
    cases hc : m.continued with
    | true => simp [wire, Mux.page, hc]
    | false => simp [wire, Mux.page, hc, a3 hc]
  have hg : (wire (m.page (m.pending.take n) (m.pending.drop n))).granulepos
      = (lastBoundary (m.pending.take n)).getD m.granulepos := by
    simp only [wire, Mux.page]
    exact toInt64_inRange _ hgr
  have hseg : (wire (m.page (m.pending.take n) (m.pending.drop n))).segments
      = (m.pending.take n).map (fun s => s.bytes.length) := rfl
  have hbody : (wire (m.page (m.pending.take n) (m.pending.drop n))).body
      = ((m.pending.take n).map Seg.bytes).flatten := rfl
  have hout : d.packetOut (wire (m.page (m.pending.take n) (m.pending.drop n)))
      = ({ serialno := some (m.serialno % 4294967296),
           held := (walk ((lastBoundary (m.pending.take n)).getD m.granulepos)
              ((m.pending.take n).map (fun s => s.bytes.length))
              ((m.pending.take n).map Seg.bytes).flatten d.held).2,
           heldGranule := (lastBoundary (m.pending.take n)).getD m.granulepos,
           ended := m.eos && (m.pending.drop n).isEmpty },
          (walk ((lastBoundary (m.pending.take n)).getD m.granulepos)
              ((m.pending.take n).map (fun s => s.bytes.length))
              ((m.pending.take n).map Seg.bytes).flatten d.held).1) := by
    unfold Demux.packetOut
    rw [if_neg (by simp [hnotended]), if_neg (by rw [hser]; exact Bool.false_ne_true)]
    simp only [hheld, hearly, hg, hseg, hbody, List.nil_append]
    rfl
  obtain ⟨w1, w2, w3⟩ := walk_segs ((lastBoundary (m.pending.take n)).getD m.granulepos)
    (m.pending.take n) d.held hwf
  obtain ⟨c1, c2⟩ := collect_held (m.pending.take n) d.held hwf htk
  have hcp := completions_page m (m.pending.take n) (m.pending.drop n) hwf
  have hgp : (m.page (m.pending.take n) (m.pending.drop n)).granulepos
      = (lastBoundary (m.pending.take n)).getD m.granulepos := rfl
  refine ⟨m.pending.take n, htk, hsplit, ?_, ?_, ?_, ?_, ?_, ?_, ?_⟩
  · intro pg hpg
    simp only [List.mem_singleton] at hpg
    subst hpg
    refine ⟨?_, ?_, ?_⟩
    · simp only [Mux.page, List.length_map, List.length_take]
      omega
    · intro k hk
      simp only [Mux.page, List.mem_map] at hk
      obtain ⟨s, hs, rfl⟩ := hk
      exact (hwf s hs).1
    · simp only [Mux.page]
      exact sum_lengths _
  · simp only [List.map_cons, List.map_nil, packetsOut_single, hout]
    refine ⟨fun s hs => a1 s (List.mem_of_mem_drop hs), ?_, ?_, ?_, Or.inr rfl, hgr, ?_⟩
    · intro hc
      simp only at hc
      rw [w3]
      exact c1 hc
    · intro hc
      simp only at hc
      rw [w3]
      exact c2 hc
    · intro hend
      simp only [Bool.and_eq_true, List.isEmpty_iff] at hend
      exact ⟨hend.2, hend.1⟩
    · intro g hg
      apply a7
      rw [hsplit, terminals_append]
      exact List.mem_append_right _ hg
  · simp only [List.map_cons, List.map_nil, packetsOut_single, hout, w1]
  · simp only [List.map_cons, List.map_nil, packetsOut_single, hout, w3]
  · simp only [List.map_cons, List.map_nil, List.sum_cons, List.sum_nil, Nat.add_zero, hcp]
  · simp only [List.map_cons, List.map_nil, packetsOut_single, hout, w2, pageStamps,
      List.flatten_cons, List.flatten_nil, List.append_nil, hcp, hgp]
  · apply pageLast_single _ _ hcp
    intro g hl
    rw [hgp]
    unfold lastBoundary
    rw [hl]
    rfl

theorem packetsOut_append (d : Demux) (a b : List Page) :
    packetsOut d (a ++ b)
      = ((packetsOut (packetsOut d a).1 b).1, (packetsOut d a).2 ++ (packetsOut (packetsOut d a).1 b).2) := by
  induction a generalizing d with
  | nil => simp [packetsOut]
  | cons pg a ih => simp [packetsOut, ih]

theorem sent_nil (m : Mux) (d : Demux) (hA : Agree m d) : Sent m.pending d [] m [] := by
  exact ⟨rfl, by simp, by simpa [packetsOut] using hA, by simp [packetsOut, collect],
    by simp [packetsOut, collect], by simp [terminals], by simp [packetsOut, pageStamps],
    pageLast_nil _⟩

/-- Pages sent in two batches, with more entries arriving between them. -/
theorem sent_append (src more : List Seg) (d : Demux) (pgs1 pgs2 : List Page) (m1 m2 : Mux)
    (t1 t2 : List Seg) (h1 : Sent src d pgs1 m1 t1)
    (h2 : Sent (m1.pending ++ more) (packetsOut d (pgs1.map wire)).1 pgs2 m2 t2) :
    Sent (src ++ more) d (pgs1 ++ pgs2) m2 (t1 ++ t2) := by
  obtain ⟨a1, a2, a3, a4, a5, a6, a7, a8⟩ := h1
  obtain ⟨b1, b2, b3, b4, b5, b6, b7, b8⟩ := h2
  refine ⟨by rw [a1, List.append_assoc, b1, List.append_assoc], ?_, ?_, ?_, ?_, ?_, ?_, ?_⟩
  · intro pg hpg
    rcases List.mem_append.1 hpg with h | h
    · exact a2 pg h
    · exact b2 pg h
  · rw [List.map_append, packetsOut_append]
    exact b3
  · rw [List.map_append, packetsOut_append, collect_append]
    simp only [List.map_append, a4, b4, a5]
  · rw [List.map_append, packetsOut_append, collect_append]
    simp only [b5, a5]
  · rw [List.map_append, List.sum_append, terminals_append, List.length_append, a6, b6]
  · rw [List.map_append, packetsOut_append, pageStamps_append]
    simp only [List.map_append, a7, b7]
  · rw [terminals_append]
    exact pageLast_append _ _ _ _ a8 b8 a6

theorem flushLoop_sent (target : Nat) (f : Nat) (m : Mux) (d : Demux) (hA : Agree m d) :
    (∃ taken, Sent m.pending d (Mux.flushLoop target f m).1 (Mux.flushLoop target f m).2 taken)
    ∧ (m.pending.length ≤ f → (Mux.flushLoop target f m).2.pending = [])
    ∧ (Mux.flushLoop target f m).2.eos = m.eos
    ∧ (Mux.flushLoop target f m).2.submitted = m.submitted
    ∧ (Mux.flushLoop target f m).2.serialno = m.serialno := by
  induction f generalizing m d with
  | zero =>
    refine ⟨⟨[], sent_nil m d hA⟩, fun h => ?_, rfl, rfl, rfl⟩
    simpa using h
  | succ f ih =>
    cases he : m.emit target with
    | none =>
      simp only [Mux.flushLoop, he]
      refine ⟨⟨[], sent_nil m d hA⟩, fun _ => ?_, ?_⟩
      swap
      · simp
      unfold Mux.emit at he
      by_cases hp : m.pending = []
      · exact hp
      · simp [hp] at he
    | some r =>
      obtain ⟨pg, m1⟩ := r
      simp only [Mux.flushLoop, he]
      obtain ⟨t1, ht1, hs1⟩ := emit_sent target m d pg m1 hA he
      obtain ⟨⟨t2, hs2⟩, i2, i3, i4, i5⟩ := ih m1 (packetsOut d ([pg].map wire)).1 hs1.2.2.1
      obtain ⟨n, -, -, -, -, hm1⟩ := emit_eq target m pg m1 he
      have hs3 := sent_append m.pending [] d [pg] (Mux.flushLoop target f m1).1 m1
        (Mux.flushLoop target f m1).2 t1 t2 hs1 (by simpa using hs2)
      rw [List.append_nil] at hs3
      refine ⟨⟨t1 ++ t2, hs3⟩, fun hlen => ?_, ?_, ?_, ?_⟩
      · apply i2
        have h1 := hs1.1
        have : t1.length ≠ 0 := fun h => ht1 (List.length_eq_zero.1 h)
        have := congrArg List.length h1
        rw [List.length_append] at this
        omega
      · rw [i3, hm1]
      · rw [i4, hm1]
      · rw [i5, hm1]

theorem drainLoop_sent (target : Nat) (f : Nat) (m : Mux) (d : Demux) (hA : Agree m d) :
    (∃ taken, Sent m.pending d (Mux.drainLoop target f m).1 (Mux.drainLoop target f m).2 taken)
    ∧ (Mux.drainLoop target f m).2.eos = m.eos
    ∧ (Mux.drainLoop target f m).2.submitted = m.submitted
    ∧ (Mux.drainLoop target f m).2.serialno = m.serialno := by
  induction f generalizing m d with
  | zero => exact ⟨⟨[], sent_nil m d hA⟩, rfl, rfl, rfl⟩
  | succ f ih =>
    by_cases hb : m.pendingBytes < target
    · simp only [Mux.drainLoop, hb, if_true]
      exact ⟨⟨[], sent_nil m d hA⟩, by simp⟩
    · cases he : m.emit target with
      | none =>
        simp only [Mux.drainLoop, hb, if_false, he]
        exact ⟨⟨[], sent_nil m d hA⟩, by simp⟩
      | some r =>
        obtain ⟨pg, m1⟩ := r
        simp only [Mux.drainLoop, hb, if_false, he]
        obtain ⟨t1, ht1, hs1⟩ := emit_sent target m d pg m1 hA he
        obtain ⟨⟨t2, hs2⟩, i3, i4, i5⟩ := ih m1 (packetsOut d ([pg].map wire)).1 hs1.2.2.1
        obtain ⟨n, -, -, -, -, hm1⟩ := emit_eq target m pg m1 he
        have hs3 := sent_append m.pending [] d [pg] (Mux.drainLoop target f m1).1 m1
          (Mux.drainLoop target f m1).2 t1 t2 hs1 (by simpa using hs2)
        rw [List.append_nil] at hs3
        refine ⟨⟨t1 ++ t2, hs3⟩, ?_, ?_, ?_⟩
        · rw [i3, hm1]
        · rw [i4, hm1]
        · rw [i5, hm1]

/-! ## The encoder side, packet by packet -/

theorem submit_ok (m : Mux) (p : Packet) (m1 : Mux) (h : m.submit p = Except.ok m1) :
    m.eos = false
    ∧ m1 = { m with pending := m.pending ++ segmenter p, submitted := some p.granulepos,
                    eos := p.e_o_s } := by
  unfold Mux.submit at h
  by_cases he : m.eos = true
  · simp [he] at h
  · rw [if_neg he] at h
    split at h
    · cases h
    · simp only [Except.ok.injEq] at h
      exact ⟨by simpa using he, h.symm⟩

theorem submit_agree (m : Mux) (d : Demux) (p : Packet) (m1 : Mux) (hA : Agree m d)
    (hr : InRange64 p.granulepos) (h : m.submit p = Except.ok m1) :
    Agree m1 d ∧ m1.pending = m.pending ++ segmenter p := by
  obtain ⟨he, rfl⟩ := submit_ok m p m1 h
  obtain ⟨a1, a2, a3, a4, a5, a6, a7⟩ := hA
  refine ⟨⟨?_, a2, a3, ?_, a5, a6, ?_⟩, rfl⟩
  · intro s hs
    rcases List.mem_append.1 hs with h1 | h1
    · exact a1 s h1
    · exact (segmenter_spec p).2.1 s h1
  · intro hd
    have := (a4 hd).2
    rw [he] at this
    cases this
  · intro g hg
    simp only [terminals_append, (segmenter_spec p).2.2.1, List.mem_append,
      List.mem_singleton] at hg
    rcases hg with h1 | rfl
    · exact a7 g h1
    · exact hr

theorem muxStep_sent (target : Nat) (m : Mux) (d : Demux) (p : Packet) (dr : Drain)
    (pgs : List Page) (m1 : Mux) (hA : Agree m d) (hr : InRange64 p.granulepos)
    (h : muxStep target m p dr = Except.ok (pgs, m1)) :
    ∃ taken, Sent (m.pending ++ segmenter p) d pgs m1 taken := by
  unfold muxStep at h
  cases hs : m.submit p with
  | error e => simp [hs] at h
  | ok m0 =>
    obtain ⟨hA0, hp0⟩ := submit_agree m d p m0 hA hr hs
    rw [hs] at h
    rw [← hp0]
    cases dr with
    | none =>
      simp only [Except.ok.injEq, Prod.mk.injEq] at h
      obtain ⟨rfl, rfl⟩ := h
      exact ⟨[], sent_nil m0 d hA0⟩
    | pages =>
      simp only [Except.ok.injEq] at h
      have := (drainLoop_sent target m0.pending.length m0 d hA0).1
      unfold Mux.drainPages at h
      rw [h] at this
      exact this
    | flush =>
      simp only [Except.ok.injEq] at h
      have := (flushLoop_sent target m0.pending.length m0 d hA0).1
      unfold Mux.flush at h
      rw [h] at this
      exact this

theorem muxSteps_sent (target : Nat) (script : List (Packet × Drain)) (m : Mux) (d : Demux)
    (pgs : List Page) (m1 : Mux) (hA : Agree m d)
    (hr : ∀ x ∈ script, InRange64 x.1.granulepos)
    (h : muxSteps target m script = Except.ok (pgs, m1)) :
    ∃ taken, Sent (m.pending ++ allSegs (script.map Prod.fst)) d pgs m1 taken := by
  induction script generalizing m d pgs m1 with
  | nil =>
    simp only [muxSteps, Except.ok.injEq, Prod.mk.injEq] at h
    obtain ⟨rfl, rfl⟩ := h
    exact ⟨[], by simpa [allSegs] using sent_nil m d hA⟩
  | cons x rest ih =>
    obtain ⟨p, dr⟩ := x
    simp only [muxSteps] at h
    cases h1 : muxStep target m p dr with
    | error e => simp [h1] at h
    | ok r1 =>
      obtain ⟨pgs1, m0⟩ := r1
      rw [h1] at h
      simp only at h
      cases h2 : muxSteps target m0 rest with
      | error e => simp [h2] at h
      | ok r2 =>
        obtain ⟨pgs2, m2⟩ := r2
        rw [h2] at h
        simp only [Except.ok.injEq, Prod.mk.injEq] at h
        obtain ⟨rfl, rfl⟩ := h
        obtain ⟨t1, hs1⟩ := muxStep_sent target m d p dr pgs1 m0 hA
          (hr (p, dr) (List.mem_cons_self _ _)) h1
        obtain ⟨t2, hs2⟩ := ih m0 (packetsOut d (pgs1.map wire)).1 pgs2 m2 hs1.2.2.1
          (fun x hx => hr x (List.mem_cons_of_mem _ hx)) h2
        refine ⟨t1 ++ t2, ?_⟩
        have := sent_append _ (allSegs (rest.map Prod.fst)) _ _ _ _ _ _ _ hs1 hs2
        simpa [allSegs_cons, List.append_assoc] using this

/-- The pages of a whole stream, read by the decoder side from its initial state, yield
the packets of the stream: the bytes in order, each packet stamped with the granule
position of the page on which it completes, which is the granule position of the last
packet that completes on that page. -/
theorem muxRun_sent (target serialno : Nat) (script : List (Packet × Drain)) (pages : List Page)
    (hr : ∀ x ∈ script, InRange64 x.1.granulepos)
    (h : muxRun target serialno script = Except.ok pages) :
    (∀ pg ∈ pages, pg.fits)
    ∧ (packetsOut Demux.init (pages.map wire)).2.map OutPacket.data
        = script.map (fun x => x.1.data)
    ∧ (pages.map completions).sum = script.length
    ∧ (packetsOut Demux.init (pages.map wire)).2.map OutPacket.granulepos = pageStamps pages
    ∧ PageLast pages (script.map (fun x => x.1.granulepos)) := by
  unfold muxRun at h
  cases h1 : muxSteps target (Mux.init serialno) script with
  | error e => simp [h1] at h
  | ok r1 =>
    obtain ⟨pgs1, m1⟩ := r1
    rw [h1] at h
    simp only [Except.ok.injEq] at h
    subst h
    have hA : Agree (Mux.init serialno) Demux.init := by
      refine ⟨by simp [Mux.init], by simp [Mux.init], by simp [Demux.init], by simp [Demux.init],
        Or.inl rfl, ?_, by simp [Mux.init, terminals]⟩
      simp [Mux.init, InRange64]
    obtain ⟨t1, hs1⟩ := muxSteps_sent target script _ _ pgs1 m1 hA hr h1
    obtain ⟨⟨t2, hs2⟩, hempty, -⟩ := flushLoop_sent target m1.pending.length m1
      (packetsOut Demux.init (pgs1.map wire)).1 hs1.2.2.1
    have hall := sent_append _ [] _ _ _ _ _ _ _ hs1 (by simpa using hs2)
    obtain ⟨b1, b2, -, b4, -, b6, b7, b8⟩ := hall
    rw [hempty (le_refl _)] at b1
    simp only [Mux.init, List.nil_append, List.append_nil] at b1
    rw [← b1] at b4 b6 b8
    rw [terminals_allSegs] at b6 b8
    simp only [List.map_map, List.length_map] at b6 b8
    refine ⟨b2, ?_, b6, b7, b8⟩
    rw [show (Mux.flush target m1).1 = (Mux.flushLoop target m1.pending.length m1).1 from rfl, b4]
    rw [show Demux.init.held = [] from rfl, collect_allSegs]
    simp

/-! ## The wire format -/

theorem flags_decode (p : Page) :
    decide (flagsByte p % 2 = 1) = p.continued
    ∧ decide (flagsByte p / 2 % 2 = 1) = p.b_o_s
    ∧ decide (flagsByte p / 4 % 2 = 1) = p.e_o_s := by
  unfold flagsByte
  cases p.continued <;> cases p.b_o_s <;> cases p.e_o_s <;> decide

theorem pageHeader_length (p : Page) (c : Nat) :
    (pageHeader p c).length = 27 + p.segments.length := by
  simp [pageHeader, capture, leBytes_length]
  omega

theorem leValue_four (x : Nat) : leValue (leBytes 4 x) = x % 4294967296 := by
  simp only [leBytes, leValue]
  omega

theorem leValue_eight (x : Nat) (h : x < 18446744073709551616) : leValue (leBytes 8 x) = x := by
  simp only [leBytes, leValue]
  omega

/-- The bytes of a page that fits the wire format, followed by any bytes, are read back
as that page. -/
theorem pageAt_build (crc : List Nat → Nat) (p : Page) (rest : List Nat) (hf : p.fits) :
    pageAt crc (buildPage crc p ++ rest) = Found.page (wire p) rest := by
  obtain ⟨f1, f2, f3⟩ := hf
  have hk : p.segments.length % 256 = p.segments.length := Nat.mod_eq_of_lt (by omega)
  have hx : (p.granulepos % 18446744073709551616).toNat < 18446744073709551616 := by omega
  have hb : buildPage crc p = pageHeader p (crc (pageHeader p 0 ++ p.body)) ++ p.body := rfl
  rw [hb]
  generalize hc : crc (pageHeader p 0 ++ p.body) = c
  generalize hB : pageHeader p c ++ p.body ++ rest = B
  have hl : B.length = 27 + p.segments.length + p.segments.sum + rest.length := by
    rw [← hB]
    simp only [List.length_append, pageHeader_length, f3]
  have e1 : B.take 4 = capture := by
    rw [← hB]
    simp [pageHeader, capture]
  have e2 : (B.drop 26).headD 0 = p.segments.length := by
    rw [← hB]
    simp [pageHeader, capture, leBytes, hk]
  have e3 : B.drop 27 = p.segments ++ (p.body ++ rest) := by
    rw [← hB]
    simp [pageHeader, capture, leBytes]
  have e4 : B.take 22 = (pageHeader p 0).take 22 := by
    rw [← hB]
    simp [pageHeader, capture, leBytes]
  have e5 : B.drop 26 = [p.segments.length] ++ (p.segments ++ (p.body ++ rest)) := by
    rw [← hB]
    simp [pageHeader, capture, leBytes, hk]
  have e6 : (pageHeader p 0).take 22 ++ [0, 0, 0, 0] ++ ([p.segments.length] ++ p.segments)
      = pageHeader p 0 := by
    simp [pageHeader, capture, leBytes, hk]
  have e7 : leValue ((B.drop 22).take 4) = c % 4294967296 := by
    rw [← leValue_four, ← hB]
    simp [pageHeader, capture, leBytes]
  have e8 : (B.drop 5).headD 0 = flagsByte p := by
    rw [← hB]
    simp [pageHeader, capture]
  have e9 : leValue ((B.drop 6).take 8) = (p.granulepos % 18446744073709551616).toNat := by
    rw [← leValue_eight _ hx, ← hB]
    simp [pageHeader, capture, leBytes]
  have e10 : leValue ((B.drop 14).take 4) = p.serialno % 4294967296 := by
    rw [← leValue_four, ← hB]
    simp [pageHeader, capture, leBytes]
  have e11 : leValue ((B.drop 18).take 4) = p.pageno % 4294967296 := by
    rw [← leValue_four, ← hB]
    simp [pageHeader, capture, leBytes]
  have t4 : B.drop (27 + p.segments.length) = p.body ++ rest := by
    rw [← List.drop_drop, e3]
    simp
  have t5 : B.drop (27 + p.segments.length + p.segments.sum) = rest := by
    rw [← List.drop_drop, t4, ← f3]
    simp
  have t1 : (p.segments ++ (p.body ++ rest)).take p.segments.length = p.segments := by simp
  have t2 : ([p.segments.length] ++ (p.segments ++ (p.body ++ rest))).take
      (1 + p.segments.length + p.segments.sum) = [p.segments.length] ++ p.segments ++ p.body := by
    rw [← f3, ← List.append_assoc, ← List.append_assoc]
    apply List.take_left'
    simp
    omega
  have t3 : (pageHeader p 0).take 22 ++ [0, 0, 0, 0] ++ ([p.segments.length] ++ p.segments ++ p.body)
      = pageHeader p 0 ++ p.body := by
    have := congrArg (fun l => l ++ p.body) e6
    simpa [List.append_assoc] using this
  have t6 : (p.body ++ rest).take p.segments.sum = p.body := by
    rw [← f3]
    simp
  obtain ⟨g1, g2, g3⟩ := flags_decode p
  unfold pageAt
  rw [if_neg (by rw [hl]; omega), if_neg (by rw [e1]; simp)]
  simp only [e2]
  rw [if_neg (by rw [hl]; omega)]
  simp only [e3, t1]
  rw [if_neg (by rw [hl]; omega)]
  simp only [e4, e5, t2, t3, hc, e7]
  rw [if_neg (by simp)]
  simp only [e8, e9, e10, e11, t4, t5, t6, g1, g2, g3]
  rfl

theorem buildPage_length (crc : List Nat → Nat) (p : Page) :
    (buildPage crc p).length = 27 + p.segments.length + p.body.length := by
  simp only [buildPage, List.length_append, pageHeader_length]

/-- A proper initial part of the bytes of a page is not enough to take the page. -/
theorem pageAt_incomplete (crc : List Nat → Nat) (p : Page) (n : Nat) (hf : p.fits)
    (hn : n < (buildPage crc p).length) :
    pageAt crc ((buildPage crc p).take n) = Found.needMore := by
  obtain ⟨f1, f2, f3⟩ := hf
  have hk : p.segments.length % 256 = p.segments.length := Nat.mod_eq_of_lt (by omega)
  have hl := buildPage_length crc p
  generalize hB : buildPage crc p = B at hn hl
  have e1 : B.take 4 = capture := by
    rw [← hB]
    simp [buildPage, pageHeader, capture]
  have e5 : B.drop 26 = [p.segments.length] ++ (p.segments ++ p.body) := by
    rw [← hB]
    simp [buildPage, pageHeader, capture, leBytes, hk]
  have e3 : B.drop 27 = p.segments ++ p.body := by
    rw [← hB]
    simp [buildPage, pageHeader, capture, leBytes]
  have hlen : (B.take n).length = n := by
    rw [List.length_take]
    omega
  unfold pageAt
  by_cases h27 : n < 27
  · rw [if_pos (by rw [hlen]; exact h27)]
  · rw [if_neg (by rw [hlen]; exact h27)]
    have c1 : (B.take n).take 4 = capture := by
      rw [List.take_take, min_eq_left (by omega), e1]
    rw [if_neg (by rw [c1]; simp)]
    have c2 : ((B.take n).drop 26).headD 0 = p.segments.length := by
      rw [List.drop_take, e5]
      obtain ⟨k, hk1⟩ : ∃ k, n - 26 = k + 1 := ⟨n - 27, by omega⟩
      rw [hk1]
      simp
    simp only [c2]
    by_cases hs : n < 27 + p.segments.length
    · rw [if_pos (by rw [hlen]; exact hs)]
    · rw [if_neg (by rw [hlen]; exact hs)]
      have c3 : ((B.take n).drop 27).take p.segments.length = p.segments := by
        rw [List.drop_take, e3, List.take_take, min_eq_left (by omega)]
        simp
      simp only [c3]
      rw [if_pos (by rw [hlen]; omega)]

theorem buildPage_cons (crc : List Nat → Nat) (p : Page) (rest : List Nat) :
    ∃ b bs, buildPage crc p ++ rest = b :: bs := by
  have : buildPage crc p ++ rest ≠ [] := by
    intro h
    have := congrArg List.length h
    rw [List.length_append, buildPage_length] at this
    simp at this
  cases h : buildPage crc p ++ rest with
  | nil => exact absurd h this
  | cons b bs => exact ⟨b, bs, rfl⟩

/-- The call of `pageOut` on the bytes of a page followed by any bytes yields the page. -/
theorem pageOut_build (crc : List Nat → Nat) (p : Page) (rest : List Nat) (hf : p.fits) :
    pageOut crc (buildPage crc p ++ rest) = (some (wire p), rest) := by
  obtain ⟨b, bs, h⟩ := buildPage_cons crc p rest
  have := pageAt_build crc p rest hf
  rw [h] at this ⊢
  simp only [pageOut, this]

/-- The call of `pageOut` on a proper initial part of the bytes of a page yields nothing
and keeps the bytes. -/
theorem pageOut_incomplete (crc : List Nat → Nat) (p : Page) (n : Nat) (hf : p.fits)
    (hn : n < (buildPage crc p).length) :
    pageOut crc ((buildPage crc p).take n) = (none, (buildPage crc p).take n) := by
  have := pageAt_incomplete crc p n hf hn
  cases h : (buildPage crc p).take n with
  | nil => rfl
  | cons b bs =>
    rw [h] at this
    simp only [pageOut, this]

theorem written_cons (crc : List Nat → Nat) (p : Page) (ps : List Page) :
    written crc (p :: ps) = buildPage crc p ++ written crc ps := by
  simp [written]

theorem written_append (crc : List Nat → Nat) (a b : List Page) :
    written crc (a ++ b) = written crc a ++ written crc b := by
  simp [written]

/-- A buffer holds whole pages followed by a proper initial part of the next page: the
pages come out and the part is kept. -/
theorem pagesOut_written (crc : List Nat → Nat) (pages : List Page) (r : List Nat) (f : Nat)
    (hf : ∀ pg ∈ pages, pg.fits)
    (hr : r = [] ∨ ∃ p n, p.fits ∧ n < (buildPage crc p).length ∧ r = (buildPage crc p).take n)
    (hfuel : (written crc pages ++ r).length ≤ f) :
    pagesOut crc f (written crc pages ++ r) = (pages.map wire, r) := by
  induction pages generalizing f with
  | nil =>
    simp only [written, List.map_nil, List.flatten_nil, List.nil_append] at hfuel ⊢
    cases f with
    | zero =>
      have : r = [] := List.length_eq_zero.1 (by omega)
      subst this
      rfl
    | succ f =>
      rcases hr with rfl | ⟨p, n, hp, hn, rfl⟩
      · rfl
      · simp only [pagesOut, pageOut_incomplete crc p n hp hn]
  | cons p ps ih =>
    rw [written_cons, List.append_assoc] at hfuel ⊢
    have hlen := buildPage_length crc p
    cases f with
    | zero =>
      rw [List.length_append] at hfuel
      omega
    | succ f =>
      simp only [pagesOut, pageOut_build crc p _ (hf p (List.mem_cons_self _ _)), List.map_cons]
      rw [ih f (fun pg hpg => hf pg (List.mem_cons_of_mem _ hpg)) (by
        rw [List.length_append] at hfuel
        omega)]

/-! ## The byte stream in chunks -/

theorem sum_le_of_le (l : List Nat) (h : ∀ n ∈ l, n ≤ 255) : l.sum ≤ 255 * l.length := by
  induction l with
  | nil => simp
  | cons a l ih =>
    have h1 := h a (List.mem_cons_self _ _)
    have h2 := ih (fun n hn => h n (List.mem_cons_of_mem _ hn))
    simp only [List.sum_cons, List.length_cons]
    omega

theorem buildPage_le (crc : List Nat → Nat) (p : Page) (hf : p.fits) :
    (buildPage crc p).length ≤ 65307 := by
  obtain ⟨f1, f2, f3⟩ := hf
  have := sum_le_of_le p.segments f2
  rw [buildPage_length, f3]
  omega

/-- An initial part of the bytes written for a page sequence is made of the bytes of the
first pages and a proper initial part of the bytes of the next one. -/
theorem split_written (crc : List Nat → Nat) (pages : List Page) (buf tail : List Nat)
    (h : buf ++ tail = written crc pages) :
    ∃ done rem r, pages = done ++ rem ∧ buf = written crc done ++ r
      ∧ r ++ tail = written crc rem
      ∧ (r = [] ∨ ∃ p rem1, rem = p :: rem1 ∧ r.length < (buildPage crc p).length
          ∧ r = (buildPage crc p).take r.length) := by
  induction pages generalizing buf with
  | nil =>
    simp only [written, List.map_nil, List.flatten_nil, List.append_eq_nil] at h
    exact ⟨[], [], [], rfl, by simp [written, h.1], by simp [written, h.2], Or.inl rfl⟩
  | cons p ps ih =>
    rw [written_cons] at h
    by_cases hlt : buf.length < (buildPage crc p).length
    · refine ⟨[], p :: ps, buf, rfl, by simp [written], by rw [written_cons, h],
        Or.inr ⟨p, ps, rfl, hlt, ?_⟩⟩
      have h1 := congrArg (List.take buf.length) h
      rw [List.take_left, List.take_append_of_le_length (by omega)] at h1
      exact h1
    · have hle : (buildPage crc p).length ≤ buf.length := by omega
      have h1 := congrArg (List.take (buildPage crc p).length) h
      rw [List.take_append_of_le_length hle, List.take_left] at h1
      have h2 : buf = buildPage crc p ++ buf.drop (buildPage crc p).length := by
        conv_lhs => rw [← List.take_append_drop (buildPage crc p).length buf, h1]
      have h3 : buf.drop (buildPage crc p).length ++ tail = written crc ps := by
        rw [h2, List.append_assoc] at h
        simpa using List.append_cancel_left h
      obtain ⟨done, rem, r, e1, e2, e3, e4⟩ := ih _ h3
      refine ⟨p :: done, rem, r, by rw [e1]; rfl, ?_, e3, e4⟩
      rw [written_cons, List.append_assoc, ← e2]
      exact h2

theorem written_nil_of (crc : List Nat → Nat) (pages : List Page) (h : written crc pages = []) :
    pages = [] := by
  cases pages with
  | nil => rfl
  | cons p ps =>
    have := congrArg List.length h
    rw [written_cons, List.length_append, buildPage_length] at this
    simp at this

/-- The decode-side sequence on the chunks of the bytes written for a page sequence reads
the pages back and yields their packets. -/
theorem demuxChunks_written (crc : List Nat → Nat) (ceiling : Nat) (chunks : List (List Nat))
    (r : List Nat) (d : Demux) (rem : List Page)
    (hf : ∀ pg ∈ rem, pg.fits)
    (hr : r = [] ∨ ∃ p rem1, rem = p :: rem1 ∧ r.length < (buildPage crc p).length
        ∧ r = (buildPage crc p).take r.length)
    (h : r ++ chunks.flatten = written crc rem)
    (hc : ∀ c ∈ chunks, c.length + 65307 ≤ ceiling) :
    demuxChunks crc ceiling r d chunks = Except.ok (packetsOut d (rem.map wire)).2 := by
  induction chunks generalizing r d rem with
  | nil =>
    simp only [List.flatten_nil, List.append_nil] at h
    have hrem : rem = [] := by
      rcases hr with rfl | ⟨p, rem1, rfl, hlt, -⟩
      · exact written_nil_of crc rem h.symm
      · have := congrArg List.length h
        rw [written_cons, List.length_append] at this
        omega
    subst hrem
    simp [demuxChunks, packetsOut]
  | cons c cs ih =>
    have hrlen : r.length ≤ 65307 := by
      rcases hr with rfl | ⟨p, rem1, rfl, hlt, -⟩
      · simp
      · have := buildPage_le crc p (hf p (List.mem_cons_self _ _))
        omega
    have hcl := hc c (List.mem_cons_self _ _)
    have hfeed : feed ceiling r c = Except.ok (r ++ c) := by
      unfold feed
      rw [if_neg (by omega)]
    rw [List.flatten_cons, ← List.append_assoc] at h
    obtain ⟨done, rem2, r2, e1, e2, e3, e4⟩ := split_written crc rem (r ++ c) cs.flatten h
    have hfd : ∀ pg ∈ done, pg.fits := fun pg hpg => hf pg (by rw [e1]; exact List.mem_append_left _ hpg)
    have hfr : ∀ pg ∈ rem2, pg.fits := fun pg hpg => hf pg (by rw [e1]; exact List.mem_append_right _ hpg)
    have hpo : pagesOut crc (r ++ c).length (r ++ c) = (done.map wire, r2) := by
      rw [e2]
      apply pagesOut_written crc done r2 _ hfd _ (le_refl _)
      rcases e4 with rfl | ⟨p, rem1, rfl, hlt, htake⟩
      · exact Or.inl rfl
      · exact Or.inr ⟨p, r2.length, hfr p (List.mem_cons_self _ _), hlt, htake⟩
    have hih := ih r2 (packetsOut d (done.map wire)).1 rem2 hfr e4 e3
      (fun x hx => hc x (List.mem_cons_of_mem _ hx))
    simp only [demuxChunks, hfeed, hpo, hih]
    rw [e1, List.map_append, packetsOut_append]

/-! ## Acceptance of a packet sequence -/

theorem flushLoop_fields (target : Nat) (f : Nat) (m : Mux) :
    (Mux.flushLoop target f m).2.eos = m.eos
    ∧ (Mux.flushLoop target f m).2.submitted = m.submitted := by
  induction f generalizing m with
  | zero => exact ⟨rfl, rfl⟩
  | succ f ih =>
    cases he : m.emit target with
    | none => simp [Mux.flushLoop, he]
    | some r =>
      obtain ⟨pg, m1⟩ := r
      obtain ⟨n, -, -, -, -, hm1⟩ := emit_eq target m pg m1 he
      simp only [Mux.flushLoop, he]
      rw [(ih m1).1, (ih m1).2, hm1]
      exact ⟨rfl, rfl⟩

theorem drainLoop_fields (target : Nat) (f : Nat) (m : Mux) :
    (Mux.drainLoop target f m).2.eos = m.eos
    ∧ (Mux.drainLoop target f m).2.submitted = m.submitted := by
  induction f generalizing m with
  | zero => exact ⟨rfl, rfl⟩
  | succ f ih =>
    by_cases hb : m.pendingBytes < target
    · simp [Mux.drainLoop, hb]
    · cases he : m.emit target with
      | none => simp [Mux.drainLoop, hb, he]
      | some r =>
        obtain ⟨pg, m1⟩ := r
        obtain ⟨n, -, -, -, -, hm1⟩ := emit_eq target m pg m1 he
        simp only [Mux.drainLoop, hb, if_false, he]
        rw [(ih m1).1, (ih m1).2, hm1]
        exact ⟨rfl, rfl⟩

/-- The encoder side accepts every packet of an acceptable sequence. -/
theorem muxSteps_accepts (target : Nat) (script : List (Packet × Drain)) (m : Mux)
    (h : acceptable m.submitted m.eos (script.map Prod.fst) = true) :
    ∃ r, muxSteps target m script = Except.ok r := by
  induction script generalizing m with
  | nil => exact ⟨_, rfl⟩
  | cons x rest ih =>
    obtain ⟨p, dr⟩ := x
    simp only [List.map_cons, acceptable, Bool.and_eq_true, Bool.not_eq_true'] at h
    obtain ⟨⟨h1, h2⟩, h3⟩ := h
    have hs : m.submit p = Except.ok
        ({ m with pending := m.pending ++ segmenter p, submitted := some p.granulepos,
                  eos := p.e_o_s } : Mux) := by
      unfold Mux.submit
      rw [if_neg (by simp [h1])]
      cases hsub : m.submitted with
      | none => simp
      | some g =>
        rw [hsub] at h2
        simp only [decide_eq_true_eq] at h2
        simp only [decide_eq_true_eq]
        rw [if_neg (by omega)]
    have hstep : ∃ pgs m1, muxStep target m p dr = Except.ok (pgs, m1)
        ∧ m1.eos = p.e_o_s ∧ m1.submitted = some p.granulepos := by
      unfold muxStep
      rw [hs]
      cases dr with
      | none => exact ⟨_, _, rfl, rfl, rfl⟩
      | pages =>
        refine ⟨_, _, rfl, ?_, ?_⟩
        · exact (drainLoop_fields target _ _).1
        · exact (drainLoop_fields target _ _).2
      | flush =>
        refine ⟨_, _, rfl, ?_, ?_⟩
        · exact (flushLoop_fields target _ _).1
        · exact (flushLoop_fields target _ _).2
    obtain ⟨pgs, m1, e1, e2, e3⟩ := hstep
    obtain ⟨r, hr⟩ := ih m1 (by rw [e2, e3]; exact h3)
    obtain ⟨pgs2, m2⟩ := r
    exact ⟨(pgs ++ pgs2, m2), by simp only [muxSteps, e1, hr]⟩

theorem muxRun_accepts (target serialno : Nat) (script : List (Packet × Drain))
    (h : acceptable none false (script.map Prod.fst) = true) :
    ∃ pages, muxRun target serialno script = Except.ok pages := by
  obtain ⟨r, hr⟩ := muxSteps_accepts target script (Mux.init serialno) h
  obtain ⟨pgs, m⟩ := r
  exact ⟨pgs ++ (m.flush target).1, by simp only [muxRun, hr]⟩

/-! ## A flush after every packet -/

/-- With a flush after every packet every packet comes out with its own granule
position. -/
theorem muxSteps_flushed (target : Nat) (script : List (Packet × Drain)) (m : Mux) (d : Demux)
    (pgs : List Page) (m1 : Mux) (hA : Agree m d) (hp : m.pending = [])
    (hr : ∀ x ∈ script, InRange64 x.1.granulepos)
    (hfl : ∀ x ∈ script, x.2 = Drain.flush)
    (h : muxSteps target m script = Except.ok (pgs, m1)) :
    m1.pending = []
    ∧ (packetsOut d (pgs.map wire)).2.map OutPacket.granulepos
        = script.map (fun x => x.1.granulepos) := by
  induction script generalizing m d pgs m1 with
  | nil =>
    simp only [muxSteps, Except.ok.injEq, Prod.mk.injEq] at h
    obtain ⟨rfl, rfl⟩ := h
    exact ⟨hp, by simp [packetsOut]⟩
  | cons x rest ih =>
    obtain ⟨p, dr⟩ := x
    have hdr : dr = Drain.flush := hfl (p, dr) (List.mem_cons_self _ _)
    subst hdr
    simp only [muxSteps] at h
    cases h1 : muxStep target m p Drain.flush with
    | error e => simp [h1] at h
    | ok r1 =>
      obtain ⟨pgs1, m0⟩ := r1
      rw [h1] at h
      simp only at h
      cases h2 : muxSteps target m0 rest with
      | error e => simp [h2] at h
      | ok r2 =>
        obtain ⟨pgs2, m2⟩ := r2
        rw [h2] at h
        simp only [Except.ok.injEq, Prod.mk.injEq] at h
        obtain ⟨rfl, rfl⟩ := h
        have hin := hr (p, Drain.flush) (List.mem_cons_self _ _)
        have hm0 : m0.pending = [] := by
          unfold muxStep at h1
          cases hs : m.submit p with
          | error e => simp [hs] at h1
          | ok ms =>
            rw [hs] at h1
            simp only [Except.ok.injEq] at h1
            obtain ⟨hAs, -⟩ := submit_agree m d p ms hA hin hs
            have := (flushLoop_sent target ms.pending.length ms d hAs).2.1 (le_refl _)
            unfold Mux.flush at h1
            rw [h1] at this
            exact this
        obtain ⟨t1, hs1⟩ := muxStep_sent target m d p Drain.flush pgs1 m0 hA hin h1
        obtain ⟨b1, -, b3, -, -, b6, b7, b8⟩ := hs1
        rw [hp, hm0, List.nil_append, List.append_nil] at b1
        rw [← b1, (segmenter_spec p).2.2.1] at b6 b8
        have hst := b7.trans (pageStamps_one pgs1 p.granulepos b6 b8)
        obtain ⟨i1, i2⟩ := ih m0 (packetsOut d (pgs1.map wire)).1 pgs2 m2 b3 hm0
          (fun x hx => hr x (List.mem_cons_of_mem _ hx))
          (fun x hx => hfl x (List.mem_cons_of_mem _ hx)) h2
        refine ⟨i1, ?_⟩
        rw [List.map_append, packetsOut_append]
        simp only [List.map_append, hst, i2, List.map_cons]
        rfl

/-! ## The round trip -/

set_option maxRecDepth 100000 in
/-- Two packets on one page come out with the granule position of the second. -/
theorem two_packets_one_page :
    muxRun 4096 7 scriptAB = Except.ok [pageAB]
    ∧ demuxRun crc32 100000 [written crc32 [pageAB]]
        = Except.ok [{ data := [1, 2, 3], granulepos := 960 },
            { data := [4, 5, 6], granulepos := 960 }] := by
  constructor
  · rfl
  · rfl

/-- A packet whose granule position regresses and a packet after the end of the stream
are rejected by `submit`. -/
theorem rejected_sequences :
    muxRun 4096 7 scriptRegress = Except.error MuxError.SequenceError
    ∧ muxRun 4096 7 scriptAfterEnd = Except.error MuxError.SequenceError := by
  constructor
  · rfl
  · rfl

set_option maxRecDepth 100000 in
/-- A granule position of `2^63` comes back from the page header as `-2^63`. -/
theorem huge_granule_wraps :
    muxRun 4096 7 scriptHuge = Except.ok [pageHuge]
    ∧ demuxRun crc32 100000 [written crc32 [pageHuge]]
        = Except.ok [{ data := [1, 2, 3], granulepos := -9223372036854775808 }] := by
  constructor
  · rfl
  · rfl

set_option maxRecDepth 100000 in
/-- A sync buffer with room for every chunk, but not for a chunk after the bytes of the
page that is still incomplete, overflows. -/
theorem small_ceiling_overflows :
    ((written crc32 [pageAB]).take 30).length = 30
    ∧ ((written crc32 [pageAB]).drop 30).length = 5
    ∧ demuxRun crc32 30 [(written crc32 [pageAB]).take 30, (written crc32 [pageAB]).drop 30]
        = Except.error SyncError.SyncBufferOverflow := by
  refine ⟨?_, ?_, ?_⟩
  · rfl
  · rfl
  · rfl

/-- The three packets go out on two pages. -/
theorem three_packets_two_pages : muxRun 4096 7 scriptACD = Except.ok [pageA, pageCD] := rfl

/-- C8, as stated, fails on the multiplexer of the specification, and each restriction of
the amended statement is needed.  Two packets with granule positions 480 and 960 that the
encoder side accepts and that are flushed together go out on one page; the decoder side
yields both byte for byte, but both stamped 960, the granule position of the page: the
granule position 480 of the first packet is not recovered.  A packet sequence whose
granule positions regress (960 then 480) and one with a packet after the end-of-stream
packet are rejected with a sequence error, so no byte is written for them.  A granule
position of `2^63`, which does not fit the signed 64-bit field of the page header, comes
back as `-2^63`.  With a ceiling of 30 bytes and the 35 bytes of a page fed as chunks of 30
and 5 bytes, each no larger than the ceiling, the sync buffer overflows. -/
theorem C8_counterexample :
    (acceptable none false (scriptAB.map Prod.fst) = true
      ∧ scriptAB.map (fun x => x.1.granulepos) = [480, 960]
      ∧ muxRun 4096 7 scriptAB = Except.ok [pageAB]
      ∧ demuxRun crc32 100000 [written crc32 [pageAB]]
          = Except.ok [{ data := [1, 2, 3], granulepos := 960 },
              { data := [4, 5, 6], granulepos := 960 }])
    ∧ (acceptable none false (scriptRegress.map Prod.fst) = false
      ∧ scriptRegress.map (fun x => x.1.granulepos) = [960, 480]
      ∧ muxRun 4096 7 scriptRegress = Except.error MuxError.SequenceError)
    ∧ (acceptable none false (scriptAfterEnd.map Prod.fst) = false
      ∧ scriptAfterEnd.map (fun x => x.1.e_o_s) = [true, true]
      ∧ muxRun 4096 7 scriptAfterEnd = Except.error MuxError.SequenceError)
    ∧ (acceptable none false (scriptHuge.map Prod.fst) = true
      ∧ ¬ InRange64 packetHuge.granulepos
      ∧ muxRun 4096 7 scriptHuge = Except.ok [pageHuge]
      ∧ demuxRun crc32 100000 [written crc32 [pageHuge]]
          = Except.ok [{ data := [1, 2, 3], granulepos := -9223372036854775808 }])
    ∧ (((written crc32 [pageAB]).take 30).length = 30
      ∧ ((written crc32 [pageAB]).drop 30).length = 5
      ∧ demuxRun crc32 30 [(written crc32 [pageAB]).take 30, (written crc32 [pageAB]).drop 30]
          = Except.error SyncError.SyncBufferOverflow) :=
  ⟨⟨rfl, rfl, two_packets_one_page.1, two_packets_one_page.2⟩,
    ⟨rfl, rfl, rejected_sequences.1⟩,
    ⟨rfl, rfl, rejected_sequences.2⟩,
    ⟨rfl, fun h => absurd h.2 (by decide), huge_granule_wraps.1, huge_granule_wraps.2⟩,
    small_ceiling_overflows⟩

/-- C8, amended: for every packet sequence the encoder side accepts (no granule position
regresses, nothing follows an end-of-stream packet) whose granule positions fit the
signed 64-bit field of the page header, whatever the caller does after each packet
(nothing, drain, flush), whatever the checksum function, the page-size target and the
serial number, and however the written bytes are cut into chunks, the sync buffer having
room for a chunk and a page of 65307 bytes: the encoder side yields pages, and the
decoder side, fed the chunks, yields the original packets in order, byte for byte.
Every packet completes on one of the pages, and it is stamped with the granule position
of that page.  On every page on which a packet completes, the last packet that completes
there is a packet of the original sequence whose granule position is that of the page, and
it is yielded with its bytes and its own granule position.  With a flush after every
packet each packet is yielded with its own granule position. -/
theorem C8_round_trip (crc : List Nat → Nat) (target serialno ceiling : Nat)
    (script : List (Packet × Drain)) (chunks : List (List Nat))
    (hacc : acceptable none false (script.map Prod.fst) = true)
    (hrange : ∀ x ∈ script, InRange64 x.1.granulepos)
    (hchunks : chunks.flatten = written crc (muxPages target serialno script))
    (hceiling : ∀ c ∈ chunks, c.length + 65307 ≤ ceiling) :
    muxRun target serialno script = Except.ok (muxPages target serialno script)
    ∧ demuxRun crc ceiling chunks = Except.ok (demuxOut crc ceiling chunks)
    ∧ (demuxOut crc ceiling chunks).map OutPacket.data = script.map (fun x => x.1.data)
    ∧ (demuxOut crc ceiling chunks).length = script.length
    ∧ ((muxPages target serialno script).map completions).sum = script.length
    ∧ (demuxOut crc ceiling chunks).map OutPacket.granulepos
        = pageStamps (muxPages target serialno script)
    ∧ (∀ (k : Nat) (pg : Page), (muxPages target serialno script)[k]? = some pg →
        0 < completions pg →
        ∃ x : Packet × Drain,
          script[lastOnPage (muxPages target serialno script) k]? = some x
          ∧ x.1.granulepos = pg.granulepos
          ∧ (demuxOut crc ceiling chunks)[lastOnPage (muxPages target serialno script) k]?
              = some { data := x.1.data, granulepos := x.1.granulepos })
    ∧ ((∀ x ∈ script, x.2 = Drain.flush) →
        (demuxOut crc ceiling chunks).map OutPacket.granulepos
          = script.map (fun x => x.1.granulepos)) := by
  obtain ⟨pages, hm⟩ := muxRun_accepts target serialno script hacc
  have hpages : muxPages target serialno script = pages := by simp only [muxPages, hm]
  rw [hpages] at hchunks ⊢
  obtain ⟨hfit, hdata, hsum, hstamp, hlast⟩ := muxRun_sent target serialno script pages hrange hm
  have hrun : demuxRun crc ceiling chunks
      = Except.ok (packetsOut Demux.init (pages.map wire)).2 :=
    demuxChunks_written crc ceiling chunks [] Demux.init pages hfit (Or.inl rfl)
      (by simpa using hchunks) hceiling
  have hout : demuxOut crc ceiling chunks = (packetsOut Demux.init (pages.map wire)).2 := by
    simp only [demuxOut, hrun]
  rw [hout]
  refine ⟨hm, hrun, hdata, ?_, hsum, hstamp, fun k pg hk hc => ?_, fun hfl => ?_⟩
  · have := congrArg List.length hdata
    simpa using this
  · have h1 := hlast k pg hk hc
    have h2 := pageLast_stamps pages k pg hk hc
    rw [← hstamp] at h2
    rw [List.getElem?_map] at h1 h2
    cases hx : script[lastOnPage pages k]? with
    | none => rw [hx] at h1; cases h1
    | some x =>
      rw [hx] at h1
      simp only [Option.map_some', Option.some.injEq] at h1
      refine ⟨x, rfl, h1, ?_⟩
      cases ho : (packetsOut Demux.init (pages.map wire)).2[lastOnPage pages k]? with
      | none => rw [ho] at h2; cases h2
      | some o =>
        rw [ho] at h2
        simp only [Option.map_some', Option.some.injEq] at h2
        have hd := congrArg (fun l => l[lastOnPage pages k]?) hdata
        simp only [List.getElem?_map, ho, hx, Option.map_some', Option.some.injEq] at hd
        obtain ⟨od, og⟩ := o
        simp only at h2 hd
        rw [hd, h2, h1]
  · unfold muxRun at hm
    cases h1 : muxSteps target (Mux.init serialno) script with
    | error e => simp [h1] at hm
    | ok r1 =>
      obtain ⟨pgs1, m1⟩ := r1
      rw [h1] at hm
      simp only [Except.ok.injEq] at hm
      have hA : Agree (Mux.init serialno) Demux.init := by
        refine ⟨by simp [Mux.init], by simp [Mux.init], by simp [Demux.init],
          by simp [Demux.init], Or.inl rfl, ?_, by simp [Mux.init, terminals]⟩
        simp [Mux.init, InRange64]
      obtain ⟨hp1, hg1⟩ := muxSteps_flushed target script (Mux.init serialno) Demux.init pgs1 m1
        hA rfl hrange hfl h1
      have hnone : (m1.flush target).1 = [] := by
        unfold Mux.flush
        rw [hp1]
        rfl
      rw [hnone, List.append_nil] at hm
      rw [← hm]
      exact hg1

/-- C8, amended, for three packets with granule positions 480, 960 and 1440, the first
flushed on its own and the other two flushed together, the written bytes cut after the
tenth: the packets go out on two pages and come back byte for byte, stamped 480, 1440 and
1440; the last packet of the first page, of index 0, and the last packet of the second
page, of index 2, come back with their own granule positions. -/
theorem C8_round_trip_witness :
    acceptable none false (scriptACD.map Prod.fst) = true
    ∧ scriptACD.map (fun x => x.1.granulepos) = [480, 960, 1440]
    ∧ muxRun 4096 7 scriptACD = Except.ok [pageA, pageCD]
    ∧ demuxRun crc32 100000 chunksACD = Except.ok (demuxOut crc32 100000 chunksACD)
    ∧ (demuxOut crc32 100000 chunksACD).map OutPacket.data
        = [[1, 2, 3], [7, 8, 9], [10, 11, 12]]
    ∧ (demuxOut crc32 100000 chunksACD).map OutPacket.granulepos = [480, 1440, 1440]
    ∧ lastOnPage [pageA, pageCD] 0 = 0
    ∧ lastOnPage [pageA, pageCD] 1 = 2 :=
  have hr : ∀ x ∈ scriptACD, InRange64 x.1.granulepos := by
    intro x hx
    simp only [scriptACD, List.mem_cons, List.mem_singleton, List.not_mem_nil, or_false] at hx
    rcases hx with rfl | rfl | rfl <;> exact ⟨by decide, by decide⟩
  have hp : muxPages 4096 7 scriptACD = [pageA, pageCD] := rfl
  have hc : ∀ c ∈ chunksACD, c.length + 65307 ≤ 100000 := by
    intro c hcm
    have hlen : (written crc32 (muxPages 4096 7 scriptACD)).length = 66 := by
      rw [hp]
      simp [written, buildPage_length, pageA, pageCD]
    simp only [chunksACD, List.mem_cons, List.mem_singleton, List.not_mem_nil, or_false] at hcm
    rcases hcm with rfl | rfl
    · rw [List.length_take]
      omega
    · rw [List.length_drop]
      omega
  have h := C8_round_trip crc32 4096 7 100000 scriptACD chunksACD rfl hr
    (by simp [chunksACD]) hc
  ⟨rfl, rfl, three_packets_two_pages, h.2.1, h.2.2.1.trans rfl, h.2.2.2.2.2.1.trans rfl,
    rfl, rfl⟩

end OggSpec
